import Mathlib

/-!
# RPC client argument conversion (`src/rpc/client.cpp`)

A shallow embedding of the argument-marshalling layer of the JSON-RPC command
line client: the conversion rule table `vRPCConvertParams`, the lookup class
`CRPCConvertTable`, the lenient value parser `ParseNonRFCJSONValue` and the two
converters `RPCConvertValues` and `RPCConvertNamedValues`.

C++ exceptions (`std::runtime_error`) are modelled as `Except String`, the
string being the message of the exception.  `std::vector` is `List`, and
`std::set` is a duplicate-free `List` observed only through `count`.
-/

set_option autoImplicit false

namespace RpcClient

/-! ## The rule table -/

/-- One conversion rule: `class CRPCConvertParam`. -/
structure CRPCConvertParam where
  /-- method whose params want conversion -/
  methodName : String
  /-- 0-based idx of param to convert (a C++ `int`) -/
  paramIdx : Int
  /-- parameter name -/
  paramName : String
  deriving DecidableEq, Repr

/-- The static table `vRPCConvertParams`, in source order. -/
def vRPCConvertParams : List CRPCConvertParam :=
  ⟨"setmocktime", 0, "timestamp"⟩ ::
  ⟨"generate", 0, "nblocks"⟩ ::
  ⟨"generate", 1, "maxtries"⟩ ::
  ⟨"generatetoaddress", 0, "nblocks"⟩ ::
  ⟨"generatetoaddress", 2, "maxtries"⟩ ::
  ⟨"getnetworkhashps", 0, "nblocks"⟩ ::
  ⟨"getnetworkhashps", 1, "height"⟩ ::
  ⟨"sendtoaddress", 1, "amount"⟩ ::
  ⟨"sendtoaddress", 4, "subtractfeefromamount"⟩ ::
  ⟨"sendtoaddress", 5, "replaceable"⟩ ::
  ⟨"sendtoaddress", 6, "conf_target"⟩ ::
  ⟨"settxfee", 0, "amount"⟩ ::
  ⟨"getreceivedbyaddress", 1, "minconf"⟩ ::
  ⟨"getreceivedbyaccount", 1, "minconf"⟩ ::
  ⟨"listreceivedbyaddress", 0, "minconf"⟩ ::
  ⟨"listreceivedbyaddress", 1, "include_empty"⟩ ::
  ⟨"listreceivedbyaddress", 2, "include_watchonly"⟩ ::
  ⟨"listreceivedbyaccount", 0, "minconf"⟩ ::
  ⟨"listreceivedbyaccount", 1, "include_empty"⟩ ::
  ⟨"listreceivedbyaccount", 2, "include_watchonly"⟩ ::
  ⟨"getbalance", 1, "minconf"⟩ ::
  ⟨"getbalance", 2, "include_watchonly"⟩ ::
  ⟨"getblockhash", 0, "height"⟩ ::
  ⟨"waitforblockheight", 0, "height"⟩ ::
  ⟨"waitforblockheight", 1, "timeout"⟩ ::
  ⟨"waitforblock", 1, "timeout"⟩ ::
  ⟨"waitfornewblock", 0, "timeout"⟩ ::
  ⟨"move", 2, "amount"⟩ ::
  ⟨"move", 3, "minconf"⟩ ::
  ⟨"sendfrom", 2, "amount"⟩ ::
  ⟨"sendfrom", 3, "minconf"⟩ ::
  ⟨"listtransactions", 1, "count"⟩ ::
  ⟨"listtransactions", 2, "skip"⟩ ::
  ⟨"listtransactions", 3, "include_watchonly"⟩ ::
  ⟨"listaccounts", 0, "minconf"⟩ ::
  ⟨"listaccounts", 1, "include_watchonly"⟩ ::
  ⟨"walletpassphrase", 1, "timeout"⟩ ::
  ⟨"walletpassphrase", 2, "stakingonly"⟩ ::
  ⟨"getblocktemplate", 0, "template_request"⟩ ::
  ⟨"listsinceblock", 1, "target_confirmations"⟩ ::
  ⟨"listsinceblock", 2, "include_watchonly"⟩ ::
  ⟨"listsinceblock", 3, "include_removed"⟩ ::
  ⟨"sendmany", 1, "amounts"⟩ ::
  ⟨"sendmany", 2, "minconf"⟩ ::
  ⟨"sendmany", 4, "subtractfeefrom"⟩ ::
  ⟨"sendmany", 5, "replaceable"⟩ ::
  ⟨"sendmany", 6, "conf_target"⟩ ::
  ⟨"addmultisigaddress", 0, "nrequired"⟩ ::
  ⟨"addmultisigaddress", 1, "keys"⟩ ::
  ⟨"createmultisig", 0, "nrequired"⟩ ::
  ⟨"createmultisig", 1, "keys"⟩ ::
  ⟨"listunspent", 0, "minconf"⟩ ::
  ⟨"listunspent", 1, "maxconf"⟩ ::
  ⟨"listunspent", 2, "addresses"⟩ ::
  ⟨"listunspent", 3, "include_unsafe"⟩ ::
  ⟨"listunspent", 4, "query_options"⟩ ::
  ⟨"getblock", 1, "verbosity"⟩ ::
  ⟨"getblockheader", 1, "verbose"⟩ ::
  ⟨"getchaintxstats", 0, "nblocks"⟩ ::
  ⟨"gettransaction", 1, "include_watchonly"⟩ ::
  ⟨"getrawtransaction", 1, "verbose"⟩ ::
  ⟨"createrawtransaction", 0, "inputs"⟩ ::
  ⟨"createrawtransaction", 1, "outputs"⟩ ::
  ⟨"createrawtransaction", 2, "locktime"⟩ ::
  ⟨"createrawtransaction", 3, "replaceable"⟩ ::
  ⟨"signrawtransaction", 1, "prevtxs"⟩ ::
  ⟨"signrawtransaction", 2, "privkeys"⟩ ::
  ⟨"sendrawtransaction", 1, "allowhighfees"⟩ ::
  ⟨"combinerawtransaction", 0, "txs"⟩ ::
  ⟨"fundrawtransaction", 1, "options"⟩ ::
  ⟨"gettxout", 1, "n"⟩ ::
  ⟨"gettxout", 2, "include_mempool"⟩ ::
  ⟨"gettxoutproof", 0, "txids"⟩ ::
  ⟨"lockunspent", 0, "unlock"⟩ ::
  ⟨"lockunspent", 1, "transactions"⟩ ::
  ⟨"importprivkey", 2, "rescan"⟩ ::
  ⟨"importaddress", 2, "rescan"⟩ ::
  ⟨"importaddress", 3, "p2sh"⟩ ::
  ⟨"importpubkey", 2, "rescan"⟩ ::
  ⟨"importmulti", 0, "requests"⟩ ::
  ⟨"importmulti", 1, "options"⟩ ::
  ⟨"verifychain", 0, "checklevel"⟩ ::
  ⟨"verifychain", 1, "nblocks"⟩ ::
  ⟨"pruneblockchain", 0, "height"⟩ ::
  ⟨"keypoolrefill", 0, "newsize"⟩ ::
  ⟨"getrawmempool", 0, "verbose"⟩ ::
  ⟨"estimatefee", 0, "nblocks"⟩ ::
  ⟨"estimatesmartfee", 0, "nblocks"⟩ ::
  ⟨"estimaterawfee", 0, "nblocks"⟩ ::
  ⟨"estimaterawfee", 1, "threshold"⟩ ::
  ⟨"prioritisetransaction", 1, "dummy"⟩ ::
  ⟨"prioritisetransaction", 2, "fee_delta"⟩ ::
  ⟨"setban", 2, "bantime"⟩ ::
  ⟨"setban", 3, "absolute"⟩ ::
  ⟨"setnetworkactive", 0, "state"⟩ ::
  ⟨"getmempoolancestors", 1, "verbose"⟩ ::
  ⟨"getmempooldescendants", 1, "verbose"⟩ ::
  ⟨"getblockhashes", 0, "high"⟩ ::
  ⟨"getblockhashes", 1, "low"⟩ ::
  ⟨"getblockhashes", 2, "options"⟩ ::
  ⟨"getspentinfo", 0, "txid_index"⟩ ::
  ⟨"getaddresstxids", 0, "addresses"⟩ ::
  ⟨"getaddressbalance", 0, "addresses"⟩ ::
  ⟨"getaddressdeltas", 0, "addresses"⟩ ::
  ⟨"getaddressutxos", 0, "addresses"⟩ ::
  ⟨"getaddressmempool", 0, "addresses"⟩ ::
  ⟨"bumpfee", 1, "options"⟩ ::
  ⟨"reservebalance", 0, "enabled"⟩ ::
  ⟨"scanchain", 0, "height"⟩ ::
  ⟨"deriverangekeys", 0, "start"⟩ ::
  ⟨"deriverangekeys", 1, "end"⟩ ::
  ⟨"filtertransactions", 0, "count"⟩ ::
  ⟨"filtertransactions", 1, "skip"⟩ ::
  ⟨"filtertransactions", 2, "include_watchonly"⟩ ::
  ⟨"filteraddresses", 0, "offset"⟩ ::
  ⟨"filteraddresses", 1, "count"⟩ ::
  ⟨"setvote", 0, "proposal"⟩ ::
  ⟨"setvote", 1, "option"⟩ ::
  ⟨"setvote", 2, "height_start"⟩ ::
  ⟨"setvote", 3, "height_end"⟩ ::
  ⟨"tallyvotes", 0, "proposal"⟩ ::
  ⟨"tallyvotes", 1, "height_start"⟩ ::
  ⟨"tallyvotes", 2, "height_end"⟩ ::
  ⟨"sendparttoblind", 1, "amount"⟩ ::
  ⟨"sendparttoblind", 4, "subtractfeefromamount"⟩ ::
  ⟨"sendparttoanon", 1, "amount"⟩ ::
  ⟨"sendparttoanon", 4, "subtractfeefromamount"⟩ ::
  ⟨"sendblindtopart", 1, "amount"⟩ ::
  ⟨"sendblindtopart", 4, "subtractfeefromamount"⟩ ::
  ⟨"sendblindtoblind", 1, "amount"⟩ ::
  ⟨"sendblindtoblind", 4, "subtractfeefromamount"⟩ ::
  ⟨"sendblindtoanon", 1, "amount"⟩ ::
  ⟨"sendblindtoanon", 4, "subtractfeefromamount"⟩ ::
  ⟨"sendanontopart", 1, "amount"⟩ ::
  ⟨"sendanontopart", 4, "subtractfeefromamount"⟩ ::
  ⟨"sendanontopart", 6, "ringsize"⟩ ::
  ⟨"sendanontopart", 7, "inputs_per_sig"⟩ ::
  ⟨"sendanontoblind", 1, "amount"⟩ ::
  ⟨"sendanontoblind", 4, "subtractfeefromamount"⟩ ::
  ⟨"sendanontoblind", 6, "ringsize"⟩ ::
  ⟨"sendanontoblind", 7, "inputs_per_sig"⟩ ::
  ⟨"sendanontoanon", 1, "amount"⟩ ::
  ⟨"sendanontoanon", 4, "subtractfeefromamount"⟩ ::
  ⟨"sendanontoanon", 6, "ringsize"⟩ ::
  ⟨"sendanontoanon", 7, "inputs_per_sig"⟩ ::
  ⟨"sendtypeto", 2, "outputs"⟩ ::
  ⟨"sendtypeto", 5, "ringsize"⟩ ::
  ⟨"sendtypeto", 6, "inputs_per_sig"⟩ ::
  ⟨"sendtypeto", 7, "test_fee"⟩ ::
  ⟨"sendtypeto", 8, "coincontrol"⟩ ::
  ⟨"buildscript", 0, "json"⟩ ::
  ⟨"walletsettings", 1, "json"⟩ ::
  ⟨"getnewextaddress", 1, "childno"⟩ ::
  ⟨"listunspentanon", 0, "minconf"⟩ ::
  ⟨"listunspentanon", 1, "maxconf"⟩ ::
  ⟨"listunspentanon", 2, "addresses"⟩ ::
  ⟨"listunspentanon", 3, "include_unsafe"⟩ ::
  ⟨"listunspentanon", 4, "query_options"⟩ ::
  ⟨"listunspentblind", 0, "minconf"⟩ ::
  ⟨"listunspentblind", 1, "maxconf"⟩ ::
  ⟨"listunspentblind", 2, "addresses"⟩ ::
  ⟨"listunspentblind", 3, "include_unsafe"⟩ ::
  ⟨"listunspentblind", 4, "query_options"⟩ ::
  ⟨"smsgsend", 3, "paid_msg"⟩ ::
  ⟨"logging", 0, "include"⟩ ::
  ⟨"logging", 1, "exclude"⟩ ::
  ⟨"disconnectnode", 1, "nodeid"⟩ ::
  ⟨"echojson", 0, "arg0"⟩ ::
  ⟨"echojson", 1, "arg1"⟩ ::
  ⟨"echojson", 2, "arg2"⟩ ::
  ⟨"echojson", 3, "arg3"⟩ ::
  ⟨"echojson", 4, "arg4"⟩ ::
  ⟨"echojson", 5, "arg5"⟩ ::
  ⟨"echojson", 6, "arg6"⟩ ::
  ⟨"echojson", 7, "arg7"⟩ ::
  ⟨"echojson", 8, "arg8"⟩ ::
  ⟨"echojson", 9, "arg9"⟩ ::
  []

/-! ## The lookup table -/

/-- Insertion into a `std::set`: an element already present is not added again. -/
def setInsert {α : Type} [DecidableEq α] (s : List α) (x : α) : List α :=
  if x ∈ s then s else s ++ [x]

/-- The class `CRPCConvertTable`: the two private sets. -/
structure CRPCConvertTable where
  /-- set of (method, index) pairs -/
  members : List (String × Int)
  /-- set of (method, name) pairs -/
  membersByName : List (String × String)
  deriving DecidableEq, Repr

/-- One iteration of the constructor's loop: both inserts for rule `r`. -/
def CRPCConvertTable.insertRule (t : CRPCConvertTable) (r : CRPCConvertParam) :
    CRPCConvertTable :=
  { members := setInsert t.members (r.methodName, r.paramIdx)
    membersByName := setInsert t.membersByName (r.methodName, r.paramName) }

/-- The constructor `CRPCConvertTable::CRPCConvertTable()`, with the array it
walks (`vRPCConvertParams` in the source) made explicit: starting from two
empty sets, every rule is inserted in table order. -/
def CRPCConvertTable.construct (rules : List CRPCConvertParam) : CRPCConvertTable :=
  rules.foldl CRPCConvertTable.insertRule { members := [], membersByName := [] }

/-- Lookup by position: `bool convert(const std::string& method, int idx)`. -/
def CRPCConvertTable.convert (t : CRPCConvertTable) (method : String) (idx : Int) : Bool :=
  decide (t.members.count (method, idx) > 0)

/-- Lookup by name:
`bool convert(const std::string& method, const std::string& name)`. -/
def CRPCConvertTable.convertByName (t : CRPCConvertTable) (method : String)
    (name : String) : Bool :=
  decide (t.membersByName.count (method, name) > 0)

/-- The global `static CRPCConvertTable rpcCvtTable`. -/
def rpcCvtTable : CRPCConvertTable :=
  CRPCConvertTable.construct vRPCConvertParams

/-! ## JSON values -/

/-- The JSON value class `UniValue`: one constructor per value type.  A number
keeps the text of its literal, an object keeps its entries in insertion order. -/
inductive UniValue where
  | VNULL
  | VBOOL (b : Bool)
  | VNUM (val : String)
  | VSTR (val : String)
  | VARR (values : List UniValue)
  | VOBJ (entries : List (String × UniValue))

namespace UniValue

/-- The test `isArray()`. -/
def isArray : UniValue → Bool
  | VARR _ => true
  | _ => false

/-- The count `size()`: number of elements of an array, of entries of an
object, zero for a scalar. -/
def size : UniValue → Nat
  | VARR values => values.length
  | VOBJ entries => entries.length
  | _ => 0

/-- The positional access `operator[](size_t)`: the element of an array or the
value of an object entry at `index`, the null value when there is none. -/
def elemAt (jv : UniValue) (index : Nat) : UniValue :=
  match jv with
  | VARR values => values.getD index VNULL
  | VOBJ entries => (entries.map Prod.snd).getD index VNULL
  | _ => VNULL

/-- The append `push_back(val)`: adds `val` at the end of an array; any other
value is left as it is. -/
def push_back (jv : UniValue) (val : UniValue) : UniValue :=
  match jv with
  | VARR values => VARR (values ++ [val])
  | other => other

/-- Replace the value of the first entry whose key is `key`, or add the entry
at the end when no entry has that key. -/
def setEntry (key : String) (val : UniValue) :
    List (String × UniValue) → List (String × UniValue)
  | [] => [(key, val)]
  | (k, v) :: rest =>
    if k = key then (k, val) :: rest else (k, v) :: setEntry key val rest

/-- Modelled from the spec: `UniValue::pushKV`, whose source is not part of
`client.cpp`.  The named converter must "insert into the output mapping in the
order tokens were supplied; if the same name appears twice, the later
occurrence overwrites the earlier", with "mapping semantics: unique keys": a
new key is appended, an existing key keeps its place and takes the new value.
Any value that is not an object is left as it is. -/
def pushKV (jv : UniValue) (key : String) (val : UniValue) : UniValue :=
  match jv with
  | VOBJ entries => VOBJ (setEntry key val entries)
  | other => other

/-- The keys of an object, in order (`getKeys()`); empty for other values. -/
def getKeys : UniValue → List String
  | VOBJ entries => entries.map Prod.fst
  | _ => []

/-- Lookup by key (`operator[](const std::string&)`): the value of the first
entry with that key. -/
def find (jv : UniValue) (key : String) : Option UniValue :=
  match jv with
  | VOBJ entries => (entries.find? (fun e => decide (e.1 = key))).map Prod.snd
  | _ => none

end UniValue

/-! ## The JSON reader

`UniValue::read` is not part of `client.cpp`.  It is modelled here as a reader
for the value grammar the specification gives: a tokenizer that walks the text
one character at a time, and a stack machine over the tokens.  Both are
structural recursions, so the reader is a total function. -/

/-- The tokens of JSON text. -/
inductive Token where
  | objOpen
  | objClose
  | arrOpen
  | arrClose
  | colon
  | comma
  | kwNull
  | kwTrue
  | kwFalse
  | number (text : String)
  | string (text : String)
  deriving DecidableEq, Repr

/-- JSON whitespace: space, tab, line feed, carriage return. -/
def isJsonSpace (c : Char) : Bool :=
  c = ' ' || c = '\t' || c = '\n' || c = '\r'

/-- States of the number recogniser. -/
inductive NumState where
  | begin
  | minus
  | zero
  | int
  | dot
  | frac
  | expMark
  | expSign
  | exp
  deriving DecidableEq, Repr

/-- One character of a number literal:
`-? (0 | [1-9][0-9]*) (. [0-9]+)? ([eE] [+-]? [0-9]+)?`. -/
def numStep (st : NumState) (c : Char) : Option NumState :=
  match st with
  | .begin =>
    if c = '-' then some .minus
    else if c = '0' then some .zero
    else if c.isDigit then some .int
    else none
  | .minus =>
    if c = '0' then some .zero
    else if c.isDigit then some .int
    else none
  | .zero =>
    if c = '.' then some .dot
    else if c = 'e' || c = 'E' then some .expMark
    else none
  | .int =>
    if c.isDigit then some .int
    else if c = '.' then some .dot
    else if c = 'e' || c = 'E' then some .expMark
    else none
  | .dot => if c.isDigit then some .frac else none
  | .frac =>
    if c.isDigit then some .frac
    else if c = 'e' || c = 'E' then some .expMark
    else none
  | .expMark =>
    if c = '+' || c = '-' then some .expSign
    else if c.isDigit then some .exp
    else none
  | .expSign => if c.isDigit then some .exp else none
  | .exp => if c.isDigit then some .exp else none

/-- The states in which a number literal may end. -/
def numAccept : NumState → Bool
  | .zero | .int | .frac | .exp => true
  | _ => false

/-- Run the number recogniser over a text. -/
def numRun : NumState → List Char → Bool
  | st, [] => numAccept st
  | st, c :: cs =>
    match numStep st c with
    | none => false
    | some st' => numRun st' cs

/-- Whether a text is a JSON number literal (integer or floating point, with
optional sign and exponent). -/
def isJsonNumber (cs : List Char) : Bool :=
  numRun .begin cs

/-- The token of an unquoted run of characters: one of the three keywords, or
a number; anything else is not JSON. -/
def atomToken (acc : List Char) : Option Token :=
  if acc = ['n', 'u', 'l', 'l'] then some .kwNull
  else if acc = ['t', 'r', 'u', 'e'] then some .kwTrue
  else if acc = ['f', 'a', 'l', 's', 'e'] then some .kwFalse
  else if isJsonNumber acc then some (.number (String.mk acc))
  else none

/-- The value of a hexadecimal digit. -/
def hexDigit (c : Char) : Option Nat :=
  if '0' ≤ c ∧ c ≤ '9' then some (c.toNat - '0'.toNat)
  else if 'a' ≤ c ∧ c ≤ 'f' then some (c.toNat - 'a'.toNat + 10)
  else if 'A' ≤ c ∧ c ≤ 'F' then some (c.toNat - 'A'.toNat + 10)
  else none

/-- States of the tokenizer.  `acc` is the text gathered so far for the token
being read. -/
inductive LexState where
  /-- between tokens -/
  | start
  /-- inside an unquoted run (keyword or number) -/
  | atom (acc : List Char)
  /-- inside a double-quoted string -/
  | str (acc : List Char)
  /-- just after a backslash inside a string -/
  | esc (acc : List Char)
  /-- inside `\uXXXX`: `n` digits read, of value `v`; `hi` is a pending high
  surrogate -/
  | hex (acc : List Char) (hi : Option Nat) (n : Nat) (v : Nat)
  /-- after a high surrogate: the backslash of the low surrogate must follow -/
  | pairBackslash (acc : List Char) (hi : Nat)
  /-- after a high surrogate and a backslash: `u` must follow -/
  | pairU (acc : List Char) (hi : Nat)
  deriving DecidableEq, Repr

/-- What a character that cannot be part of an unquoted run does between
tokens: whitespace is skipped, a structural character is a token, a double
quote opens a string.  `none` for every other character. -/
def delimStep (c : Char) : Option (LexState × List Token) :=
  if isJsonSpace c then some (.start, [])
  else if c = '{' then some (.start, [.objOpen])
  else if c = '}' then some (.start, [.objClose])
  else if c = '[' then some (.start, [.arrOpen])
  else if c = ']' then some (.start, [.arrClose])
  else if c = ':' then some (.start, [.colon])
  else if c = ',' then some (.start, [.comma])
  else if c = '"' then some (.str [], [])
  else none

/-- The character an escape `\uXXXX` (or a surrogate pair of them) stands for,
once its four digits are read. -/
def hexDone (acc : List Char) (hi : Option Nat) (cp : Nat) : Option LexState :=
  match hi with
  | none =>
    if 0xD800 ≤ cp ∧ cp < 0xDC00 then some (.pairBackslash acc cp)
    else if 0xDC00 ≤ cp ∧ cp < 0xE000 then none
    else some (.str (acc ++ [Char.ofNat cp]))
  | some h =>
    if 0xDC00 ≤ cp ∧ cp < 0xE000 then
      some (.str (acc ++ [Char.ofNat (0x10000 + (h - 0xD800) * 0x400 + (cp - 0xDC00))]))
    else none

/-- One character of the tokenizer: the next state and the tokens completed by
this character, or `none` when the text is not JSON. -/
def lexStep (st : LexState) (c : Char) : Option (LexState × List Token) :=
  match st with
  | .start =>
    match delimStep c with
    | some r => some r
    | none => some (.atom [c], [])
  | .atom acc =>
    match delimStep c with
    | some (st', toks) => (atomToken acc).map (fun t => (st', t :: toks))
    | none => some (.atom (acc ++ [c]), [])
  | .str acc =>
    if c = '"' then some (.start, [.string (String.mk acc)])
    else if c = '\\' then some (.esc acc, [])
    else if c.toNat < 0x20 then none
    else some (.str (acc ++ [c]), [])
  | .esc acc =>
    if c = '"' then some (.str (acc ++ ['"']), [])
    else if c = '\\' then some (.str (acc ++ ['\\']), [])
    else if c = '/' then some (.str (acc ++ ['/']), [])
    else if c = 'b' then some (.str (acc ++ [Char.ofNat 8]), [])
    else if c = 'f' then some (.str (acc ++ [Char.ofNat 12]), [])
    else if c = 'n' then some (.str (acc ++ ['\n']), [])
    else if c = 'r' then some (.str (acc ++ ['\r']), [])
    else if c = 't' then some (.str (acc ++ ['\t']), [])
    else if c = 'u' then some (.hex acc none 0 0, [])
    else none
  | .hex acc hi n v =>
    match hexDigit c with
    | none => none
    | some d =>
      if n < 3 then some (.hex acc hi (n + 1) (v * 16 + d), [])
      else (hexDone acc hi (v * 16 + d)).map (fun st' => (st', []))
  | .pairBackslash acc hi => if c = '\\' then some (.pairU acc hi, []) else none
  | .pairU acc hi => if c = 'u' then some (.hex acc (some hi) 0 0, []) else none

/-- End of text: a pending unquoted run is closed; an open string is an error. -/
def lexFinish : LexState → Option (List Token)
  | .start => some []
  | .atom acc => (atomToken acc).map (fun t => [t])
  | _ => none

/-- The tokenizer: the tokens of a text, or `none` when it is not JSON. -/
def lex : LexState → List Char → Option (List Token)
  | st, [] => lexFinish st
  | st, c :: cs =>
    match lexStep st c with
    | none => none
    | some (st', toks) => (lex st' cs).map (fun rest => toks ++ rest)

/-- An open container on the reader's stack. -/
inductive Frame where
  /-- an array with the elements read so far -/
  | arr (values : List UniValue)
  /-- an object with the entries read so far -/
  | obj (entries : List (String × UniValue))
  /-- an object whose next key is read and whose value is awaited -/
  | objKey (entries : List (String × UniValue)) (key : String)

/-- What the reader accepts next. -/
inductive Expect where
  | value
  | valueOrClose
  | key
  | keyOrClose
  | colon
  | commaOrClose
  deriving DecidableEq, Repr

/-- States of the reader: running with a stack of open containers, or done
with the value read. -/
inductive ReadState where
  | run (e : Expect) (stack : List Frame)
  | done (v : UniValue)

/-- A value is complete: it is the result when no container is open, else it
joins the innermost open container. -/
def deliver (v : UniValue) : List Frame → Option ReadState
  | [] => some (.done v)
  | .arr values :: stack => some (.run .commaOrClose (.arr (values ++ [v]) :: stack))
  | .objKey entries key :: stack =>
    some (.run .commaOrClose (.obj (entries ++ [(key, v)]) :: stack))
  | .obj _ :: _ => none

/-- A token that starts a value, where a value is accepted. -/
def valueStep (stack : List Frame) : Token → Option ReadState
  | .kwNull => deliver .VNULL stack
  | .kwTrue => deliver (.VBOOL true) stack
  | .kwFalse => deliver (.VBOOL false) stack
  | .number text => deliver (.VNUM text) stack
  | .string text => deliver (.VSTR text) stack
  | .arrOpen => some (.run .valueOrClose (.arr [] :: stack))
  | .objOpen => some (.run .keyOrClose (.obj [] :: stack))
  | _ => none

/-- A closing bracket: the innermost open container must be an array. -/
def closeArr : List Frame → Option ReadState
  | .arr values :: stack => deliver (.VARR values) stack
  | _ => none

/-- A closing brace: the innermost open container must be an object. -/
def closeObj : List Frame → Option ReadState
  | .obj entries :: stack => deliver (.VOBJ entries) stack
  | _ => none

/-- A key, where a key is accepted. -/
def keyStep : List Frame → Token → Option ReadState
  | .obj entries :: stack, .string text => some (.run .colon (.objKey entries text :: stack))
  | _, _ => none

/-- One token of the reader. -/
def readStep (st : ReadState) (tok : Token) : Option ReadState :=
  match st with
  | .done _ => none
  | .run .value stack => valueStep stack tok
  | .run .valueOrClose stack =>
    if tok = .arrClose then closeArr stack else valueStep stack tok
  | .run .key stack => keyStep stack tok
  | .run .keyOrClose stack =>
    if tok = .objClose then closeObj stack else keyStep stack tok
  | .run .colon stack => if tok = .colon then some (.run .value stack) else none
  | .run .commaOrClose stack =>
    if tok = .comma then
      match stack with
      | .arr _ :: _ => some (.run .value stack)
      | .obj _ :: _ => some (.run .key stack)
      | _ => none
    else if tok = .arrClose then closeArr stack
    else if tok = .objClose then closeObj stack
    else none

/-- Run the reader over the tokens: the value read, when the tokens are exactly
one JSON value. -/
def readTokens : ReadState → List Token → Option UniValue
  | .done v, [] => some v
  | .run _ _, [] => none
  | st, tok :: toks =>
    match readStep st tok with
    | none => none
    | some st' => readTokens st' toks

/-- Modelled from the spec: `UniValue::read`, whose source is not part of
`client.cpp`.  It accepts "any syntactically valid JSON value — object, array,
number (integer or floating point, optional sign/exponent), boolean
(`true`/`false`), `null`, or a double-quoted string", a bare scalar at top
level included, and "unquoted bare words other than `true`/`false`/`null` are
rejected".  `some v` stands for the C++ result `true` with the value `v` read,
`none` for `false`. -/
def UniValue.read (raw : String) : Option UniValue :=
  match lex .start raw.data with
  | none => none
  | some toks => readTokens (.run .value []) toks

/-! ## The value parser and the two converters -/

/-- Non-RFC4627 JSON parser, accepts internal values (such as numbers, true,
false, null) as well as objects and arrays: `ParseNonRFCJSONValue`. -/
def ParseNonRFCJSONValue (strVal : String) : Except String UniValue :=
  match UniValue.read ("[" ++ strVal ++ "]") with
  | none => .error ("Error parsing JSON:" ++ strVal)
  | some jVal =>
    if !jVal.isArray || jVal.size != 1 then .error ("Error parsing JSON:" ++ strVal)
    else .ok (jVal.elemAt 0)

/-- The conversion of the loop counter (`unsigned int`, 32 bits) to the `int`
parameter of `convert`. -/
def unsignedToInt (idx : Nat) : Int :=
  if idx % 2 ^ 32 < 2 ^ 31 then ((idx % 2 ^ 32 : Nat) : Int)
  else ((idx % 2 ^ 32 : Nat) : Int) - 2 ^ 32

/-- The loop of `RPCConvertValues`, from counter value `idx` on: `strParams`
holds the arguments not yet visited, `params` the array built so far. -/
def RPCConvertValues.loop (strMethod : String) :
    Nat → List String → UniValue → Except String UniValue
  | _, [], params => .ok params
  | idx, strVal :: rest, params =>
    if !rpcCvtTable.convert strMethod (unsignedToInt idx) then
      -- insert string value directly
      RPCConvertValues.loop strMethod (idx + 1) rest (params.push_back (.VSTR strVal))
    else
      -- parse string as JSON, insert bool/number/object/etc. value
      match ParseNonRFCJSONValue strVal with
      | .error e => .error e
      | .ok v => RPCConvertValues.loop strMethod (idx + 1) rest (params.push_back v)

/-- The positional converter `RPCConvertValues`.  The source counts with a
32-bit `unsigned int`; the embedding is the source's behaviour on argument
vectors of fewer than `2 ^ 32` entries, on which the counter does not wrap. -/
def RPCConvertValues (strMethod : String) (strParams : List String) :
    Except String UniValue :=
  RPCConvertValues.loop strMethod 0 strParams (.VARR [])

/-- The search `s.find("=")`: the position of the first `=`, `none` for
`std::string::npos`. -/
def findEq (s : String) : Option Nat :=
  let pos := s.data.indexOf '='
  if pos < s.data.length then some pos else none

/-- The slice `s.substr(pos, n)`. -/
def substr (s : String) (pos : Nat) (n : Nat) : String :=
  String.mk ((s.data.drop pos).take n)

/-- The slice `s.substr(pos)`, up to the end of `s`. -/
def substrFrom (s : String) (pos : Nat) : String :=
  String.mk (s.data.drop pos)

/-- The message of the exception thrown for a token without `=`. -/
def noEqualsError (s : String) : String :=
  "No '=' in named argument '" ++ s ++
    "', this needs to be present for every argument (even if it is empty)"

/-- The loop of `RPCConvertNamedValues`: `strParams` holds the tokens not yet
visited, `params` the object built so far. -/
def RPCConvertNamedValues.loop (strMethod : String) :
    List String → UniValue → Except String UniValue
  | [], params => .ok params
  | s :: rest, params =>
    match findEq s with
    | none => .error (noEqualsError s)
    | some pos =>
      let name := substr s 0 pos
      let value := substrFrom s (pos + 1)
      if !rpcCvtTable.convertByName strMethod name then
        -- insert string value directly
        RPCConvertNamedValues.loop strMethod rest (params.pushKV name (.VSTR value))
      else
        -- parse string as JSON, insert bool/number/object/etc. value
        match ParseNonRFCJSONValue value with
        | .error e => .error e
        | .ok v => RPCConvertNamedValues.loop strMethod rest (params.pushKV name v)

/-- The named converter `RPCConvertNamedValues`. -/
def RPCConvertNamedValues (strMethod : String) (strParams : List String) :
    Except String UniValue :=
  RPCConvertNamedValues.loop strMethod strParams (.VOBJ [])

/-! ## Reading without the wrapping step -/

/-- Modelled from the spec: the value parser of a target that uses "a JSON
parser library that natively supports parsing a bare scalar at the top level,
eliminating the wrapping step": the reader applied to the raw text itself. -/
def parseBareValue (strVal : String) : Except String UniValue :=
  match UniValue.read strVal with
  | none => .error ("Error parsing JSON:" ++ strVal)
  | some v => .ok v

/-- A reader state seen from inside an enclosing array that holds `values`
already: the array is one more open container at the bottom of the stack, and
a value that is complete joins it. -/
def liftArr (values : List UniValue) : ReadState → ReadState
  | .run e stack => .run e (stack ++ [.arr values])
  | .done v => .run .commaOrClose [.arr (values ++ [v])]

/-- The reader states reached from the initial one: done, or running with an
open container, or awaiting the top-level value. -/
def ReadState.reachable : ReadState → Prop
  | .run e stack => stack ≠ [] ∨ e = .value
  | .done _ => True

/-- The reader states from which only an array of two or more elements can
result: the bottom container is an array that holds two elements, or holds one
and awaits another. -/
def ReadState.twoOrMore : ReadState → Prop
  | .run e stack => ∃ upper values, stack = upper ++ [.arr values] ∧
      (2 ≤ values.length ∨ (1 ≤ values.length ∧ (upper ≠ [] ∨ e = .value)))
  | .done v => ∃ values, v = .VARR values ∧ 2 ≤ values.length

/-! ## The compact text of a value -/

/-- The hexadecimal digit of a value below 16. -/
def hexChar (n : Nat) : Char :=
  if n < 10 then Char.ofNat ('0'.toNat + n) else Char.ofNat ('a'.toNat + (n - 10))

/-- The compact text of one character of a string: a double quote and a
backslash are escaped with a backslash, a control character is written as
`\u00XX`, every other character stands for itself. -/
def escapeChar (c : Char) : List Char :=
  if c = '"' then ['\\', '"']
  else if c = '\\' then ['\\', '\\']
  else if c.toNat < 0x20 then
    ['\\', 'u', '0', '0', hexChar (c.toNat / 16), hexChar (c.toNat % 16)]
  else [c]

/-- The compact text of a string: its characters, escaped, between double
quotes. -/
def writeString (s : String) : List Char :=
  '"' :: (s.data.flatMap escapeChar ++ ['"'])

mutual
/-- The compact text of a value. -/
def writeValue : UniValue → List Char
  | .VNULL => ['n', 'u', 'l', 'l']
  | .VBOOL true => ['t', 'r', 'u', 'e']
  | .VBOOL false => ['f', 'a', 'l', 's', 'e']
  | .VNUM val => val.data
  | .VSTR val => writeString val
  | .VARR values => '[' :: (writeElems values ++ [']'])
  | .VOBJ entries => '{' :: (writeEntries entries ++ ['}'])
/-- The compact text of the elements of an array, separated by commas. -/
def writeElems : List UniValue → List Char
  | [] => []
  | [v] => writeValue v
  | v :: w :: rest => writeValue v ++ ',' :: writeElems (w :: rest)
/-- The compact text of the entries of an object, separated by commas. -/
def writeEntries : List (String × UniValue) → List Char
  | [] => []
  | [(k, v)] => writeString k ++ ':' :: writeValue v
  | (k, v) :: e :: rest =>
    writeString k ++ ':' :: (writeValue v ++ ',' :: writeEntries (e :: rest))
end

/-- Modelled from the spec: `UniValue::write` without indentation, whose source
is not part of `client.cpp`: "re-serializing the resulting JSON value back to
compact text".  A number is written as the text it holds. -/
def UniValue.write (v : UniValue) : String :=
  String.mk (writeValue v)

/-- A token whose text, if it is a number, is a JSON number literal. -/
def Token.valid : Token → Bool
  | .number text => isJsonNumber text.data
  | _ => true

mutual
/-- A value all of whose numbers hold a JSON number literal. -/
def UniValue.valid : UniValue → Bool
  | .VNUM val => isJsonNumber val.data
  | .VARR values => validElems values
  | .VOBJ entries => validEntries entries
  | _ => true
/-- Elements that are all valid. -/
def validElems : List UniValue → Bool
  | [] => true
  | v :: rest => v.valid && validElems rest
/-- Entries whose values are all valid. -/
def validEntries : List (String × UniValue) → Bool
  | [] => true
  | (_, v) :: rest => v.valid && validEntries rest
end

/-- An open container that holds valid values only. -/
def Frame.valid : Frame → Bool
  | .arr values => validElems values
  | .obj entries => validEntries entries
  | .objKey entries _ => validEntries entries

/-- A reader state that holds valid values only. -/
def ReadState.valid : ReadState → Bool
  | .run _ stack => stack.all Frame.valid
  | .done v => v.valid

mutual
/-- The tokens of the compact text of a value. -/
def tokValue : UniValue → List Token
  | .VNULL => [.kwNull]
  | .VBOOL true => [.kwTrue]
  | .VBOOL false => [.kwFalse]
  | .VNUM val => [.number val]
  | .VSTR val => [.string val]
  | .VARR values => .arrOpen :: (tokElems values ++ [.arrClose])
  | .VOBJ entries => .objOpen :: (tokEntries entries ++ [.objClose])
/-- The tokens of the elements of an array, separated by commas. -/
def tokElems : List UniValue → List Token
  | [] => []
  | [v] => tokValue v
  | v :: w :: rest => tokValue v ++ .comma :: tokElems (w :: rest)
/-- The tokens of the entries of an object, separated by commas. -/
def tokEntries : List (String × UniValue) → List Token
  | [] => []
  | [(k, v)] => .string k :: .colon :: tokValue v
  | (k, v) :: e :: rest =>
    .string k :: .colon :: (tokValue v ++ .comma :: tokEntries (e :: rest))
end

/-- A text before which an unquoted run ends: the empty text, or one that
starts with whitespace, a structural character or a double quote. -/
def valueEnd : List Char → Bool
  | [] => true
  | c :: _ => (delimStep c).isSome

/-! ## Registry lemmas -/

theorem mem_setInsert {α : Type} [DecidableEq α] (s : List α) (x y : α) :
    y ∈ setInsert s x ↔ y ∈ s ∨ y = x := by
  unfold setInsert
  split
  · constructor
    · exact fun h => Or.inl h
    · rintro (h | h)
      · exact h
      · subst h; assumption
  · simp

theorem nodup_setInsert {α : Type} [DecidableEq α] (s : List α) (x : α)
    (h : s.Nodup) : (setInsert s x).Nodup := by
  unfold setInsert
  split
  · exact h
  · rename_i hx
    rw [List.nodup_append]
    refine ⟨h, List.nodup_singleton x, ?_⟩
    intro a ha hb
    simp only [List.mem_singleton] at hb
    subst hb
    exact hx ha

theorem mem_members_foldl (rules : List CRPCConvertParam) (t : CRPCConvertTable)
    (p : String × Int) :
    p ∈ (rules.foldl CRPCConvertTable.insertRule t).members ↔
      p ∈ t.members ∨ ∃ r ∈ rules, (r.methodName, r.paramIdx) = p := by
  induction rules generalizing t with
  | nil => simp
  | cons r rs ih =>
    rw [List.foldl_cons, ih]
    simp only [CRPCConvertTable.insertRule, mem_setInsert, List.mem_cons, exists_eq_or_imp]
    constructor
    · rintro ((h | h) | h)
      · exact Or.inl h
      · exact Or.inr (Or.inl h.symm)
      · exact Or.inr (Or.inr h)
    · rintro (h | h | h)
      · exact Or.inl (Or.inl h)
      · exact Or.inl (Or.inr h.symm)
      · exact Or.inr h

theorem mem_membersByName_foldl (rules : List CRPCConvertParam) (t : CRPCConvertTable)
    (p : String × String) :
    p ∈ (rules.foldl CRPCConvertTable.insertRule t).membersByName ↔
      p ∈ t.membersByName ∨ ∃ r ∈ rules, (r.methodName, r.paramName) = p := by
  induction rules generalizing t with
  | nil => simp
  | cons r rs ih =>
    rw [List.foldl_cons, ih]
    simp only [CRPCConvertTable.insertRule, mem_setInsert, List.mem_cons, exists_eq_or_imp]
    constructor
    · rintro ((h | h) | h)
      · exact Or.inl h
      · exact Or.inr (Or.inl h.symm)
      · exact Or.inr (Or.inr h)
    · rintro (h | h | h)
      · exact Or.inl (Or.inl h)
      · exact Or.inl (Or.inr h.symm)
      · exact Or.inr h

/-- Lookup by position on a constructed table is membership in the rule list. -/
theorem convert_construct_iff (rules : List CRPCConvertParam) (m : String) (i : Int) :
    (CRPCConvertTable.construct rules).convert m i = true ↔
      ∃ r ∈ rules, r.methodName = m ∧ r.paramIdx = i := by
  unfold CRPCConvertTable.convert CRPCConvertTable.construct
  rw [decide_eq_true_iff, gt_iff_lt, List.count_pos_iff, mem_members_foldl]
  simp [Prod.ext_iff]

/-- Lookup by name on a constructed table is membership in the rule list. -/
theorem convertByName_construct_iff (rules : List CRPCConvertParam) (m n : String) :
    (CRPCConvertTable.construct rules).convertByName m n = true ↔
      ∃ r ∈ rules, r.methodName = m ∧ r.paramName = n := by
  unfold CRPCConvertTable.convertByName CRPCConvertTable.construct
  rw [decide_eq_true_iff, gt_iff_lt, List.count_pos_iff, mem_membersByName_foldl]
  simp [Prod.ext_iff]



/-- Lookup by position on the global table. -/
theorem convert_iff (m : String) (i : Int) :
    rpcCvtTable.convert m i = true ↔
      ∃ r ∈ vRPCConvertParams, r.methodName = m ∧ r.paramIdx = i :=
  convert_construct_iff vRPCConvertParams m i

/-- Lookup by name on the global table. -/
theorem convertByName_iff (m n : String) :
    rpcCvtTable.convertByName m n = true ↔
      ∃ r ∈ vRPCConvertParams, r.methodName = m ∧ r.paramName = n :=
  convertByName_construct_iff vRPCConvertParams m n

/-- Every rule of the table has its position between 0 and 9. -/
theorem paramIdx_range : ∀ r ∈ vRPCConvertParams, 0 ≤ r.paramIdx ∧ r.paramIdx ≤ 9 := by
  set_option maxRecDepth 100000 in decide

/-- A position the global table converts lies between 0 and 9. -/
theorem convert_range (m : String) (i : Int) (h : rpcCvtTable.convert m i = true) :
    0 ≤ i ∧ i ≤ 9 := by
  obtain ⟨r, hr, -, rfl⟩ := (convert_iff m i).1 h
  exact paramIdx_range r hr

/-- Below `2 ^ 32` the cast of the loop counter does not change the lookup. -/
theorem convert_unsignedToInt (m : String) (idx : Nat) (h : idx < 2 ^ 32) :
    rpcCvtTable.convert m (unsignedToInt idx) = rpcCvtTable.convert m (idx : Int) := by
  unfold unsignedToInt
  rw [Nat.mod_eq_of_lt h]
  split
  · rfl
  · rename_i hge
    have h1 : rpcCvtTable.convert m ((idx : Int) - 2 ^ 32) = false := by
      by_contra hc
      have := convert_range m _ (by simpa using hc)
      omega
    have h2 : rpcCvtTable.convert m (idx : Int) = false := by
      by_contra hc
      have := convert_range m _ (by simpa using hc)
      omega
    rw [h1, h2]

/-- C3. The registry lookups are exact membership tests on the rule table: a
lookup by position (by name) is true exactly when some rule of
`vRPCConvertParams` has that method and that position (that name); the rule
`("generate", 1)` does not make `("generatetoaddress", 1)` true, and a pair
without a rule yields `false`. -/
theorem C3_convert_exact_membership :
    (∀ (m : String) (i : Int), rpcCvtTable.convert m i = true ↔
        ∃ r ∈ vRPCConvertParams, r.methodName = m ∧ r.paramIdx = i) ∧
    (∀ (m n : String), rpcCvtTable.convertByName m n = true ↔
        ∃ r ∈ vRPCConvertParams, r.methodName = m ∧ r.paramName = n) ∧
    (∀ (m : String) (i : Int),
        (¬ ∃ r ∈ vRPCConvertParams, r.methodName = m ∧ r.paramIdx = i) ↔
          rpcCvtTable.convert m i = false) ∧
    (∀ (m n : String),
        (¬ ∃ r ∈ vRPCConvertParams, r.methodName = m ∧ r.paramName = n) ↔
          rpcCvtTable.convertByName m n = false) ∧
    (rpcCvtTable.convert "generate" 1 = true ∧
      rpcCvtTable.convert "generatetoaddress" 1 = false) := by
  refine ⟨convert_iff, convertByName_iff, ?_, ?_, ?_, ?_⟩
  · intro m i
    rw [← convert_iff, Bool.not_eq_true]
  · intro m n
    rw [← convertByName_iff, Bool.not_eq_true]
  · exact (convert_iff _ _).2 ⟨⟨"generate", 1, "maxtries"⟩, by
      set_option maxRecDepth 100000 in decide, rfl, rfl⟩
  · rw [← Bool.not_eq_true, convert_iff]
    set_option maxRecDepth 100000 in decide



/-! ## The value parser -/

/-- The only error of the value parser is the one carrying the raw text. -/
theorem parse_error_msg (raw e : String) (h : ParseNonRFCJSONValue raw = .error e) :
    e = "Error parsing JSON:" ++ raw := by
  unfold ParseNonRFCJSONValue at h
  split at h
  · exact (Except.error.inj h).symm
  · split at h
    · exact (Except.error.inj h).symm
    · cases h

/-- The value parser either returns a value or fails. -/
theorem parse_ok_or_error (raw : String) :
    (∃ v, ParseNonRFCJSONValue raw = .ok v) ∨
      ParseNonRFCJSONValue raw = .error ("Error parsing JSON:" ++ raw) := by
  cases h : ParseNonRFCJSONValue raw with
  | ok v => exact Or.inl ⟨v, rfl⟩
  | error e => rw [parse_error_msg raw e h]; exact Or.inr rfl

/-! ## The positional converter -/

/-- A successful run of the positional loop appends one value per remaining
argument, each decided by the lookup at its own counter value. -/
theorem RPCConvertValues.loop_ok (m : String) :
    ∀ (rest : List String) (idx : Nat) (acc : List UniValue) (out : UniValue),
      idx + rest.length ≤ 2 ^ 32 →
      RPCConvertValues.loop m idx rest (.VARR acc) = .ok out →
      ∃ vs, out = .VARR (acc ++ vs) ∧ vs.length = rest.length ∧
        ∀ j a, rest[j]? = some a → ∃ v, vs[j]? = some v ∧
          (rpcCvtTable.convert m ((idx + j : Nat) : Int) = true →
            ParseNonRFCJSONValue a = .ok v) ∧
          (rpcCvtTable.convert m ((idx + j : Nat) : Int) = false → v = .VSTR a) := by
  intro rest
  induction rest with
  | nil =>
    intro idx acc out _ h
    simp only [RPCConvertValues.loop] at h
    cases h
    exact ⟨[], by simp, rfl, by simp⟩
  | cons s rest ih =>
    intro idx acc out hlen h
    have hidx : idx < 2 ^ 32 := by simp only [List.length_cons] at hlen; omega
    have hlen' : (idx + 1) + rest.length ≤ 2 ^ 32 := by
      simp only [List.length_cons] at hlen; omega
    rw [RPCConvertValues.loop, convert_unsignedToInt m idx hidx] at h
    cases hc : rpcCvtTable.convert m (idx : Int) with
    | false =>
      rw [hc] at h
      simp only [Bool.not_false, if_true, UniValue.push_back] at h
      obtain ⟨vs, hout, hl, hvs⟩ := ih (idx + 1) (acc ++ [.VSTR s]) out hlen' h
      refine ⟨.VSTR s :: vs, by simpa using hout, by simp [hl], ?_⟩
      intro j a hj
      cases j with
      | zero =>
        simp only [List.getElem?_cons_zero, Option.some.injEq] at hj
        subst hj
        refine ⟨.VSTR s, List.getElem?_cons_zero, ?_, fun _ => rfl⟩
        intro ht
        rw [Nat.add_zero, hc] at ht
        cases ht
      | succ j =>
        simp only [List.getElem?_cons_succ] at hj
        obtain ⟨v, hv, h1, h2⟩ := hvs j a hj
        refine ⟨v, by simpa using hv, ?_, ?_⟩
        · intro ht; apply h1; rwa [Nat.add_right_comm, Nat.add_assoc]
        · intro ht; apply h2; rwa [Nat.add_right_comm, Nat.add_assoc]
    | true =>
      rw [hc] at h
      simp only [Bool.not_true, Bool.false_eq_true, if_false] at h
      cases hp : ParseNonRFCJSONValue s with
      | error e => rw [hp] at h; cases h
      | ok v0 =>
        rw [hp] at h
        simp only [UniValue.push_back] at h
        obtain ⟨vs, hout, hl, hvs⟩ := ih (idx + 1) (acc ++ [v0]) out hlen' h
        refine ⟨v0 :: vs, by simpa using hout, by simp [hl], ?_⟩
        intro j a hj
        cases j with
        | zero =>
          simp only [List.getElem?_cons_zero, Option.some.injEq] at hj
          subst hj
          refine ⟨v0, List.getElem?_cons_zero, fun _ => hp, ?_⟩
          intro ht
          rw [Nat.add_zero, hc] at ht
          cases ht
        | succ j =>
          simp only [List.getElem?_cons_succ] at hj
          obtain ⟨v, hv, h1, h2⟩ := hvs j a hj
          refine ⟨v, by simpa using hv, ?_, ?_⟩
          · intro ht; apply h1; rwa [Nat.add_right_comm, Nat.add_assoc]
          · intro ht; apply h2; rwa [Nat.add_right_comm, Nat.add_assoc]

/-- A failing run of the positional loop fails at the first remaining argument
that has a rule and does not parse, with the error of that argument. -/
theorem RPCConvertValues.loop_error (m : String) :
    ∀ (rest : List String) (idx : Nat) (params : UniValue) (e : String),
      idx + rest.length ≤ 2 ^ 32 →
      RPCConvertValues.loop m idx rest params = .error e →
      ∃ j a, rest[j]? = some a ∧
        rpcCvtTable.convert m ((idx + j : Nat) : Int) = true ∧
        ParseNonRFCJSONValue a = .error e ∧
        ∀ k b, k < j → rest[k]? = some b →
          rpcCvtTable.convert m ((idx + k : Nat) : Int) = true →
          ∃ v, ParseNonRFCJSONValue b = .ok v := by
  intro rest
  induction rest with
  | nil =>
    intro idx params e _ h
    simp only [RPCConvertValues.loop] at h
    cases h
  | cons s rest ih =>
    intro idx params e hlen h
    have hidx : idx < 2 ^ 32 := by simp only [List.length_cons] at hlen; omega
    have hlen' : (idx + 1) + rest.length ≤ 2 ^ 32 := by
      simp only [List.length_cons] at hlen; omega
    rw [RPCConvertValues.loop, convert_unsignedToInt m idx hidx] at h
    have step : ∀ params', RPCConvertValues.loop m (idx + 1) rest params' = .error e →
        (rpcCvtTable.convert m (idx : Int) = true → ∃ v, ParseNonRFCJSONValue s = .ok v) →
        ∃ j a, (s :: rest)[j]? = some a ∧
          rpcCvtTable.convert m ((idx + j : Nat) : Int) = true ∧
          ParseNonRFCJSONValue a = .error e ∧
          ∀ k b, k < j → (s :: rest)[k]? = some b →
            rpcCvtTable.convert m ((idx + k : Nat) : Int) = true →
            ∃ v, ParseNonRFCJSONValue b = .ok v := by
      intro params' h' h0
      obtain ⟨j, a, hj, hcj, hpj, hmin⟩ := ih (idx + 1) params' e hlen' h'
      refine ⟨j + 1, a, by simpa using hj, ?_, hpj, ?_⟩
      · rw [Nat.add_right_comm, Nat.add_assoc] at hcj
        exact hcj
      · intro k b hk hb hck
        cases k with
        | zero =>
          simp only [List.getElem?_cons_zero, Option.some.injEq] at hb
          subst hb
          rw [Nat.add_zero] at hck
          exact h0 hck
        | succ k =>
          simp only [List.getElem?_cons_succ] at hb
          apply hmin k b (by omega) hb
          rw [Nat.add_right_comm, Nat.add_assoc]
          exact hck
    cases hc : rpcCvtTable.convert m (idx : Int) with
    | false =>
      rw [hc] at h
      simp only [Bool.not_false, if_true] at h
      exact step _ h (fun ht => by rw [hc] at ht; cases ht)
    | true =>
      rw [hc] at h
      simp only [Bool.not_true, Bool.false_eq_true, if_false] at h
      cases hp : ParseNonRFCJSONValue s with
      | error e0 =>
        rw [hp] at h
        cases h
        exact ⟨0, s, List.getElem?_cons_zero, hc, hp, fun k b hk => by omega⟩
      | ok v0 =>
        rw [hp] at h
        exact step _ h (fun _ => ⟨v0, hp⟩)



/-- The conversion of `settxfee 0.001`. -/
theorem settxfee_example :
    RPCConvertValues "settxfee" ["0.001"] = .ok (.VARR [.VNUM "0.001"]) := by
  have hc : rpcCvtTable.convert "settxfee" (unsignedToInt 0) = true :=
    (convert_iff _ _).2 ⟨⟨"settxfee", 0, "amount"⟩, by
      set_option maxRecDepth 100000 in decide, rfl, rfl⟩
  have hp : ParseNonRFCJSONValue "0.001" = .ok (.VNUM "0.001") := rfl
  rw [RPCConvertValues, RPCConvertValues.loop, hc, hp]
  rfl

/-- C1. `RPCConvertValues` is an order-preserving element-wise map: when the
call succeeds (on an argument vector the 32-bit loop counter can walk), the
result is an array of the same length as the input whose `i`-th element is
`ParseNonRFCJSONValue(args[i])` when the registry has a rule for `(method, i)`
and the JSON string holding `args[i]` unchanged otherwise. -/
theorem C1_RPCConvertValues_elementwise (strMethod : String) (strParams : List String)
    (out : UniValue) (hlen : strParams.length < 2 ^ 32)
    (hok : RPCConvertValues strMethod strParams = .ok out) :
    ∃ values, out = .VARR values ∧ values.length = strParams.length ∧
      ∀ (i : Nat) (a : String), strParams[i]? = some a → ∃ v, values[i]? = some v ∧
        (rpcCvtTable.convert strMethod (i : Int) = true →
          ParseNonRFCJSONValue a = .ok v) ∧
        (rpcCvtTable.convert strMethod (i : Int) = false → v = .VSTR a) := by
  obtain ⟨vs, hout, hl, hvs⟩ :=
    RPCConvertValues.loop_ok strMethod strParams 0 [] out (by omega) hok
  refine ⟨vs, by simpa using hout, hl, ?_⟩
  intro i a hi
  obtain ⟨v, hv, h1, h2⟩ := hvs i a hi
  rw [Nat.zero_add] at h1 h2
  exact ⟨v, hv, h1, h2⟩

/-- C1 at `settxfee ["0.001"]`: the call yields the number `0.001`, an array of
the length of the input whose element at position 0 is the parsed value. -/
theorem C1_RPCConvertValues_elementwise_witness :
    RPCConvertValues "settxfee" ["0.001"] = .ok (.VARR [.VNUM "0.001"]) ∧
    ∃ values, UniValue.VARR [.VNUM "0.001"] = .VARR values ∧
      values.length = ["0.001"].length ∧
      ∀ (i : Nat) (a : String), ["0.001"][i]? = some a → ∃ v, values[i]? = some v ∧
        (rpcCvtTable.convert "settxfee" (i : Int) = true →
          ParseNonRFCJSONValue a = .ok v) ∧
        (rpcCvtTable.convert "settxfee" (i : Int) = false → v = .VSTR a) :=
  ⟨settxfee_example,
    C1_RPCConvertValues_elementwise "settxfee" ["0.001"] (.VARR [.VNUM "0.001"])
      (by norm_num) settxfee_example⟩



/-- C2. `RPCConvertValues` fails exactly when some index has a rule for the
method and holds a text that `ParseNonRFCJSONValue` rejects; a failing call
returns no argument list, and its error is the JSON parse error carrying the
raw text at the smallest such index. -/
theorem C2_RPCConvertValues_failure (strMethod : String) (strParams : List String)
    (hlen : strParams.length < 2 ^ 32) :
    ((∃ e, RPCConvertValues strMethod strParams = .error e) ↔
      ∃ (i : Nat) (a : String), strParams[i]? = some a ∧
        rpcCvtTable.convert strMethod (i : Int) = true ∧
        ∃ e, ParseNonRFCJSONValue a = .error e) ∧
    (∀ e, RPCConvertValues strMethod strParams = .error e →
      ∀ out, RPCConvertValues strMethod strParams ≠ .ok out) ∧
    (∀ (i : Nat) (a : String), strParams[i]? = some a →
      rpcCvtTable.convert strMethod (i : Int) = true →
      (∃ e, ParseNonRFCJSONValue a = .error e) →
      (∀ (k : Nat) (b : String), k < i → strParams[k]? = some b →
        rpcCvtTable.convert strMethod (k : Int) = true →
        ∃ v, ParseNonRFCJSONValue b = .ok v) →
      RPCConvertValues strMethod strParams = .error ("Error parsing JSON:" ++ a)) := by
  have hlen' : 0 + strParams.length ≤ 2 ^ 32 := by omega
  have noBad : ∀ out, RPCConvertValues strMethod strParams = .ok out →
      ∀ (i : Nat) (a : String), strParams[i]? = some a →
        rpcCvtTable.convert strMethod (i : Int) = true →
        ∀ e, ParseNonRFCJSONValue a ≠ .error e := by
    intro out hok i a hi hc e he
    obtain ⟨vs, -, -, hvs⟩ := RPCConvertValues.loop_ok strMethod strParams 0 [] out hlen' hok
    obtain ⟨v, -, h1, -⟩ := hvs i a hi
    rw [Nat.zero_add] at h1
    rw [h1 hc] at he
    cases he
  have firstBad : ∀ e, RPCConvertValues strMethod strParams = .error e →
      ∃ (j : Nat) (a : String), strParams[j]? = some a ∧
        rpcCvtTable.convert strMethod (j : Int) = true ∧
        ParseNonRFCJSONValue a = .error e ∧
        ∀ (k : Nat) (b : String), k < j → strParams[k]? = some b →
          rpcCvtTable.convert strMethod (k : Int) = true →
          ∃ v, ParseNonRFCJSONValue b = .ok v := by
    intro e herr
    obtain ⟨j, a, hj, hc, hp, hmin⟩ :=
      RPCConvertValues.loop_error strMethod strParams 0 (.VARR []) e hlen' herr
    rw [Nat.zero_add] at hc
    refine ⟨j, a, hj, hc, hp, ?_⟩
    intro k b hk hb hck
    apply hmin k b hk hb
    rw [Nat.zero_add]
    exact hck
  refine ⟨⟨?_, ?_⟩, ?_, ?_⟩
  · rintro ⟨e, herr⟩
    obtain ⟨j, a, hj, hc, hp, -⟩ := firstBad e herr
    exact ⟨j, a, hj, hc, e, hp⟩
  · rintro ⟨i, a, hi, hc, e, he⟩
    cases hr : RPCConvertValues strMethod strParams with
    | error e' => exact ⟨e', rfl⟩
    | ok out => exact absurd he (noBad out hr i a hi hc e)
  · intro e herr out hok
    rw [herr] at hok
    cases hok
  · intro i a hi hc ⟨e, he⟩ hmin
    cases hr : RPCConvertValues strMethod strParams with
    | ok out => exact absurd he (noBad out hr i a hi hc e)
    | error e' =>
      obtain ⟨j, a', hj, hcj, hpj, hminj⟩ := firstBad e' hr
      have hij : j = i := by
        rcases Nat.lt_trichotomy j i with hlt | heq | hgt
        · obtain ⟨v, hv⟩ := hmin j a' hlt hj hcj
          rw [hv] at hpj
          cases hpj
        · exact heq
        · obtain ⟨v, hv⟩ := hminj i a hgt hi hc
          rw [hv] at he
          cases he
      subst hij
      rw [hi] at hj
      cases hj
      rw [parse_error_msg a e' hpj]

/-- The lookup of `echojson` at position 0, as the loop counter sees it. -/
theorem echojson_zero : rpcCvtTable.convert "echojson" ((0 : Nat) : Int) = true :=
  (convert_iff _ _).2 ⟨⟨"echojson", 0, "arg0"⟩, by
    set_option maxRecDepth 100000 in decide, rfl, rfl⟩

/-- C2 at `echojson ["\x7bbad json"]`: position 0 is registered, the text does not
parse, and the call fails with the parse error carrying the text. -/
theorem C2_RPCConvertValues_failure_witness :
    ParseNonRFCJSONValue "\x7bbad json" = .error "Error parsing JSON:\x7bbad json" ∧
    RPCConvertValues "echojson" ["\x7bbad json"] =
      .error ("Error parsing JSON:" ++ "\x7bbad json") :=
  ⟨rfl,
    (C2_RPCConvertValues_failure "echojson" ["\x7bbad json"] (by norm_num)).2.2
      0 "\x7bbad json" rfl echojson_zero ⟨_, rfl⟩
      (fun k _ hk => absurd hk (Nat.not_lt_zero k))⟩



/-- The value parser returns `v` exactly when the wrapped text reads as the
one-element array holding `v`. -/
theorem parse_ok_iff (raw : String) (v : UniValue) :
    ParseNonRFCJSONValue raw = .ok v ↔
      UniValue.read ("[" ++ raw ++ "]") = some (.VARR [v]) := by
  unfold ParseNonRFCJSONValue
  cases hr : UniValue.read ("[" ++ raw ++ "]") with
  | none => simp
  | some jVal =>
    cases jVal with
    | VARR values =>
      match values with
      | [] => simp [UniValue.isArray, UniValue.size]
      | [x] => simp [UniValue.isArray, UniValue.size, UniValue.elemAt]
      | x :: y :: rest => simp [UniValue.isArray, UniValue.size]
    | _ => simp [UniValue.isArray]

/-- C9. `ParseNonRFCJSONValue(raw)` succeeds exactly when `"[" ++ raw ++ "]"`
reads as a JSON array with exactly one element, and then returns that
element; in every other case it fails with the parse error whose message
carries `raw`, as for `raw = ""` (the wrapped text is the empty array) and
`raw = "1,2"` (an array of two elements). -/
theorem C9_ParseNonRFCJSONValue_single_element :
    (∀ (raw : String) (v : UniValue), ParseNonRFCJSONValue raw = .ok v ↔
      UniValue.read ("[" ++ raw ++ "]") = some (.VARR [v])) ∧
    (∀ (raw : String),
      ParseNonRFCJSONValue raw = .error ("Error parsing JSON:" ++ raw) ↔
        ¬ ∃ v, UniValue.read ("[" ++ raw ++ "]") = some (.VARR [v])) ∧
    (UniValue.read ("[" ++ "" ++ "]") = some (.VARR []) ∧
      ParseNonRFCJSONValue "" = .error ("Error parsing JSON:" ++ "")) ∧
    (UniValue.read ("[" ++ "1,2" ++ "]") = some (.VARR [.VNUM "1", .VNUM "2"]) ∧
      ParseNonRFCJSONValue "1,2" = .error ("Error parsing JSON:" ++ "1,2")) := by
  refine ⟨parse_ok_iff, ?_, ⟨rfl, rfl⟩, ⟨rfl, rfl⟩⟩
  intro raw
  constructor
  · rintro h ⟨v, hv⟩
    rw [(parse_ok_iff raw v).2 hv] at h
    cases h
  · intro h
    rcases parse_ok_or_error raw with ⟨v, hv⟩ | he
    · exact absurd ⟨v, (parse_ok_iff raw v).1 hv⟩ h
    · exact he



/-! ## Splitting a named argument -/

/-- A list holding `=` is its part before the first `=`, the `=`, and the rest. -/
theorem indexOf_split (l : List Char) (h : '=' ∈ l) :
    l.take (l.indexOf '=') ++ '=' :: l.drop (l.indexOf '=' + 1) = l ∧
      '=' ∉ l.take (l.indexOf '=') := by
  induction l with
  | nil => cases h
  | cons c cs ih =>
    by_cases hc : c = '='
    · subst hc
      simp [List.indexOf_cons_self]
    · have hcs : '=' ∈ cs := by
        rcases List.mem_cons.1 h with h1 | h1
        · exact absurd h1.symm hc
        · exact h1
      obtain ⟨ih1, ih2⟩ := ih hcs
      rw [List.indexOf_cons_ne cs hc]
      refine ⟨?_, ?_⟩
      · simp only [List.take_succ_cons, List.drop_succ_cons, List.cons_append]
        rw [ih1]
      · simp only [List.take_succ_cons, List.mem_cons, not_or]
        exact ⟨fun h' => hc h'.symm, ih2⟩

/-- The first `=` of `n ++ '=' :: v` is right after `n` when `n` holds none. -/
theorem indexOf_append_eq (n v : List Char) (h : '=' ∉ n) :
    (n ++ '=' :: v).indexOf '=' = n.length := by
  induction n with
  | nil => simp [List.indexOf_cons_self]
  | cons c cs ih =>
    have hc : c ≠ '=' := fun h' => h (by simp [h'])
    have hcs : '=' ∉ cs := fun h' => h (List.mem_cons_of_mem c h')
    rw [List.cons_append, List.indexOf_cons_ne _ hc, ih hcs, List.length_cons]

/-- Dropping `n` and one more character from `n ++ c :: v` leaves `v`. -/
theorem drop_length_succ (n v : List Char) (c : Char) :
    (n ++ c :: v).drop (n.length + 1) = v := by
  induction n with
  | nil => rfl
  | cons d ds ih => simp

/-- The search finds nothing exactly when the token holds no `=`. -/
theorem findEq_eq_none_iff (s : String) : findEq s = none ↔ '=' ∉ s.data := by
  unfold findEq
  simp only [ite_eq_right_iff, reduceCtorEq, imp_false, not_lt]
  rw [← List.indexOf_eq_length]
  constructor
  · intro h; exact Nat.le_antisymm List.indexOf_le_length h
  · intro h; exact Nat.le_of_eq h.symm

/-- What the search finds is the position of the first `=`. -/
theorem findEq_eq_some (s : String) (pos : Nat) (h : findEq s = some pos) :
    '=' ∈ s.data ∧ pos = s.data.indexOf '=' := by
  unfold findEq at h
  simp only at h
  split at h
  · rename_i hlt
    exact ⟨List.indexOf_lt_length.1 hlt, (Option.some.inj h).symm⟩
  · cases h

/-- A token holding `=` is found to hold one. -/
theorem findEq_of_mem (s : String) (h : '=' ∈ s.data) :
    findEq s = some (s.data.indexOf '=') := by
  unfold findEq
  simp only [List.indexOf_lt_length.2 h, if_true]

/-- The split of a token at the position found: the name holds no `=`, and
name, `=` and value make up the token again. -/
theorem split_at_found (s : String) (pos : Nat) (h : findEq s = some pos) :
    '=' ∉ (substr s 0 pos).data ∧
      substr s 0 pos ++ "=" ++ substrFrom s (pos + 1) = s := by
  obtain ⟨hmem, rfl⟩ := findEq_eq_some s pos h
  obtain ⟨h1, h2⟩ := indexOf_split s.data hmem
  refine ⟨by simpa [substr] using h2, ?_⟩
  apply String.ext
  simp only [substr, substrFrom, String.data_append, List.drop_zero, List.append_assoc]
  exact h1

/-- The split of `name ++ "=" ++ value` when `name` holds no `=`. -/
theorem split_of_append (name value : String) (h : '=' ∉ name.data) :
    findEq (name ++ "=" ++ value) = some name.data.length ∧
      substr (name ++ "=" ++ value) 0 name.data.length = name ∧
      substrFrom (name ++ "=" ++ value) (name.data.length + 1) = value := by
  have hd : (name ++ "=" ++ value).data = name.data ++ '=' :: value.data := by
    simp only [String.data_append, List.append_assoc]
    rfl
  have hi := indexOf_append_eq name.data value.data h
  refine ⟨?_, ?_, ?_⟩
  · rw [findEq_of_mem _ (by rw [hd]; simp), hd, hi]
  · apply String.ext
    simp only [substr, hd, List.drop_zero, List.take_left']
  · apply String.ext
    simp only [substrFrom, hd]
    exact drop_length_succ name.data value.data '='

/-- One step of the named loop on a token `name ++ "=" ++ value`. -/
theorem RPCConvertNamedValues.loop_step (m name value : String) (rest : List String)
    (params : UniValue) (h : '=' ∉ name.data) :
    RPCConvertNamedValues.loop m ((name ++ "=" ++ value) :: rest) params =
      if !rpcCvtTable.convertByName m name then
        RPCConvertNamedValues.loop m rest (params.pushKV name (.VSTR value))
      else
        match ParseNonRFCJSONValue value with
        | .error e => .error e
        | .ok v => RPCConvertNamedValues.loop m rest (params.pushKV name v) := by
  obtain ⟨h1, h2, h3⟩ := split_of_append name value h
  rw [RPCConvertNamedValues.loop, h1]
  simp only [h2, h3]



/-! ## The named converter -/

/-- The name `amount` of `settxfee` is registered. -/
theorem settxfee_amount : rpcCvtTable.convertByName "settxfee" "amount" = true :=
  (convertByName_iff _ _).2 ⟨⟨"settxfee", 0, "amount"⟩, by
    set_option maxRecDepth 100000 in decide, rfl, rfl⟩

/-- The name `amount` of `sendtoaddress` is registered. -/
theorem sendtoaddress_amount :
    rpcCvtTable.convertByName "sendtoaddress" "amount" = true :=
  (convertByName_iff _ _).2 ⟨⟨"sendtoaddress", 1, "amount"⟩, by
    set_option maxRecDepth 100000 in decide, rfl, rfl⟩

/-- The name `comment` of `sendtoaddress` is not registered. -/
theorem sendtoaddress_comment :
    rpcCvtTable.convertByName "sendtoaddress" "comment" = false := by
  rw [← Bool.not_eq_true, convertByName_iff]
  set_option maxRecDepth 100000 in decide

/-- C5, amended. A named-argument token with an empty value, `name ++ "="`
with no `=` in `name`, is accepted when the method has no rule for `name`: the
call returns the mapping with the one key `name` and the empty string as its
value.  When the method has a rule for `name` the empty text goes to the value
parser, which rejects it, and the call fails with the JSON parse error. -/
theorem C5_empty_value (strMethod name : String) (h : '=' ∉ name.data) :
    (rpcCvtTable.convertByName strMethod name = false →
      RPCConvertNamedValues strMethod [name ++ "="] =
        .ok (.VOBJ [(name, .VSTR "")])) ∧
    (rpcCvtTable.convertByName strMethod name = true →
      RPCConvertNamedValues strMethod [name ++ "="] =
        .error ("Error parsing JSON:" ++ "")) := by
  have hstep := RPCConvertNamedValues.loop_step strMethod name "" [] (.VOBJ []) h
  rw [String.append_empty] at hstep
  constructor
  · intro hc
    rw [RPCConvertNamedValues, hstep, hc]
    rfl
  · intro hc
    rw [RPCConvertNamedValues, hstep, hc]
    rfl

/-- C5, amended, at `sendtoaddress ["comment="]`: the name is not registered and
the call returns the mapping from `comment` to the empty string. -/
theorem C5_empty_value_witness :
    '=' ∉ "comment".data ∧
    rpcCvtTable.convertByName "sendtoaddress" "comment" = false ∧
    RPCConvertNamedValues "sendtoaddress" ["comment" ++ "="] =
      .ok (.VOBJ [("comment", .VSTR "")]) :=
  ⟨by decide, sendtoaddress_comment,
    (C5_empty_value "sendtoaddress" "comment" (by decide)).1 sendtoaddress_comment⟩

/-- C5 as stated fails at `settxfee ["amount="]`: the name holds no `=`, yet
the call does not succeed; it fails with the JSON parse error for the empty
text. -/
theorem C5_empty_value_counterexample :
    '=' ∉ "amount".data ∧
    RPCConvertNamedValues "settxfee" ["amount" ++ "="] = .error "Error parsing JSON:" ∧
    ¬ ∃ out, RPCConvertNamedValues "settxfee" ["amount" ++ "="] = .ok out := by
  have hrun : RPCConvertNamedValues "settxfee" ["amount" ++ "="] =
      .error "Error parsing JSON:" := by
    have hstep := RPCConvertNamedValues.loop_step "settxfee" "amount" "" [] (.VOBJ [])
      (by decide)
    have htok : "amount" ++ "=" ++ "" = "amount" ++ "=" := by decide
    rw [htok] at hstep
    rw [RPCConvertNamedValues, hstep, settxfee_amount]
    rfl
  refine ⟨by decide, hrun, ?_⟩
  rintro ⟨out, hout⟩
  rw [hrun] at hout
  cases hout

/-- C6. `RPCConvertNamedValues` splits a token at its first `=`: for a token
`s` that holds `=`, the search finds the position of the first `=`; the name
is the part of `s` before it and holds no `=`, the value text is all that
follows it, and name, `=` and value make up `s` again; no other split of `s`
has a name without `=`.  These are the name and the value text the converter
goes on with. -/
theorem C6_split_at_first_equals (s : String) (h : '=' ∈ s.data) :
    ∃ pos, findEq s = some pos ∧
      s.data[pos]? = some '=' ∧ '=' ∉ s.data.take pos ∧
      (substr s 0 pos).data = s.data.take pos ∧
      (substrFrom s (pos + 1)).data = s.data.drop (pos + 1) ∧
      '=' ∉ (substr s 0 pos).data ∧
      substr s 0 pos ++ "=" ++ substrFrom s (pos + 1) = s ∧
      (∀ n v : String, '=' ∉ n.data → n ++ "=" ++ v = s →
        n = substr s 0 pos ∧ v = substrFrom s (pos + 1)) ∧
      (∀ (strMethod : String) (rest : List String) (params : UniValue),
        RPCConvertNamedValues.loop strMethod (s :: rest) params =
          if !rpcCvtTable.convertByName strMethod (substr s 0 pos) then
            RPCConvertNamedValues.loop strMethod rest
              (params.pushKV (substr s 0 pos) (.VSTR (substrFrom s (pos + 1))))
          else
            match ParseNonRFCJSONValue (substrFrom s (pos + 1)) with
            | .error e => .error e
            | .ok v =>
              RPCConvertNamedValues.loop strMethod rest
                (params.pushKV (substr s 0 pos) v)) := by
  have hf := findEq_of_mem s h
  obtain ⟨hsplit, hno⟩ := indexOf_split s.data h
  obtain ⟨h1, h2⟩ := split_at_found s _ hf
  refine ⟨s.data.indexOf '=', hf, ?_, hno, ?_, rfl, h1, h2, ?_, ?_⟩
  · have hlt := List.indexOf_lt_length.2 h
    rw [List.getElem?_eq_getElem hlt]
    congr 1
    exact List.indexOf_get (l := s.data) (a := '=') hlt
  · simp [substr]
  · intro n v hn hs
    obtain ⟨g1, g2, g3⟩ := split_of_append n v hn
    rw [hs] at g1 g2 g3
    rw [hf] at g1
    have hpos := Option.some.inj g1
    rw [hpos]
    exact ⟨g2.symm, g3.symm⟩
  · intro strMethod rest params
    rw [RPCConvertNamedValues.loop, hf]

/-- C6 at the token `x=a=b`: the name is `x` and the value text is `a=b`. -/
theorem C6_split_at_first_equals_witness :
    findEq "x=a=b" = some 1 ∧ substr "x=a=b" 0 1 = "x" ∧
    substrFrom "x=a=b" (1 + 1) = "a=b" ∧
    ∃ pos, findEq "x=a=b" = some pos ∧
      "x=a=b".data[pos]? = some '=' ∧ '=' ∉ "x=a=b".data.take pos ∧
      (substr "x=a=b" 0 pos).data = "x=a=b".data.take pos ∧
      (substrFrom "x=a=b" (pos + 1)).data = "x=a=b".data.drop (pos + 1) ∧
      '=' ∉ (substr "x=a=b" 0 pos).data ∧
      substr "x=a=b" 0 pos ++ "=" ++ substrFrom "x=a=b" (pos + 1) = "x=a=b" ∧
      (∀ n v : String, '=' ∉ n.data → n ++ "=" ++ v = "x=a=b" →
        n = substr "x=a=b" 0 pos ∧ v = substrFrom "x=a=b" (pos + 1)) ∧
      (∀ (strMethod : String) (rest : List String) (params : UniValue),
        RPCConvertNamedValues.loop strMethod ("x=a=b" :: rest) params =
          if !rpcCvtTable.convertByName strMethod (substr "x=a=b" 0 pos) then
            RPCConvertNamedValues.loop strMethod rest
              (params.pushKV (substr "x=a=b" 0 pos)
                (.VSTR (substrFrom "x=a=b" (pos + 1))))
          else
            match ParseNonRFCJSONValue (substrFrom "x=a=b" (pos + 1)) with
            | .error e => .error e
            | .ok v =>
              RPCConvertNamedValues.loop strMethod rest
                (params.pushKV (substr "x=a=b" 0 pos) v)) :=
  ⟨by decide, by decide, by decide, C6_split_at_first_equals "x=a=b" (by decide)⟩



/-- The named loop fails when a token without `=` is among those to visit. -/
theorem RPCConvertNamedValues.loop_fails_of_missing (m : String) :
    ∀ (toks : List String) (params : UniValue),
      (∃ s ∈ toks, '=' ∉ s.data) → ∃ e, RPCConvertNamedValues.loop m toks params = .error e := by
  intro toks
  induction toks with
  | nil => rintro _ ⟨s, hs, -⟩; cases hs
  | cons t rest ih =>
    intro params hex
    rw [RPCConvertNamedValues.loop]
    cases hf : findEq t with
    | none => exact ⟨_, rfl⟩
    | some pos =>
      have hrest : ∃ s ∈ rest, '=' ∉ s.data := by
        obtain ⟨s, hs, hno⟩ := hex
        rcases List.mem_cons.1 hs with rfl | hs'
        · rw [(findEq_eq_none_iff s).2 hno] at hf
          cases hf
        · exact ⟨s, hs', hno⟩
      simp only
      split
      · exact ih _ hrest
      · split
        · exact ⟨_, rfl⟩
        · exact ih _ hrest

/-- The named loop fails with the missing-equals error of a token without `=`
when every token before it has `=` and, if registered, a value that parses. -/
theorem RPCConvertNamedValues.loop_first_missing (m s : String) (post : List String)
    (hno : '=' ∉ s.data) :
    ∀ (pre : List String) (params : UniValue),
      (∀ t ∈ pre, ∃ pos, findEq t = some pos ∧
        (rpcCvtTable.convertByName m (substr t 0 pos) = true →
          ∃ v, ParseNonRFCJSONValue (substrFrom t (pos + 1)) = .ok v)) →
      RPCConvertNamedValues.loop m (pre ++ s :: post) params = .error (noEqualsError s) := by
  intro pre
  induction pre with
  | nil =>
    intro params _
    rw [List.nil_append, RPCConvertNamedValues.loop, (findEq_eq_none_iff s).2 hno]
  | cons t rest ih =>
    intro params hpre
    obtain ⟨pos, hf, hp⟩ := hpre t (List.mem_cons_self t rest)
    have hrest := fun t' ht' => hpre t' (List.mem_cons_of_mem t ht')
    rw [List.cons_append, RPCConvertNamedValues.loop, hf]
    simp only
    cases hc : rpcCvtTable.convertByName m (substr t 0 pos) with
    | false =>
      simp only [Bool.not_false, if_true]
      exact ih _ hrest
    | true =>
      simp only [Bool.not_true, Bool.false_eq_true, if_false]
      obtain ⟨v, hv⟩ := hp hc
      rw [hv]
      exact ih _ hrest

/-- The missing-equals message determines its token. -/
theorem noEqualsError_token (s t : String)
    (h : "No '=' in named argument '" ++ s ++
        "', this needs to be present for every argument (even if it is empty)" =
      "No '=' in named argument '" ++ t ++
        "', this needs to be present for every argument (even if it is empty)") :
    s = t := by
  have hd := congrArg String.data h
  simp only [String.data_append] at hd
  exact String.ext (List.append_cancel_left (List.append_cancel_right hd))

/-- C8. A token list that holds a token without `=` makes
`RPCConvertNamedValues` fail: no mapping is returned.  When every token before
that one has `=` and, if its name is registered, a value that parses (so that
it is the first token to fail), the error is the missing-equals error naming
exactly that token: its message is the text of the source with the token
between the quotes, and it is the message of no other token. -/
theorem C8_missing_equals (strMethod : String) (strParams : List String) (s : String)
    (hs : s ∈ strParams) (hno : '=' ∉ s.data) :
    (∃ e, RPCConvertNamedValues strMethod strParams = .error e) ∧
    (∀ out, RPCConvertNamedValues strMethod strParams ≠ .ok out) ∧
    (∀ pre post : List String, strParams = pre ++ s :: post →
      (∀ t ∈ pre, ∃ pos, findEq t = some pos ∧
        (rpcCvtTable.convertByName strMethod (substr t 0 pos) = true →
          ∃ v, ParseNonRFCJSONValue (substrFrom t (pos + 1)) = .ok v)) →
      RPCConvertNamedValues strMethod strParams =
        .error ("No '=' in named argument '" ++ s ++
          "', this needs to be present for every argument (even if it is empty)") ∧
      ∀ t : String,
        RPCConvertNamedValues strMethod strParams =
          .error ("No '=' in named argument '" ++ t ++
            "', this needs to be present for every argument (even if it is empty)") →
        t = s) := by
  obtain ⟨e, he⟩ :=
    RPCConvertNamedValues.loop_fails_of_missing strMethod strParams (.VOBJ []) ⟨s, hs, hno⟩
  refine ⟨⟨e, he⟩, ?_, ?_⟩
  · intro out hout
    rw [RPCConvertNamedValues] at hout
    rw [he] at hout
    cases hout
  · intro pre post hsplit hpre
    subst hsplit
    have hrun : RPCConvertNamedValues strMethod (pre ++ s :: post) =
        .error ("No '=' in named argument '" ++ s ++
          "', this needs to be present for every argument (even if it is empty)") := by
      exact RPCConvertNamedValues.loop_first_missing strMethod s post hno pre _ hpre
    refine ⟨hrun, ?_⟩
    intro t ht
    rw [hrun] at ht
    exact (noEqualsError_token s t (Except.error.inj ht)).symm

/-- C8 at `["badtoken"]`: the call fails with the missing-equals error naming
`badtoken`, and with that of no other token. -/
theorem C8_missing_equals_witness :
    '=' ∉ "badtoken".data ∧
    RPCConvertNamedValues "sendtoaddress" ["badtoken"] =
      .error ("No '=' in named argument 'badtoken', this needs to be present " ++
        "for every argument (even if it is empty)") ∧
    RPCConvertNamedValues "sendtoaddress" ["badtoken"] ≠
      .error ("No '=' in named argument 'other', this needs to be present " ++
        "for every argument (even if it is empty)") :=
  ⟨by decide,
    ((C8_missing_equals "sendtoaddress" ["badtoken"] "badtoken"
      (List.mem_singleton.2 rfl) (by decide)).2.2 [] [] rfl
      (fun _ ht => absurd ht (List.not_mem_nil _))).1,
    fun h => absurd
      (((C8_missing_equals "sendtoaddress" ["badtoken"] "badtoken"
        (List.mem_singleton.2 rfl) (by decide)).2.2 [] [] rfl
        (fun _ ht => absurd ht (List.not_mem_nil _))).2 "other" h)
      (by decide)⟩

/-! ## Entries of the mapping -/

/-- Setting a key that is not there appends the entry. -/
theorem setEntry_of_not_mem (key : String) (val : UniValue) :
    ∀ (es : List (String × UniValue)), key ∉ es.map Prod.fst →
      UniValue.setEntry key val es = es ++ [(key, val)] := by
  intro es
  induction es with
  | nil => intro _; rfl
  | cons e rest ih =>
    intro h
    obtain ⟨k, v⟩ := e
    simp only [List.map_cons, List.mem_cons, not_or] at h
    have hk : ¬ k = key := fun h' => h.1 h'.symm
    simp only [UniValue.setEntry, hk, if_false, List.cons_append, ih h.2]

/-- Setting a key keeps the keys, or appends the key when it is new. -/
theorem keys_setEntry (key : String) (val : UniValue) :
    ∀ (es : List (String × UniValue)),
      (UniValue.setEntry key val es).map Prod.fst =
        if key ∈ es.map Prod.fst then es.map Prod.fst else es.map Prod.fst ++ [key] := by
  intro es
  induction es with
  | nil => simp [UniValue.setEntry]
  | cons e rest ih =>
    obtain ⟨k, v⟩ := e
    by_cases hk : k = key
    · subst hk
      simp [UniValue.setEntry]
    · have hk' : ¬ key = k := fun h' => hk h'.symm
      simp only [UniValue.setEntry, hk, if_false, List.map_cons, ih, List.mem_cons, hk',
        false_or]
      split <;> simp

/-- Setting a key keeps the keys free of duplicates. -/
theorem nodup_keys_setEntry (key : String) (val : UniValue)
    (es : List (String × UniValue)) (h : (es.map Prod.fst).Nodup) :
    ((UniValue.setEntry key val es).map Prod.fst).Nodup := by
  rw [keys_setEntry]
  split
  · exact h
  · rename_i hk
    rw [List.nodup_append]
    refine ⟨h, List.nodup_singleton key, ?_⟩
    intro a ha hb
    rw [List.mem_singleton] at hb
    subst hb
    exact hk ha

/-- After setting a key, looking it up gives the value set. -/
theorem find_setEntry_self (key : String) (val : UniValue) :
    ∀ (es : List (String × UniValue)),
      (UniValue.VOBJ (UniValue.setEntry key val es)).find key = some val := by
  intro es
  induction es with
  | nil => simp [UniValue.find, UniValue.setEntry]
  | cons e rest ih =>
    obtain ⟨k, v⟩ := e
    by_cases hk : k = key
    · simp [UniValue.find, UniValue.setEntry, hk]
    · simp only [UniValue.find] at ih
      simp [UniValue.find, UniValue.setEntry, hk, ih]

/-- Setting a key does not change what another key looks up. -/
theorem find_setEntry_ne (key other : String) (val : UniValue) (h : key ≠ other) :
    ∀ (es : List (String × UniValue)),
      (UniValue.VOBJ (UniValue.setEntry key val es)).find other =
        (UniValue.VOBJ es).find other := by
  intro es
  induction es with
  | nil => simp [UniValue.find, UniValue.setEntry, h]
  | cons e rest ih =>
    obtain ⟨k, v⟩ := e
    simp only [UniValue.find] at ih
    by_cases hk : k = key
    · subst hk
      simp [UniValue.find, UniValue.setEntry, h]
    · by_cases ho : k = other
      · subst ho
        simp [UniValue.find, UniValue.setEntry, hk]
      · simp [UniValue.find, UniValue.setEntry, hk, ho, ih]



/-- One successful step of the named loop: the token has `=`, and the loop goes
on with the entry of its name set to the value converted from its value
text. -/
theorem RPCConvertNamedValues.loop_cons_ok (m t : String) (rest : List String)
    (params out : UniValue)
    (h : RPCConvertNamedValues.loop m (t :: rest) params = .ok out) :
    ∃ pos v, findEq t = some pos ∧
      RPCConvertNamedValues.loop m rest (params.pushKV (substr t 0 pos) v) = .ok out ∧
      (rpcCvtTable.convertByName m (substr t 0 pos) = true →
        ParseNonRFCJSONValue (substrFrom t (pos + 1)) = .ok v) ∧
      (rpcCvtTable.convertByName m (substr t 0 pos) = false →
        v = .VSTR (substrFrom t (pos + 1))) := by
  rw [RPCConvertNamedValues.loop] at h
  cases hf : findEq t with
  | none => rw [hf] at h; cases h
  | some pos =>
    rw [hf] at h
    simp only at h
    cases hc : rpcCvtTable.convertByName m (substr t 0 pos) with
    | false =>
      rw [hc] at h
      simp only [Bool.not_false, if_true] at h
      exact ⟨pos, _, rfl, h, fun ht => (by rw [hc] at ht; cases ht), fun _ => rfl⟩
    | true =>
      rw [hc] at h
      simp only [Bool.not_true, Bool.false_eq_true, if_false] at h
      cases hp : ParseNonRFCJSONValue (substrFrom t (pos + 1)) with
      | error e => rw [hp] at h; cases h
      | ok v =>
        rw [hp] at h
        exact ⟨pos, v, rfl, h, fun _ => hp, fun ht => (by rw [hc] at ht; cases ht)⟩

/-- A successful run of the named loop over tokens whose names are pairwise
distinct and new to the mapping appends one entry per token, in order. -/
theorem RPCConvertNamedValues.loop_ok_distinct (m : String) :
    ∀ (toks : List String) (es : List (String × UniValue)) (out : UniValue),
      RPCConvertNamedValues.loop m toks (.VOBJ es) = .ok out →
      toks.Pairwise (fun s t => ∀ p q, findEq s = some p → findEq t = some q →
        substr s 0 p ≠ substr t 0 q) →
      (∀ s ∈ toks, ∀ p, findEq s = some p → substr s 0 p ∉ es.map Prod.fst) →
      ∃ new, out = .VOBJ (es ++ new) ∧ new.length = toks.length ∧
        ∀ (i : Nat) (s : String), toks[i]? = some s →
          ∃ pos v, findEq s = some pos ∧ new[i]? = some (substr s 0 pos, v) ∧
            (rpcCvtTable.convertByName m (substr s 0 pos) = true →
              ParseNonRFCJSONValue (substrFrom s (pos + 1)) = .ok v) ∧
            (rpcCvtTable.convertByName m (substr s 0 pos) = false →
              v = .VSTR (substrFrom s (pos + 1))) := by
  intro toks
  induction toks with
  | nil =>
    intro es out h _ _
    simp only [RPCConvertNamedValues.loop] at h
    cases h
    exact ⟨[], by simp, rfl, by simp⟩
  | cons t rest ih =>
    intro es out h hpw hnew
    obtain ⟨pos, v0, hf, hrun, h1, h2⟩ :=
      RPCConvertNamedValues.loop_cons_ok m t rest _ out h
    have hfresh := hnew t (List.mem_cons_self t rest) pos hf
    rw [UniValue.pushKV, setEntry_of_not_mem _ _ es hfresh] at hrun
    rw [List.pairwise_cons] at hpw
    obtain ⟨new, hout, hl, hent⟩ := ih (es ++ [(substr t 0 pos, v0)]) out hrun hpw.2 (by
      intro s hs p hp
      simp only [List.map_append, List.map_cons, List.map_nil, List.mem_append,
        List.mem_singleton, not_or]
      exact ⟨hnew s (List.mem_cons_of_mem t hs) p hp,
        fun heq => hpw.1 s hs pos p hf hp heq.symm⟩)
    refine ⟨(substr t 0 pos, v0) :: new, by simpa using hout, by simp [hl], ?_⟩
    intro i s hi
    cases i with
    | zero =>
      simp only [List.getElem?_cons_zero, Option.some.injEq] at hi
      subst hi
      exact ⟨pos, v0, hf, List.getElem?_cons_zero, h1, h2⟩
    | succ i =>
      simp only [List.getElem?_cons_succ] at hi
      obtain ⟨p, v, hp, hv, g1, g2⟩ := hent i s hi
      exact ⟨p, v, hp, by simpa using hv, g1, g2⟩

/-- A successful run of the named loop keeps the keys free of duplicates, leaves
alone the names no token carries, and gives every name the value converted
from the last token that carries it. -/
theorem RPCConvertNamedValues.loop_last_wins (m : String) :
    ∀ (toks : List String) (es : List (String × UniValue)) (out : UniValue),
      RPCConvertNamedValues.loop m toks (.VOBJ es) = .ok out →
      ∃ es', out = .VOBJ es' ∧
        ((es.map Prod.fst).Nodup → (es'.map Prod.fst).Nodup) ∧
        (∀ name : String,
          (∀ t ∈ toks, ∀ q, findEq t = some q → substr t 0 q ≠ name) →
          (UniValue.VOBJ es').find name = (UniValue.VOBJ es).find name) ∧
        (∀ (pre : List String) (s : String) (post : List String) (pos : Nat),
          toks = pre ++ s :: post → findEq s = some pos →
          (∀ t ∈ post, ∀ q, findEq t = some q → substr t 0 q ≠ substr s 0 pos) →
          ∃ v, (UniValue.VOBJ es').find (substr s 0 pos) = some v ∧
            (rpcCvtTable.convertByName m (substr s 0 pos) = true →
              ParseNonRFCJSONValue (substrFrom s (pos + 1)) = .ok v) ∧
            (rpcCvtTable.convertByName m (substr s 0 pos) = false →
              v = .VSTR (substrFrom s (pos + 1)))) := by
  intro toks
  induction toks with
  | nil =>
    intro es out h
    simp only [RPCConvertNamedValues.loop] at h
    cases h
    refine ⟨es, rfl, id, fun _ _ => rfl, ?_⟩
    intro pre s post pos hsplit
    cases pre <;> cases hsplit
  | cons t rest ih =>
    intro es out h
    obtain ⟨pos0, v0, hf, hrun, h1, h2⟩ :=
      RPCConvertNamedValues.loop_cons_ok m t rest _ out h
    rw [UniValue.pushKV] at hrun
    obtain ⟨es', hout, hnd, hkeep, hlast⟩ := ih _ out hrun
    refine ⟨es', hout, fun hes => hnd (nodup_keys_setEntry _ _ es hes), ?_, ?_⟩
    · intro name hname
      rw [hkeep name (fun t' ht' => hname t' (List.mem_cons_of_mem t ht'))]
      exact find_setEntry_ne _ _ _ (hname t (List.mem_cons_self t rest) pos0 hf) es
    · intro pre s post pos hsplit hs hpost
      cases pre with
      | nil =>
        rw [List.nil_append] at hsplit
        obtain ⟨hts, hrp⟩ := List.cons.inj hsplit
        subst hts
        subst hrp
        rw [hf] at hs
        cases hs
        refine ⟨v0, ?_, h1, h2⟩
        rw [hkeep _ hpost]
        exact find_setEntry_self _ _ es
      | cons p pre' =>
        rw [List.cons_append] at hsplit
        obtain ⟨-, hrp⟩ := List.cons.inj hsplit
        exact hlast pre' s post pos hrp hs hpost



/-- The conversion of `sendtoaddress amount=1.5 comment=hello`. -/
theorem sendtoaddress_example :
    RPCConvertNamedValues "sendtoaddress" ["amount=1.5", "comment=hello"] =
      .ok (.VOBJ [("amount", .VNUM "1.5"), ("comment", .VSTR "hello")]) := by
  have t1 : "amount=1.5" = "amount" ++ "=" ++ "1.5" := by decide
  have t2 : "comment=hello" = "comment" ++ "=" ++ "hello" := by decide
  have hp : ParseNonRFCJSONValue "1.5" = .ok (.VNUM "1.5") := rfl
  rw [RPCConvertNamedValues, t1, t2,
    RPCConvertNamedValues.loop_step _ _ _ _ _ (by decide), sendtoaddress_amount, hp]
  simp only [Bool.not_true, Bool.false_eq_true, if_false]
  rw [RPCConvertNamedValues.loop_step _ _ _ _ _ (by decide), sendtoaddress_comment]
  rfl

/-- The conversion of `sendtoaddress amount=1.5 comment=hello amount=2`. -/
theorem sendtoaddress_twice_example :
    RPCConvertNamedValues "sendtoaddress" ["amount=1.5", "comment=hello", "amount=2"] =
      .ok (.VOBJ [("amount", .VNUM "2"), ("comment", .VSTR "hello")]) := by
  have t1 : "amount=1.5" = "amount" ++ "=" ++ "1.5" := by decide
  have t2 : "comment=hello" = "comment" ++ "=" ++ "hello" := by decide
  have t3 : "amount=2" = "amount" ++ "=" ++ "2" := by decide
  have hp : ParseNonRFCJSONValue "1.5" = .ok (.VNUM "1.5") := rfl
  have hq : ParseNonRFCJSONValue "2" = .ok (.VNUM "2") := rfl
  rw [RPCConvertNamedValues, t1, t2, t3,
    RPCConvertNamedValues.loop_step _ _ _ _ _ (by decide), sendtoaddress_amount, hp]
  simp only [Bool.not_true, Bool.false_eq_true, if_false]
  rw [RPCConvertNamedValues.loop_step _ _ _ _ _ (by decide), sendtoaddress_comment]
  simp only [Bool.not_false, if_true]
  rw [RPCConvertNamedValues.loop_step _ _ _ _ _ (by decide), sendtoaddress_amount, hq]
  rfl

/-- C4. Last value wins: when `RPCConvertNamedValues` succeeds, the mapping it
returns has unique keys, and for every token that is the last one carrying its
name (in particular when the name appears more than once) the value the
mapping holds for that name is the one converted from that token. -/
theorem C4_last_value_wins (strMethod : String) (strParams : List String) (out : UniValue)
    (hok : RPCConvertNamedValues strMethod strParams = .ok out) :
    (∃ entries, out = .VOBJ entries) ∧ out.getKeys.Nodup ∧
    ∀ (pre : List String) (s : String) (post : List String) (pos : Nat),
      strParams = pre ++ s :: post → findEq s = some pos →
      (∀ t ∈ post, ∀ q, findEq t = some q → substr t 0 q ≠ substr s 0 pos) →
      ∃ v, out.find (substr s 0 pos) = some v ∧
        (rpcCvtTable.convertByName strMethod (substr s 0 pos) = true →
          ParseNonRFCJSONValue (substrFrom s (pos + 1)) = .ok v) ∧
        (rpcCvtTable.convertByName strMethod (substr s 0 pos) = false →
          v = .VSTR (substrFrom s (pos + 1))) := by
  obtain ⟨es', hout, hnd, -, hlast⟩ :=
    RPCConvertNamedValues.loop_last_wins strMethod strParams [] out hok
  subst hout
  exact ⟨⟨es', rfl⟩, hnd List.nodup_nil, hlast⟩

/-- C4 at `sendtoaddress ["amount=1.5", "comment=hello", "amount=2"]`: the
mapping has the two keys `amount` and `comment`, and `amount` holds the number
`2` of the later token. -/
theorem C4_last_value_wins_witness :
    RPCConvertNamedValues "sendtoaddress" ["amount=1.5", "comment=hello", "amount=2"] =
      .ok (.VOBJ [("amount", .VNUM "2"), ("comment", .VSTR "hello")]) ∧
    (UniValue.VOBJ [("amount", .VNUM "2"), ("comment", .VSTR "hello")]).getKeys =
      ["amount", "comment"] ∧
    (UniValue.VOBJ [("amount", .VNUM "2"), ("comment", .VSTR "hello")]).find "amount" =
      some (.VNUM "2") ∧
    ∃ v, (UniValue.VOBJ [("amount", .VNUM "2"), ("comment", .VSTR "hello")]).find
        (substr "amount=2" 0 6) = some v ∧
      (rpcCvtTable.convertByName "sendtoaddress" (substr "amount=2" 0 6) = true →
        ParseNonRFCJSONValue (substrFrom "amount=2" (6 + 1)) = .ok v) ∧
      (rpcCvtTable.convertByName "sendtoaddress" (substr "amount=2" 0 6) = false →
        v = .VSTR (substrFrom "amount=2" (6 + 1))) :=
  ⟨sendtoaddress_twice_example, rfl, rfl,
    (C4_last_value_wins "sendtoaddress" ["amount=1.5", "comment=hello", "amount=2"] _
      sendtoaddress_twice_example).2.2 ["amount=1.5", "comment=hello"] "amount=2" [] 6
      rfl (by decide) (fun _ ht => absurd ht (List.not_mem_nil _))⟩

/-- C7. When the names of the tokens are pairwise distinct and
`RPCConvertNamedValues` succeeds, the mapping has one entry per token, in the
order of the tokens; the entry of token `name=value` has key `name`, and its
value is `ParseNonRFCJSONValue(value)` when the registry has a rule for
`(method, name)` and the JSON string holding `value` unchanged otherwise. -/
theorem C7_named_entries_in_order (strMethod : String) (strParams : List String)
    (out : UniValue)
    (hdistinct : strParams.Pairwise (fun s t => ∀ p q, findEq s = some p →
      findEq t = some q → substr s 0 p ≠ substr t 0 q))
    (hok : RPCConvertNamedValues strMethod strParams = .ok out) :
    ∃ entries, out = .VOBJ entries ∧ entries.length = strParams.length ∧
      ∀ (i : Nat) (s : String), strParams[i]? = some s →
        ∃ pos v, findEq s = some pos ∧
          entries[i]? = some (substr s 0 pos, v) ∧
          (rpcCvtTable.convertByName strMethod (substr s 0 pos) = true →
            ParseNonRFCJSONValue (substrFrom s (pos + 1)) = .ok v) ∧
          (rpcCvtTable.convertByName strMethod (substr s 0 pos) = false →
            v = .VSTR (substrFrom s (pos + 1))) := by
  obtain ⟨new, hout, hl, hent⟩ :=
    RPCConvertNamedValues.loop_ok_distinct strMethod strParams [] out hok hdistinct
      (fun _ _ _ _ h => absurd h (List.not_mem_nil _))
  exact ⟨new, by simpa using hout, hl, hent⟩

/-- C7 at `sendtoaddress ["amount=1.5", "comment=hello"]`: `amount` gets the
number `1.5` and `comment` the string `hello`, in this order. -/
theorem C7_named_entries_in_order_witness :
    RPCConvertNamedValues "sendtoaddress" ["amount=1.5", "comment=hello"] =
      .ok (.VOBJ [("amount", .VNUM "1.5"), ("comment", .VSTR "hello")]) ∧
    ∃ entries, UniValue.VOBJ [("amount", .VNUM "1.5"), ("comment", .VSTR "hello")] =
        .VOBJ entries ∧
      entries.length = ["amount=1.5", "comment=hello"].length ∧
      ∀ (i : Nat) (s : String), ["amount=1.5", "comment=hello"][i]? = some s →
        ∃ pos v, findEq s = some pos ∧
          entries[i]? = some (substr s 0 pos, v) ∧
          (rpcCvtTable.convertByName "sendtoaddress" (substr s 0 pos) = true →
            ParseNonRFCJSONValue (substrFrom s (pos + 1)) = .ok v) ∧
          (rpcCvtTable.convertByName "sendtoaddress" (substr s 0 pos) = false →
            v = .VSTR (substrFrom s (pos + 1))) :=
  ⟨sendtoaddress_example,
    C7_named_entries_in_order "sendtoaddress" ["amount=1.5", "comment=hello"] _
      (by
        refine List.pairwise_pair.2 ?_
        intro p q hp hq
        have hp6 : p = 6 := (Option.some.inj ((show findEq "amount=1.5" = some 6 from by
          decide).symm.trans hp)).symm
        have hq7 : q = 7 := (Option.some.inj ((show findEq "comment=hello" = some 7 from by
          decide).symm.trans hq)).symm
        subst hp6
        subst hq7
        decide)
      sendtoaddress_example⟩



/-! ## Bare words -/

/-- A letter is no digit. -/
theorem not_isDigit_of_isAlpha (c : Char) (h : c.isAlpha = true) : c.isDigit = false := by
  simp only [Char.isAlpha, Char.isUpper, Char.isLower, Char.isDigit, Bool.or_eq_true,
    Bool.and_eq_true, decide_eq_true_eq, Bool.and_eq_false_imp, decide_eq_false_iff_not,
    ge_iff_le, UInt32.le_def, BitVec.le_def] at *
  have e1 : (65 : UInt32).toBitVec.toNat = 65 := rfl
  have e2 : (90 : UInt32).toBitVec.toNat = 90 := rfl
  have e3 : (97 : UInt32).toBitVec.toNat = 97 := rfl
  have e4 : (122 : UInt32).toBitVec.toNat = 122 := rfl
  have e5 : (48 : UInt32).toBitVec.toNat = 48 := rfl
  have e6 : (57 : UInt32).toBitVec.toNat = 57 := rfl
  rw [e1, e2, e3, e4] at h
  rw [e5, e6]
  omega

/-- A letter, a digit or an underscore is neither whitespace, nor a structural
character, nor a double quote. -/
theorem delimStep_wordChar (c : Char) (h : c.isAlphanum = true ∨ c = '_') :
    delimStep c = none := by
  have n1 : c ≠ ' ' := by rintro rfl; exact absurd h (by decide)
  have n2 : c ≠ '\t' := by rintro rfl; exact absurd h (by decide)
  have n3 : c ≠ '\n' := by rintro rfl; exact absurd h (by decide)
  have n4 : c ≠ '\r' := by rintro rfl; exact absurd h (by decide)
  have n5 : c ≠ '{' := by rintro rfl; exact absurd h (by decide)
  have n6 : c ≠ '}' := by rintro rfl; exact absurd h (by decide)
  have n7 : c ≠ '[' := by rintro rfl; exact absurd h (by decide)
  have n8 : c ≠ ']' := by rintro rfl; exact absurd h (by decide)
  have n9 : c ≠ ':' := by rintro rfl; exact absurd h (by decide)
  have n10 : c ≠ ',' := by rintro rfl; exact absurd h (by decide)
  have n11 : c ≠ '"' := by rintro rfl; exact absurd h (by decide)
  simp [delimStep, isJsonSpace, n1, n2, n3, n4, n5, n6, n7, n8, n9, n10, n11]

/-- No number literal starts with a letter. -/
theorem isJsonNumber_letter (c : Char) (cs : List Char) (h : c.isAlpha = true) :
    isJsonNumber (c :: cs) = false := by
  have n1 : c ≠ '-' := by rintro rfl; exact absurd h (by decide)
  have n2 : c ≠ '0' := by rintro rfl; exact absurd h (by decide)
  have n3 := not_isDigit_of_isAlpha c h
  simp [isJsonNumber, numRun, numStep, n1, n2, n3]

/-- An unquoted run closed by `]`: when the run is no keyword and no number,
the text has no tokens. -/
theorem lex_atom_none :
    ∀ (cs acc rest : List Char), (∀ c ∈ cs, delimStep c = none) →
      atomToken (acc ++ cs) = none → lex (.atom acc) (cs ++ ']' :: rest) = none := by
  intro cs
  induction cs with
  | nil =>
    intro acc rest _ hat
    rw [List.append_nil] at hat
    have hd : delimStep ']' = some (.start, [.arrClose]) := by decide
    simp [lex, lexStep, hd, hat]
  | cons c cs ih =>
    intro acc rest hcs hat
    have hc := hcs c (List.mem_cons_self c cs)
    have hrest := fun d hd => hcs d (List.mem_cons_of_mem c hd)
    have hat' : atomToken ((acc ++ [c]) ++ cs) = none := by
      rw [List.append_assoc]; exact hat
    simp [lex, lexStep, hc, ih (acc ++ [c]) rest hrest hat']

/-- A bare word that is none of the three keywords is rejected by the value
parser. -/
theorem parse_bareWord (w : String)
    (hfirst : ∀ c, w.data.head? = some c → c.isAlpha = true)
    (hall : ∀ c ∈ w.data, c.isAlphanum = true ∨ c = '_')
    (h1 : w ≠ "true") (h2 : w ≠ "false") (h3 : w ≠ "null") :
    ParseNonRFCJSONValue w = .error ("Error parsing JSON:" ++ w) := by
  rcases parse_ok_or_error w with ⟨v, hv⟩ | he
  · exfalso
    have hread := (parse_ok_iff w v).1 hv
    obtain ⟨l⟩ := w
    cases l with
    | nil => cases hv
    | cons c cs =>
      have hc : c.isAlpha = true := hfirst c rfl
      have hd : delimStep c = none := delimStep_wordChar c (hall c (List.mem_cons_self c cs))
      have hrest : ∀ d ∈ cs, delimStep d = none :=
        fun d hd => delimStep_wordChar d (hall d (List.mem_cons_of_mem c hd))
      have g1 : c :: cs ≠ ['t', 'r', 'u', 'e'] := fun h => h1 (congrArg String.mk h)
      have g2 : c :: cs ≠ ['f', 'a', 'l', 's', 'e'] := fun h => h2 (congrArg String.mk h)
      have g3 : c :: cs ≠ ['n', 'u', 'l', 'l'] := fun h => h3 (congrArg String.mk h)
      have hat : atomToken ([c] ++ cs) = none := by
        simp only [List.singleton_append, atomToken, g1, g2, g3, if_false,
          isJsonNumber_letter c cs hc, Bool.false_eq_true]
      have hlex : lex .start ("[" ++ String.mk (c :: cs) ++ "]").data = none := by
        have hdata : ("[" ++ String.mk (c :: cs) ++ "]").data = '[' :: c :: (cs ++ ']' :: []) := by
          simp only [String.data_append]
          rfl
        have ho : delimStep '[' = some (.start, [.arrOpen]) := by decide
        rw [hdata]
        simp [lex, lexStep, ho, hd, lex_atom_none cs [c] [] hrest hat]
      rw [UniValue.read, hlex] at hread
      cases hread
  · exact he



/-- Every position 0..9 of `echojson` has a rule. -/
theorem echojson_rules :
    ∀ i ∈ List.range 10, ∃ r ∈ vRPCConvertParams,
      r.methodName = "echojson" ∧ r.paramIdx = ((i : Nat) : Int) := by
  set_option maxRecDepth 100000 in decide

/-- The lookup of `echojson` at the loop counter values 0..9. -/
theorem echojson_counter (i : Nat) (h : i < 10) :
    rpcCvtTable.convert "echojson" (unsignedToInt i) = true := by
  rw [convert_unsignedToInt _ _ (by omega), convert_iff]
  exact echojson_rules i (List.mem_range.2 h)

/-- The conversion of the seven JSON texts of the `echojson` example. -/
theorem echojson_seven :
    RPCConvertValues "echojson" ["1", "\"x\"", "[1,2]", "true", "null", "3.5", "\x7b\x7d"] =
      .ok (.VARR [.VNUM "1", .VSTR "x", .VARR [.VNUM "1", .VNUM "2"], .VBOOL true, .VNULL,
        .VNUM "3.5", .VOBJ []]) := by
  have p0 : ParseNonRFCJSONValue "1" = .ok (.VNUM "1") := rfl
  have p1 : ParseNonRFCJSONValue "\"x\"" = .ok (.VSTR "x") := rfl
  have p2 : ParseNonRFCJSONValue "[1,2]" = .ok (.VARR [.VNUM "1", .VNUM "2"]) := rfl
  have p3 : ParseNonRFCJSONValue "true" = .ok (.VBOOL true) := rfl
  have p4 : ParseNonRFCJSONValue "null" = .ok .VNULL := rfl
  have p5 : ParseNonRFCJSONValue "3.5" = .ok (.VNUM "3.5") := rfl
  have p6 : ParseNonRFCJSONValue "\x7b\x7d" = .ok (.VOBJ []) := rfl
  simp only [RPCConvertValues, RPCConvertValues.loop, echojson_counter, Nat.reduceAdd,
    Nat.reduceLT, Nat.zero_lt_succ, Bool.not_true, Bool.false_eq_true, if_false,
    p0, p1, p2, p3, p4, p5, p6, UniValue.push_back, List.nil_append, List.cons_append]

/-- The conversion of the ten texts of the `echojson` example fails at `foo`. -/
theorem echojson_ten :
    RPCConvertValues "echojson"
        ["1", "\"x\"", "[1,2]", "true", "null", "3.5", "\x7b\x7d", "foo", "bar", "baz"] =
      .error "Error parsing JSON:foo" := by
  have p0 : ParseNonRFCJSONValue "1" = .ok (.VNUM "1") := rfl
  have p1 : ParseNonRFCJSONValue "\"x\"" = .ok (.VSTR "x") := rfl
  have p2 : ParseNonRFCJSONValue "[1,2]" = .ok (.VARR [.VNUM "1", .VNUM "2"]) := rfl
  have p3 : ParseNonRFCJSONValue "true" = .ok (.VBOOL true) := rfl
  have p4 : ParseNonRFCJSONValue "null" = .ok .VNULL := rfl
  have p5 : ParseNonRFCJSONValue "3.5" = .ok (.VNUM "3.5") := rfl
  have p6 : ParseNonRFCJSONValue "\x7b\x7d" = .ok (.VOBJ []) := rfl
  have p7 : ParseNonRFCJSONValue "foo" = .error "Error parsing JSON:foo" := rfl
  simp only [RPCConvertValues, RPCConvertValues.loop, echojson_counter, Nat.reduceAdd,
    Nat.reduceLT, Nat.zero_lt_succ, Bool.not_true, Bool.false_eq_true, if_false,
    p0, p1, p2, p3, p4, p5, p6, p7]

/-- C10. All ten positions 0..9 of `echojson` are registered; at a registered
position the texts `1`, `"x"`, `[1,2]`, `true`, `null`, `3.5` and `{}` parse
to the number 1, the string `x`, the array `[1,2]`, the boolean `true`, null,
the number 3.5 and the empty object (a number is held as the text of its
literal); every bare word (letters, digits and underscores after a first
letter) other than `true`, `false` and `null` is rejected with the JSON parse
error, so the ten-argument call of the example fails at `foo`. -/
theorem C10_echojson_and_bare_words :
    (List.range 10).all (fun i => rpcCvtTable.convert "echojson" ((i : Nat) : Int)) = true ∧
    ParseNonRFCJSONValue "1" = .ok (.VNUM "1") ∧
    ParseNonRFCJSONValue "\"x\"" = .ok (.VSTR "x") ∧
    ParseNonRFCJSONValue "[1,2]" = .ok (.VARR [.VNUM "1", .VNUM "2"]) ∧
    ParseNonRFCJSONValue "true" = .ok (.VBOOL true) ∧
    ParseNonRFCJSONValue "null" = .ok .VNULL ∧
    ParseNonRFCJSONValue "3.5" = .ok (.VNUM "3.5") ∧
    ParseNonRFCJSONValue "\x7b\x7d" = .ok (.VOBJ []) ∧
    RPCConvertValues "echojson" ["1", "\"x\"", "[1,2]", "true", "null", "3.5", "\x7b\x7d"] =
      .ok (.VARR [.VNUM "1", .VSTR "x", .VARR [.VNUM "1", .VNUM "2"], .VBOOL true, .VNULL,
        .VNUM "3.5", .VOBJ []]) ∧
    RPCConvertValues "echojson"
        ["1", "\"x\"", "[1,2]", "true", "null", "3.5", "\x7b\x7d", "foo", "bar", "baz"] =
      .error "Error parsing JSON:foo" ∧
    (∀ w : String, (∀ c, w.data.head? = some c → c.isAlpha = true) →
      (∀ c ∈ w.data, c.isAlphanum = true ∨ c = '_') →
      w ≠ "true" → w ≠ "false" → w ≠ "null" →
      ParseNonRFCJSONValue w = .error ("Error parsing JSON:" ++ w)) := by
  refine ⟨?_, rfl, rfl, rfl, rfl, rfl, rfl, rfl, echojson_seven, echojson_ten, parse_bareWord⟩
  rw [List.all_eq_true]
  intro i hi
  rw [convert_iff]
  exact echojson_rules i hi

/-- C10 at the bare words `foo`, `bar` and `baz`: each is rejected with the
JSON parse error carrying it. -/
theorem C10_echojson_and_bare_words_witness :
    ParseNonRFCJSONValue "foo" = .error ("Error parsing JSON:" ++ "foo") ∧
    ParseNonRFCJSONValue "bar" = .error ("Error parsing JSON:" ++ "bar") ∧
    ParseNonRFCJSONValue "baz" = .error ("Error parsing JSON:" ++ "baz") :=
  ⟨C10_echojson_and_bare_words.2.2.2.2.2.2.2.2.2.2 "foo" (by decide) (by decide)
      (by decide) (by decide) (by decide),
    C10_echojson_and_bare_words.2.2.2.2.2.2.2.2.2.2 "bar" (by decide) (by decide)
      (by decide) (by decide) (by decide),
    C10_echojson_and_bare_words.2.2.2.2.2.2.2.2.2.2 "baz" (by decide) (by decide)
      (by decide) (by decide) (by decide)⟩



/-! ## Methods without rules -/

/-- With no rule at any counter value, the positional loop appends every
remaining argument as a JSON string. -/
theorem RPCConvertValues.loop_no_rule (m : String)
    (hnone : ∀ i : Int, rpcCvtTable.convert m i = false) :
    ∀ (rest : List String) (idx : Nat) (acc : List UniValue),
      RPCConvertValues.loop m idx rest (.VARR acc) =
        .ok (.VARR (acc ++ rest.map UniValue.VSTR)) := by
  intro rest
  induction rest with
  | nil => intro idx acc; simp [RPCConvertValues.loop]
  | cons s rest ih =>
    intro idx acc
    rw [RPCConvertValues.loop, hnone]
    simp only [Bool.not_false, if_true, UniValue.push_back]
    rw [ih]
    simp

/-- C11. For a method that has no rule at any index, `RPCConvertValues` does
not fail, whatever the argument texts are, and returns the input list with
every element turned into the JSON string holding the raw text unchanged (on
an argument vector the 32-bit loop counter can walk).  A method of which the
table holds no rule is such a method. -/
theorem C11_no_rule_identity (strMethod : String) (strParams : List String)
    (_hlen : strParams.length < 2 ^ 32)
    (hnone : ∀ r ∈ vRPCConvertParams, r.methodName ≠ strMethod) :
    (∀ i : Int, rpcCvtTable.convert strMethod i = false) ∧
    RPCConvertValues strMethod strParams =
      .ok (.VARR (strParams.map UniValue.VSTR)) := by
  have h : ∀ i : Int, rpcCvtTable.convert strMethod i = false := by
    intro i
    rw [← Bool.not_eq_true, convert_iff]
    rintro ⟨r, hr, hm, -⟩
    exact hnone r hr hm
  refine ⟨h, ?_⟩
  rw [RPCConvertValues, RPCConvertValues.loop_no_rule strMethod h]
  rfl

/-- C11 at `echo` with three texts that are not JSON values: each comes back as
a JSON string. -/
theorem C11_no_rule_identity_witness :
    (∀ i : Int, rpcCvtTable.convert "echo" i = false) ∧
    RPCConvertValues "echo" ["\x7bbad json", "foo", "1,2"] =
      .ok (.VARR [.VSTR "\x7bbad json", .VSTR "foo", .VSTR "1,2"]) :=
  C11_no_rule_identity "echo" ["\x7bbad json", "foo", "1,2"] (by norm_num)
    (by set_option maxRecDepth 100000 in decide)



/-! ## The two sets of the registry -/

/-- No two rules of the table have the same method and position. -/
theorem nodup_positions :
    (vRPCConvertParams.map (fun r => (r.methodName, r.paramIdx))).Nodup := by
  set_option maxRecDepth 1000000 in decide

/-- No two rules of the table have the same method and name. -/
theorem nodup_names :
    (vRPCConvertParams.map (fun r => (r.methodName, r.paramName))).Nodup := by
  set_option maxRecDepth 1000000 in decide

/-- Inserting an element that is not there appends it. -/
theorem setInsert_of_not_mem {α : Type} [DecidableEq α] (s : List α) (x : α)
    (h : x ∉ s) : setInsert s x = s ++ [x] := by
  simp [setInsert, h]

/-- When the (method, position) pairs of the rules are all new and pairwise
distinct, the by-position set grows by exactly these pairs, in order. -/
theorem members_foldl_of_nodup :
    ∀ (rules : List CRPCConvertParam) (t : CRPCConvertTable),
      (t.members ++ rules.map (fun r => (r.methodName, r.paramIdx))).Nodup →
      (rules.foldl CRPCConvertTable.insertRule t).members =
        t.members ++ rules.map (fun r => (r.methodName, r.paramIdx)) := by
  intro rules
  induction rules with
  | nil => intro t _; simp
  | cons r rs ih =>
    intro t h
    have hr : (r.methodName, r.paramIdx) ∉ t.members := by
      intro hmem
      rw [List.map_cons, List.nodup_append] at h
      exact h.2.2 hmem (List.mem_cons_self _ _)
    have hstep : (CRPCConvertTable.insertRule t r).members =
        t.members ++ [(r.methodName, r.paramIdx)] :=
      setInsert_of_not_mem _ _ hr
    rw [List.foldl_cons, ih, hstep]
    · simp
    · rw [hstep]
      simpa using h

/-- The same for the by-name set. -/
theorem membersByName_foldl_of_nodup :
    ∀ (rules : List CRPCConvertParam) (t : CRPCConvertTable),
      (t.membersByName ++ rules.map (fun r => (r.methodName, r.paramName))).Nodup →
      (rules.foldl CRPCConvertTable.insertRule t).membersByName =
        t.membersByName ++ rules.map (fun r => (r.methodName, r.paramName)) := by
  intro rules
  induction rules with
  | nil => intro t _; simp
  | cons r rs ih =>
    intro t h
    have hr : (r.methodName, r.paramName) ∉ t.membersByName := by
      intro hmem
      rw [List.map_cons, List.nodup_append] at h
      exact h.2.2 hmem (List.mem_cons_self _ _)
    have hstep : (CRPCConvertTable.insertRule t r).membersByName =
        t.membersByName ++ [(r.methodName, r.paramName)] :=
      setInsert_of_not_mem _ _ hr
    rw [List.foldl_cons, ih, hstep]
    · simp
    · rw [hstep]
      simpa using h

/-- The by-position set of the global table: one pair per rule, in table order. -/
theorem members_eq :
    rpcCvtTable.members = vRPCConvertParams.map (fun r => (r.methodName, r.paramIdx)) := by
  have h := members_foldl_of_nodup vRPCConvertParams
    { members := [], membersByName := [] } (by simpa using nodup_positions)
  simpa [rpcCvtTable, CRPCConvertTable.construct] using h

/-- The by-name set of the global table: one pair per rule, in table order. -/
theorem membersByName_eq :
    rpcCvtTable.membersByName =
      vRPCConvertParams.map (fun r => (r.methodName, r.paramName)) := by
  have h := membersByName_foldl_of_nodup vRPCConvertParams
    { members := [], membersByName := [] } (by simpa using nodup_names)
  simpa [rpcCvtTable, CRPCConvertTable.construct] using h



/-- C12. In the registry built from `vRPCConvertParams` every rule contributes
exactly one entry to each set: both lookups are true at every rule of the
table, the by-position set is the list of the (method, position) pairs of the
rules and the by-name set the list of their (method, name) pairs, one per
rule; no two rules share a (method, position) pair or a (method, name) pair,
so both sets have as many entries as the table has rules (177), and within a
method two rules have the same position exactly when they have the same
name. -/
theorem C12_one_entry_per_rule :
    (∀ r ∈ vRPCConvertParams,
      rpcCvtTable.convert r.methodName r.paramIdx = true ∧
      rpcCvtTable.convertByName r.methodName r.paramName = true) ∧
    (rpcCvtTable.members = vRPCConvertParams.map (fun r => (r.methodName, r.paramIdx)) ∧
      rpcCvtTable.membersByName =
        vRPCConvertParams.map (fun r => (r.methodName, r.paramName))) ∧
    (rpcCvtTable.members.Nodup ∧ rpcCvtTable.membersByName.Nodup) ∧
    (rpcCvtTable.members.length = vRPCConvertParams.length ∧
      rpcCvtTable.membersByName.length = vRPCConvertParams.length ∧
      vRPCConvertParams.length = 177) ∧
    (∀ r₁ ∈ vRPCConvertParams, ∀ r₂ ∈ vRPCConvertParams,
      r₁.methodName = r₂.methodName → r₁.paramIdx = r₂.paramIdx → r₁ = r₂) ∧
    (∀ r₁ ∈ vRPCConvertParams, ∀ r₂ ∈ vRPCConvertParams,
      r₁.methodName = r₂.methodName → r₁.paramName = r₂.paramName → r₁ = r₂) ∧
    (∀ r₁ ∈ vRPCConvertParams, ∀ r₂ ∈ vRPCConvertParams,
      r₁.methodName = r₂.methodName →
      (r₁.paramIdx = r₂.paramIdx ↔ r₁.paramName = r₂.paramName)) := by
  have hpos : ∀ r₁ ∈ vRPCConvertParams, ∀ r₂ ∈ vRPCConvertParams,
      r₁.methodName = r₂.methodName → r₁.paramIdx = r₂.paramIdx → r₁ = r₂ :=
    fun r₁ h₁ r₂ h₂ hm hi =>
      List.inj_on_of_nodup_map nodup_positions h₁ h₂ (Prod.ext hm hi)
  have hname : ∀ r₁ ∈ vRPCConvertParams, ∀ r₂ ∈ vRPCConvertParams,
      r₁.methodName = r₂.methodName → r₁.paramName = r₂.paramName → r₁ = r₂ :=
    fun r₁ h₁ r₂ h₂ hm hn =>
      List.inj_on_of_nodup_map nodup_names h₁ h₂ (Prod.ext hm hn)
  refine ⟨?_, ⟨members_eq, membersByName_eq⟩, ⟨?_, ?_⟩, ⟨?_, ?_, ?_⟩, hpos, hname, ?_⟩
  · intro r hr
    exact ⟨(convert_iff _ _).2 ⟨r, hr, rfl, rfl⟩, (convertByName_iff _ _).2 ⟨r, hr, rfl, rfl⟩⟩
  · rw [members_eq]; exact nodup_positions
  · rw [membersByName_eq]; exact nodup_names
  · rw [members_eq, List.length_map]
  · rw [membersByName_eq, List.length_map]
  · set_option maxRecDepth 100000 in decide
  · intro r₁ h₁ r₂ h₂ hm
    constructor
    · intro hi; rw [hpos r₁ h₁ r₂ h₂ hm hi]
    · intro hn; rw [hname r₁ h₁ r₂ h₂ hm hn]

/-- C12 at the rules `("sendtoaddress", 1, "amount")` and
`("sendtoaddress", 4, "subtractfeefromamount")`: both lookups are true at the
first, and the two differ in position as they differ in name. -/
theorem C12_one_entry_per_rule_witness :
    (rpcCvtTable.convert "sendtoaddress" 1 = true ∧
      rpcCvtTable.convertByName "sendtoaddress" "amount" = true) ∧
    ((1 : Int) = 4 ↔ "amount" = "subtractfeefromamount") :=
  ⟨C12_one_entry_per_rule.1 ⟨"sendtoaddress", 1, "amount"⟩
      (by set_option maxRecDepth 100000 in decide),
    C12_one_entry_per_rule.2.2.2.2.2.2 ⟨"sendtoaddress", 1, "amount"⟩
      (by set_option maxRecDepth 100000 in decide)
      ⟨"sendtoaddress", 4, "subtractfeefromamount"⟩
      (by set_option maxRecDepth 100000 in decide) rfl⟩

/-! ## Order and duplicates of the rules -/

/-- C13. Registry construction is insensitive to the order of the rules and to
duplicates: two rule lists that hold the same rules (as a permutation of each
other, or with rules repeated) give registries that answer every lookup by
position and every lookup by name alike; a list and the list with all its
rules repeated do, and so does the table taken twice. -/
theorem C13_construction_order_insensitive (rules₁ rules₂ : List CRPCConvertParam)
    (hsame : ∀ r, r ∈ rules₁ ↔ r ∈ rules₂) :
    (∀ (m : String) (i : Int),
      (CRPCConvertTable.construct rules₁).convert m i =
        (CRPCConvertTable.construct rules₂).convert m i) ∧
    (∀ (m n : String),
      (CRPCConvertTable.construct rules₁).convertByName m n =
        (CRPCConvertTable.construct rules₂).convertByName m n) ∧
    (∀ (m : String) (i : Int),
      (CRPCConvertTable.construct (rules₁ ++ rules₁)).convert m i =
        (CRPCConvertTable.construct rules₁).convert m i) ∧
    (∀ (m n : String),
      (CRPCConvertTable.construct (rules₁ ++ rules₁)).convertByName m n =
        (CRPCConvertTable.construct rules₁).convertByName m n) ∧
    (∀ (m : String) (i : Int),
      (CRPCConvertTable.construct rules₁.reverse).convert m i =
        (CRPCConvertTable.construct rules₁).convert m i) ∧
    (∀ (m n : String),
      (CRPCConvertTable.construct rules₁.reverse).convertByName m n =
        (CRPCConvertTable.construct rules₁).convertByName m n) := by
  refine ⟨?_, ?_, ?_, ?_, ?_, ?_⟩
  · intro m i
    rw [Bool.eq_iff_iff, convert_construct_iff, convert_construct_iff]
    exact ⟨fun ⟨r, hr, h⟩ => ⟨r, (hsame r).1 hr, h⟩, fun ⟨r, hr, h⟩ => ⟨r, (hsame r).2 hr, h⟩⟩
  · intro m n
    rw [Bool.eq_iff_iff, convertByName_construct_iff, convertByName_construct_iff]
    exact ⟨fun ⟨r, hr, h⟩ => ⟨r, (hsame r).1 hr, h⟩, fun ⟨r, hr, h⟩ => ⟨r, (hsame r).2 hr, h⟩⟩
  · intro m i
    rw [Bool.eq_iff_iff, convert_construct_iff, convert_construct_iff]
    simp only [List.mem_append, or_self]
  · intro m n
    rw [Bool.eq_iff_iff, convertByName_construct_iff, convertByName_construct_iff]
    simp only [List.mem_append, or_self]
  · intro m i
    rw [Bool.eq_iff_iff, convert_construct_iff, convert_construct_iff]
    simp only [List.mem_reverse]
  · intro m n
    rw [Bool.eq_iff_iff, convertByName_construct_iff, convertByName_construct_iff]
    simp only [List.mem_reverse]

/-- C13 at two lists of the rules of `generate`, the second in the other order
and with one rule repeated: the lookups agree, here on `("generate", 1)`. -/
theorem C13_construction_order_insensitive_witness :
    (CRPCConvertTable.construct
        [⟨"generate", 0, "nblocks"⟩, ⟨"generate", 1, "maxtries"⟩]).convert "generate" 1 =
      (CRPCConvertTable.construct
        [⟨"generate", 1, "maxtries"⟩, ⟨"generate", 0, "nblocks"⟩,
          ⟨"generate", 1, "maxtries"⟩]).convert "generate" 1 ∧
    (CRPCConvertTable.construct
        [⟨"generate", 1, "maxtries"⟩, ⟨"generate", 0, "nblocks"⟩,
          ⟨"generate", 1, "maxtries"⟩]).members =
      [("generate", 1), ("generate", 0)] :=
  ⟨(C13_construction_order_insensitive
      [⟨"generate", 0, "nblocks"⟩, ⟨"generate", 1, "maxtries"⟩]
      [⟨"generate", 1, "maxtries"⟩, ⟨"generate", 0, "nblocks"⟩,
        ⟨"generate", 1, "maxtries"⟩]
      (by intro r; simp only [List.mem_cons, List.mem_singleton, List.not_mem_nil]; tauto)).1
      "generate" 1,
    by decide⟩

/-! ## The first failing token -/

/-- The named loop fails when a token to visit has no `=` or has a registered
name and a value that does not parse. -/
theorem RPCConvertNamedValues.loop_fails_of_failing (m : String) :
    ∀ (toks : List String) (params : UniValue),
      (∃ s ∈ toks, findEq s = none ∨ ∃ pos, findEq s = some pos ∧
        rpcCvtTable.convertByName m (substr s 0 pos) = true ∧
        ∃ e, ParseNonRFCJSONValue (substrFrom s (pos + 1)) = .error e) →
      ∃ e, RPCConvertNamedValues.loop m toks params = .error e := by
  intro toks
  induction toks with
  | nil => rintro _ ⟨s, hs, -⟩; cases hs
  | cons t rest ih =>
    intro params hex
    cases hr : RPCConvertNamedValues.loop m (t :: rest) params with
    | error e => exact ⟨e, rfl⟩
    | ok out =>
      exfalso
      obtain ⟨pos, v, hf, hrun, h1, -⟩ :=
        RPCConvertNamedValues.loop_cons_ok m t rest params out hr
      obtain ⟨s, hs, hfail⟩ := hex
      rcases List.mem_cons.1 hs with rfl | hs'
      · rcases hfail with hnone | ⟨pos', hf', hc, e, he⟩
        · rw [hnone] at hf; cases hf
        · rw [hf] at hf'
          cases hf'
          rw [h1 hc] at he
          cases he
      · obtain ⟨e, he⟩ := ih _ ⟨s, hs', hfail⟩
        rw [he] at hrun
        cases hrun

/-- A failing run of the named loop stops at its first failing token: the
tokens before it pass, and the error is the one of that token. -/
theorem RPCConvertNamedValues.loop_stops_at_first (m : String) :
    ∀ (toks : List String) (params : UniValue) (e : String),
      RPCConvertNamedValues.loop m toks params = .error e →
      ∃ pre s post, toks = pre ++ s :: post ∧
        (∀ t ∈ pre, ∃ pos, findEq t = some pos ∧
          (rpcCvtTable.convertByName m (substr t 0 pos) = true →
            ∃ v, ParseNonRFCJSONValue (substrFrom t (pos + 1)) = .ok v)) ∧
        ((findEq s = none ∧ e = noEqualsError s) ∨
          ∃ pos, findEq s = some pos ∧
            rpcCvtTable.convertByName m (substr s 0 pos) = true ∧
            ParseNonRFCJSONValue (substrFrom s (pos + 1)) = .error e) := by
  intro toks
  induction toks with
  | nil =>
    intro params e h
    simp only [RPCConvertNamedValues.loop] at h
    cases h
  | cons t rest ih =>
    intro params e h
    rw [RPCConvertNamedValues.loop] at h
    have step : ∀ params' pos, findEq t = some pos →
        (rpcCvtTable.convertByName m (substr t 0 pos) = true →
          ∃ v, ParseNonRFCJSONValue (substrFrom t (pos + 1)) = .ok v) →
        RPCConvertNamedValues.loop m rest params' = .error e →
        ∃ pre s post, t :: rest = pre ++ s :: post ∧
          (∀ t' ∈ pre, ∃ pos, findEq t' = some pos ∧
            (rpcCvtTable.convertByName m (substr t' 0 pos) = true →
              ∃ v, ParseNonRFCJSONValue (substrFrom t' (pos + 1)) = .ok v)) ∧
          ((findEq s = none ∧ e = noEqualsError s) ∨
            ∃ pos, findEq s = some pos ∧
              rpcCvtTable.convertByName m (substr s 0 pos) = true ∧
              ParseNonRFCJSONValue (substrFrom s (pos + 1)) = .error e) := by
      intro params' pos hf hpass h'
      obtain ⟨pre, s, post, hsplit, hpre, hs⟩ := ih params' e h'
      refine ⟨t :: pre, s, post, by rw [hsplit, List.cons_append], ?_, hs⟩
      intro t' ht'
      rcases List.mem_cons.1 ht' with rfl | ht''
      · exact ⟨pos, hf, hpass⟩
      · exact hpre t' ht''
    cases hf : findEq t with
    | none =>
      rw [hf] at h
      cases h
      exact ⟨[], t, rest, rfl, fun _ ht => absurd ht (List.not_mem_nil _), Or.inl ⟨hf, rfl⟩⟩
    | some pos =>
      rw [hf] at h
      simp only at h
      cases hc : rpcCvtTable.convertByName m (substr t 0 pos) with
      | false =>
        rw [hc] at h
        simp only [Bool.not_false, if_true] at h
        exact step _ pos hf (fun ht => (by rw [hc] at ht; cases ht)) h
      | true =>
        rw [hc] at h
        simp only [Bool.not_true, Bool.false_eq_true, if_false] at h
        cases hp : ParseNonRFCJSONValue (substrFrom t (pos + 1)) with
        | error e0 =>
          rw [hp] at h
          cases h
          exact ⟨[], t, rest, rfl, fun _ ht => absurd ht (List.not_mem_nil _),
            Or.inr ⟨pos, hf, hc, hp⟩⟩
        | ok v0 =>
          rw [hp] at h
          exact step _ pos hf (fun _ => ⟨v0, hp⟩) h

/-- The named loop fails with the parse error of a token whose registered value
does not parse when every token before it passes. -/
theorem RPCConvertNamedValues.loop_first_parse_error (m s : String) (post : List String)
    (pos : Nat) (hf : findEq s = some pos)
    (hc : rpcCvtTable.convertByName m (substr s 0 pos) = true)
    (he : ∃ e, ParseNonRFCJSONValue (substrFrom s (pos + 1)) = .error e) :
    ∀ (pre : List String) (params : UniValue),
      (∀ t ∈ pre, ∃ pos, findEq t = some pos ∧
        (rpcCvtTable.convertByName m (substr t 0 pos) = true →
          ∃ v, ParseNonRFCJSONValue (substrFrom t (pos + 1)) = .ok v)) →
      RPCConvertNamedValues.loop m (pre ++ s :: post) params =
        .error ("Error parsing JSON:" ++ substrFrom s (pos + 1)) := by
  intro pre
  induction pre with
  | nil =>
    intro params _
    obtain ⟨e, he⟩ := he
    rw [List.nil_append, RPCConvertNamedValues.loop, hf]
    simp only [hc, Bool.not_true, Bool.false_eq_true, if_false]
    rw [he, parse_error_msg _ e he]
  | cons t rest ih =>
    intro params hpre
    obtain ⟨pos', hf', hp⟩ := hpre t (List.mem_cons_self t rest)
    have hrest := fun t' ht' => hpre t' (List.mem_cons_of_mem t ht')
    rw [List.cons_append, RPCConvertNamedValues.loop, hf']
    simp only
    cases hc' : rpcCvtTable.convertByName m (substr t 0 pos') with
    | false =>
      simp only [Bool.not_false, if_true]
      exact ih _ hrest
    | true =>
      simp only [Bool.not_true, Bool.false_eq_true, if_false]
      obtain ⟨v, hv⟩ := hp hc'
      rw [hv]
      exact ih _ hrest

/-- C16. `RPCConvertNamedValues` visits the tokens from left to right and
reports the error of the first failing token: the call fails exactly when some
token has no `=` or has a registered name and a value text that does not
parse, and when the tokens before such a token all pass, the error is the one
of that token, the missing-equals error naming it or the JSON parse error
carrying its value text. -/
theorem C16_first_failing_token (strMethod : String) (strParams : List String) :
    ((∃ e, RPCConvertNamedValues strMethod strParams = .error e) ↔
      ∃ s ∈ strParams, findEq s = none ∨ ∃ pos, findEq s = some pos ∧
        rpcCvtTable.convertByName strMethod (substr s 0 pos) = true ∧
        ∃ e, ParseNonRFCJSONValue (substrFrom s (pos + 1)) = .error e) ∧
    (∀ (pre : List String) (s : String) (post : List String),
      strParams = pre ++ s :: post →
      (∀ t ∈ pre, ∃ pos, findEq t = some pos ∧
        (rpcCvtTable.convertByName strMethod (substr t 0 pos) = true →
          ∃ v, ParseNonRFCJSONValue (substrFrom t (pos + 1)) = .ok v)) →
      (findEq s = none →
        RPCConvertNamedValues strMethod strParams =
          .error ("No '=' in named argument '" ++ s ++
            "', this needs to be present for every argument (even if it is empty)")) ∧
      (∀ pos, findEq s = some pos →
        rpcCvtTable.convertByName strMethod (substr s 0 pos) = true →
        (∃ e, ParseNonRFCJSONValue (substrFrom s (pos + 1)) = .error e) →
        RPCConvertNamedValues strMethod strParams =
          .error ("Error parsing JSON:" ++ substrFrom s (pos + 1)))) := by
  refine ⟨⟨?_, ?_⟩, ?_⟩
  · rintro ⟨e, he⟩
    obtain ⟨pre, s, post, hsplit, -, hs⟩ :=
      RPCConvertNamedValues.loop_stops_at_first strMethod strParams _ e he
    refine ⟨s, by rw [hsplit]; simp, ?_⟩
    rcases hs with ⟨hnone, -⟩ | ⟨pos, hf, hc, hp⟩
    · exact Or.inl hnone
    · exact Or.inr ⟨pos, hf, hc, e, hp⟩
  · exact RPCConvertNamedValues.loop_fails_of_failing strMethod strParams _
  · intro pre s post hsplit hpre
    subst hsplit
    refine ⟨?_, ?_⟩
    · intro hnone
      exact RPCConvertNamedValues.loop_first_missing strMethod s post
        ((findEq_eq_none_iff s).1 hnone) pre _ hpre
    · intro pos hf hc he
      exact RPCConvertNamedValues.loop_first_parse_error strMethod s post pos hf hc he pre _
        hpre

/-- C16 at `settxfee`: with the value of `amount` not parsing before a token
without `=`, the error is the JSON parse error; with the token without `=`
first, the error is the missing-equals error. -/
theorem C16_first_failing_token_witness :
    RPCConvertNamedValues "settxfee" ["amount=\x7bbad", "x"] =
      .error "Error parsing JSON:\x7bbad" ∧
    RPCConvertNamedValues "settxfee" ["x", "amount=\x7bbad"] =
      .error ("No '=' in named argument 'x', this needs to be present " ++
        "for every argument (even if it is empty)") :=
  ⟨((C16_first_failing_token "settxfee" ["amount=\x7bbad", "x"]).2
      [] "amount=\x7bbad" ["x"] rfl (fun _ ht => absurd ht (List.not_mem_nil _))).2
      6 (by decide) settxfee_amount ⟨_, rfl⟩,
    ((C16_first_failing_token "settxfee" ["x", "amount=\x7bbad"]).2
      [] "x" ["amount=\x7bbad"] rfl (fun _ ht => absurd ht (List.not_mem_nil _))).1
      (by decide)⟩

/-! ## Positional and named conversion -/

/-- No parameter name of the table holds `=`. -/
theorem paramName_no_eq : ∀ r ∈ vRPCConvertParams, '=' ∉ r.paramName.data := by
  set_option maxRecDepth 1000000 in decide

/-- C17. Positional and named conversion agree on every rule `(m, i, n)` of the
table: for a value text `v` at position `i` of an argument vector whose other
registered positions hold texts that parse, and for the token
`n ++ "=" ++ v`, either both calls fail with the JSON parse error carrying
`v`, or both succeed and hold the same JSON value for the parameter (at
position `i` of the array, under key `n` of the mapping).  For a name without
a rule for the method, the named value is the plain string. -/
theorem C17_positional_named_agree (r : CRPCConvertParam) (hr : r ∈ vRPCConvertParams)
    (v : String) (strParams : List String) (hlen : strParams.length < 2 ^ 32)
    (hpos : strParams[r.paramIdx.toNat]? = some v)
    (hothers : ∀ (j : Nat) (b : String), j ≠ r.paramIdx.toNat → strParams[j]? = some b →
      rpcCvtTable.convert r.methodName (j : Int) = true →
      ∃ w, ParseNonRFCJSONValue b = .ok w) :
    ((∃ e, ParseNonRFCJSONValue v = .error e) →
      RPCConvertValues r.methodName strParams = .error ("Error parsing JSON:" ++ v) ∧
      RPCConvertNamedValues r.methodName [r.paramName ++ "=" ++ v] =
        .error ("Error parsing JSON:" ++ v)) ∧
    (∀ w, ParseNonRFCJSONValue v = .ok w →
      (∃ values, RPCConvertValues r.methodName strParams = .ok (.VARR values) ∧
        values[r.paramIdx.toNat]? = some w) ∧
      RPCConvertNamedValues r.methodName [r.paramName ++ "=" ++ v] =
        .ok (.VOBJ [(r.paramName, w)])) ∧
    (∀ name value : String, '=' ∉ name.data →
      (¬ ∃ r' ∈ vRPCConvertParams, r'.methodName = r.methodName ∧ r'.paramName = name) →
      RPCConvertNamedValues r.methodName [name ++ "=" ++ value] =
        .ok (.VOBJ [(name, .VSTR value)])) := by
  have hidx : ((r.paramIdx.toNat : Nat) : Int) = r.paramIdx :=
    Int.toNat_of_nonneg (paramIdx_range r hr).1
  have hci : rpcCvtTable.convert r.methodName ((r.paramIdx.toNat : Nat) : Int) = true := by
    rw [hidx]
    exact (convert_iff _ _).2 ⟨r, hr, rfl, rfl⟩
  have hcn : rpcCvtTable.convertByName r.methodName r.paramName = true :=
    (convertByName_iff _ _).2 ⟨r, hr, rfl, rfl⟩
  have hstep := RPCConvertNamedValues.loop_step r.methodName r.paramName v [] (.VOBJ [])
    (paramName_no_eq r hr)
  have hlen' : 0 + strParams.length ≤ 2 ^ 32 := by omega
  -- a failing positional call fails at position `i`
  have herr : ∀ e, RPCConvertValues r.methodName strParams = .error e →
      ParseNonRFCJSONValue v = .error e := by
    intro e he
    obtain ⟨j, a, hj, hcj, hpj, -⟩ :=
      RPCConvertValues.loop_error r.methodName strParams 0 (.VARR []) e hlen' he
    rw [Nat.zero_add] at hcj
    by_cases hji : j = r.paramIdx.toNat
    · subst hji
      rw [hpos] at hj
      cases hj
      exact hpj
    · obtain ⟨w, hw⟩ := hothers j a hji hj hcj
      rw [hw] at hpj
      cases hpj
  -- a successful positional call holds the parsed value at position `i`
  have hok : ∀ out, RPCConvertValues r.methodName strParams = .ok out →
      ∃ values w, out = .VARR values ∧ values[r.paramIdx.toNat]? = some w ∧
        ParseNonRFCJSONValue v = .ok w := by
    intro out ho
    obtain ⟨vs, hout, -, hvs⟩ :=
      RPCConvertValues.loop_ok r.methodName strParams 0 [] out hlen' ho
    obtain ⟨w, hw, h1, -⟩ := hvs _ v hpos
    rw [Nat.zero_add] at h1
    exact ⟨vs, w, by simpa using hout, hw, h1 hci⟩
  refine ⟨?_, ?_, ?_⟩
  · rintro ⟨e, he⟩
    constructor
    · cases hrun : RPCConvertValues r.methodName strParams with
      | error e' =>
        have := herr e' hrun
        rw [parse_error_msg v e' this]
      | ok out =>
        obtain ⟨_, w, -, -, hw⟩ := hok out hrun
        rw [hw] at he
        cases he
    · rw [RPCConvertNamedValues, hstep, hcn]
      simp only [Bool.not_true, Bool.false_eq_true, if_false]
      rw [he, parse_error_msg v e he]
  · intro w hw
    constructor
    · cases hrun : RPCConvertValues r.methodName strParams with
      | error e' =>
        have := herr e' hrun
        rw [hw] at this
        cases this
      | ok out =>
        obtain ⟨values, w', hout, hval, hw'⟩ := hok out hrun
        rw [hw] at hw'
        cases hw'
        exact ⟨values, by rw [hout], hval⟩
    · rw [RPCConvertNamedValues, hstep, hcn]
      simp only [Bool.not_true, Bool.false_eq_true, if_false]
      rw [hw]
      rfl
  · intro name value hname hno
    have hc : rpcCvtTable.convertByName r.methodName name = false := by
      rw [← Bool.not_eq_true, convertByName_iff]
      exact hno
    rw [RPCConvertNamedValues,
      RPCConvertNamedValues.loop_step r.methodName name value [] (.VOBJ []) hname, hc]
    rfl

/-- C17 at the rule `("sendtoaddress", 1, "amount")`: the text `1.5` at
position 1 and the token `amount=1.5` both give the number `1.5`. -/
theorem C17_positional_named_agree_witness :
    (∃ values, RPCConvertValues "sendtoaddress" ["addr", "1.5"] = .ok (.VARR values) ∧
      values[1]? = some (.VNUM "1.5")) ∧
    RPCConvertNamedValues "sendtoaddress" ["amount" ++ "=" ++ "1.5"] =
      .ok (.VOBJ [("amount", .VNUM "1.5")]) :=
  (C17_positional_named_agree ⟨"sendtoaddress", 1, "amount"⟩
    (by set_option maxRecDepth 100000 in decide) "1.5" ["addr", "1.5"] (by norm_num) rfl
    (by
      intro j b hj hb hc
      have h0 : rpcCvtTable.convert "sendtoaddress" ((0 : Nat) : Int) = false := by
        rw [← Bool.not_eq_true, convert_iff]
        set_option maxRecDepth 100000 in decide
      match j, hj, hb, hc with
      | 0, _, _, hc => rw [h0] at hc; cases hc
      | 1, hj, _, _ => exact absurd rfl hj
      | (k + 2), _, hb, _ => simp at hb)).2.1 (.VNUM "1.5") rfl

/-! ## The wrapping step -/

/-- Tokens of a text followed by `]`: the tokens of the text, then the closing
bracket. -/
theorem lex_append_close : ∀ (raw : List Char) (st : LexState),
    lex st (raw ++ [']']) = (lex st raw).map (fun toks => toks ++ [.arrClose]) := by
  intro raw
  induction raw with
  | nil =>
    intro st
    have hd : delimStep ']' = some (.start, [.arrClose]) := by decide
    cases st with
    | start => simp [lex, lexStep, lexFinish, hd]
    | atom acc =>
      cases hat : atomToken acc <;> simp [lex, lexStep, lexFinish, hd, hat]
    | str acc => simp [lex, lexStep, lexFinish]
    | esc acc => simp [lex, lexStep, lexFinish]
    | hex acc hi n v =>
      have hh : hexDigit ']' = none := by decide
      simp [lex, lexStep, lexFinish, hh]
    | pairBackslash acc hi => simp [lex, lexStep, lexFinish]
    | pairU acc hi => simp [lex, lexStep, lexFinish]
  | cons c cs ih =>
    intro st
    rw [List.cons_append, lex, lex]
    cases hs : lexStep st c with
    | none => rfl
    | some r =>
      obtain ⟨st', toks⟩ := r
      simp only [ih, Option.map_map]
      congr 1
      funext rest
      simp [List.append_assoc]

/-- Tokens of `[` followed by a text. -/
theorem lex_open (cs : List Char) :
    lex .start ('[' :: cs) = (lex .start cs).map (fun toks => Token.arrOpen :: toks) := by
  have hd : delimStep '[' = some (.start, [.arrOpen]) := by decide
  simp [lex, lexStep, hd]

/-- Tokens of the wrapped text. -/
theorem lex_wrapped (raw : String) :
    lex .start ("[" ++ raw ++ "]").data =
      (lex .start raw.data).map (fun toks => Token.arrOpen :: (toks ++ [.arrClose])) := by
  have hdata : ("[" ++ raw ++ "]").data = '[' :: (raw.data ++ [']']) := by
    simp only [String.data_append]
    rfl
  rw [hdata, lex_open, lex_append_close, Option.map_map]
  rfl

/-- Delivering into a stack with an enclosing array at the bottom. -/
theorem deliver_append (v : UniValue) (values : List UniValue) (stack : List Frame) :
    deliver v (stack ++ [.arr values]) = (deliver v stack).map (liftArr values) := by
  cases stack with
  | nil => rfl
  | cons f rest => cases f <;> rfl

/-- A value token, with an enclosing array at the bottom of the stack. -/
theorem valueStep_append (values : List UniValue) (stack : List Frame) (tok : Token) :
    valueStep (stack ++ [.arr values]) tok = (valueStep stack tok).map (liftArr values) := by
  cases tok <;> simp only [valueStep, deliver_append, Option.map_none'] <;> rfl

/-- A closing bracket, with an enclosing array below an open container. -/
theorem closeArr_append (values : List UniValue) (f : Frame) (rest : List Frame) :
    closeArr ((f :: rest) ++ [.arr values]) =
      (closeArr (f :: rest)).map (liftArr values) := by
  cases f <;> simp only [closeArr, List.cons_append, deliver_append, Option.map_none']

/-- A closing brace, with an enclosing array below an open container. -/
theorem closeObj_append (values : List UniValue) (f : Frame) (rest : List Frame) :
    closeObj ((f :: rest) ++ [.arr values]) =
      (closeObj (f :: rest)).map (liftArr values) := by
  cases f <;> simp only [closeObj, List.cons_append, deliver_append, Option.map_none']

/-- A key, with an enclosing array below an open container. -/
theorem keyStep_append (values : List UniValue) (f : Frame) (rest : List Frame)
    (tok : Token) :
    keyStep ((f :: rest) ++ [.arr values]) tok =
      (keyStep (f :: rest) tok).map (liftArr values) := by
  cases f <;> cases tok <;> rfl

/-- One token of the reader inside an enclosing array is the same token
outside of it. -/
theorem readStep_liftArr (values : List UniValue) (st : ReadState) (tok : Token)
    (hrun : ∀ v, st ≠ .done v) (hst : st.reachable) :
    readStep (liftArr values st) tok = (readStep st tok).map (liftArr values) := by
  cases st with
  | done v => exact absurd rfl (hrun v)
  | run e stack =>
    cases stack with
    | nil =>
      have he : e = .value := by
        rcases hst with h | h
        · exact absurd rfl h
        · exact h
      subst he
      exact valueStep_append values [] tok
    | cons f rest =>
      cases e with
      | value => exact valueStep_append values (f :: rest) tok
      | valueOrClose =>
        simp only [liftArr, readStep]
        split
        · exact closeArr_append values f rest
        · exact valueStep_append values (f :: rest) tok
      | key => exact keyStep_append values f rest tok
      | keyOrClose =>
        simp only [liftArr, readStep]
        split
        · exact closeObj_append values f rest
        · exact keyStep_append values f rest tok
      | colon =>
        simp only [liftArr, readStep]
        split <;> rfl
      | commaOrClose =>
        simp only [liftArr, readStep]
        split
        · cases f <;> rfl
        · split
          · exact closeArr_append values f rest
          · split
            · exact closeObj_append values f rest
            · rfl

/-- What `deliver` returns is reachable. -/
theorem deliver_reachable (v : UniValue) (stack : List Frame) (st : ReadState)
    (h : deliver v stack = some st) : st.reachable := by
  cases stack with
  | nil => cases h; trivial
  | cons f rest =>
    cases f <;> simp only [deliver, Option.some.injEq, reduceCtorEq] at h <;> subst h <;>
      exact Or.inl (List.cons_ne_nil _ _)

/-- One token of the reader leads to a reachable state. -/
theorem readStep_reachable (st st' : ReadState) (tok : Token)
    (h : readStep st tok = some st') : st'.reachable := by
  have hvalue : ∀ stack, valueStep stack tok = some st' → st'.reachable := by
    intro stack hv
    cases tok <;> simp only [valueStep, reduceCtorEq] at hv
    all_goals first
      | exact deliver_reachable _ _ _ hv
      | (cases hv; exact Or.inl (List.cons_ne_nil _ _))
  have hcloseArr : ∀ stack, closeArr stack = some st' → st'.reachable := by
    intro stack hv
    cases stack with
    | nil => cases hv
    | cons f rest =>
      cases f <;> simp only [closeArr, reduceCtorEq] at hv
      exact deliver_reachable _ _ _ hv
  have hcloseObj : ∀ stack, closeObj stack = some st' → st'.reachable := by
    intro stack hv
    cases stack with
    | nil => cases hv
    | cons f rest =>
      cases f <;> simp only [closeObj, reduceCtorEq] at hv
      exact deliver_reachable _ _ _ hv
  have hkey : ∀ stack, keyStep stack tok = some st' → st'.reachable := by
    intro stack hv
    cases stack with
    | nil => simp [keyStep] at hv
    | cons f rest =>
      cases f <;> cases tok <;> simp only [keyStep, reduceCtorEq] at hv
      cases hv
      exact Or.inl (List.cons_ne_nil _ _)
  cases st with
  | done v => cases h
  | run e stack =>
    cases e with
    | value => exact hvalue stack h
    | valueOrClose =>
      simp only [readStep] at h
      split at h
      · exact hcloseArr stack h
      · exact hvalue stack h
    | key => exact hkey stack h
    | keyOrClose =>
      simp only [readStep] at h
      split at h
      · exact hcloseObj stack h
      · exact hkey stack h
    | colon =>
      simp only [readStep] at h
      split at h
      · cases h; exact Or.inr rfl
      · cases h
    | commaOrClose =>
      simp only [readStep] at h
      split at h
      · split at h
        · cases h; exact Or.inl (List.cons_ne_nil _ _)
        · cases h; exact Or.inl (List.cons_ne_nil _ _)
        · cases h
      · split at h
        · exact hcloseArr stack h
        · split at h
          · exact hcloseObj stack h
          · cases h

/-- Nothing is read after the value is complete. -/
theorem readTokens_done_cons (v : UniValue) (tok : Token) (toks : List Token) :
    readTokens (.done v) (tok :: toks) = none := by
  simp [readTokens, readStep]

/-- Reading stops short when the tokens end inside a value. -/
theorem readTokens_run_nil (e : Expect) (stack : List Frame) :
    readTokens (.run e stack) [] = none := by
  simp [readTokens]

/-- One token read in a running state. -/
theorem readTokens_cons (st : ReadState) (tok : Token) (toks : List Token) :
    readTokens st (tok :: toks) =
      match readStep st tok with
      | none => none
      | some st' => readTokens st' toks := by
  cases st <;> rfl

/-- One token inside an enclosing array that holds an element already leads to
a state from which only an array of two or more elements can result. -/
theorem twoOrMore_of_liftArr (values : List UniValue) (st st' : ReadState) (tok : Token)
    (hlen : 1 ≤ values.length) (hrun : ∀ v, st ≠ .done v) (hst : st.reachable)
    (h : readStep (liftArr values st) tok = some st') : st'.twoOrMore := by
  rw [readStep_liftArr values st tok hrun hst] at h
  cases hs : readStep st tok with
  | none => rw [hs] at h; cases h
  | some st0 =>
    rw [hs] at h
    cases h
    have hr := readStep_reachable st st0 tok hs
    cases st0 with
    | run e stack => exact ⟨stack, values, rfl, Or.inr ⟨hlen, hr⟩⟩
    | done w =>
      refine ⟨[], values ++ [w], rfl, Or.inl ?_⟩
      rw [List.length_append, List.length_singleton]
      omega

/-- The states from which only an array of two or more elements can result are
closed under reading a token. -/
theorem twoOrMore_step (st st' : ReadState) (tok : Token) (hst : st.twoOrMore)
    (h : readStep st tok = some st') : st'.twoOrMore := by
  cases st with
  | done v => cases h
  | run e stack =>
    obtain ⟨upper, values, rfl, hcond⟩ := hst
    have hlen : 1 ≤ values.length := by
      rcases hcond with h2 | ⟨h1, -⟩
      · omega
      · exact h1
    by_cases hl : upper ≠ [] ∨ e = .value
    · exact twoOrMore_of_liftArr values (.run e upper) st' tok hlen
        (fun v hv => by cases hv) hl h
    · have hu : upper = [] := by
        by_contra hne
        exact hl (Or.inl hne)
      have he : e ≠ .value := fun hv => hl (Or.inr hv)
      have h2 : 2 ≤ values.length := by
        rcases hcond with h2 | ⟨-, h3⟩
        · exact h2
        · exact absurd h3 hl
      subst hu
      have hvalue : valueStep [.arr values] tok = some st' → st'.twoOrMore := fun hv =>
        twoOrMore_of_liftArr values (.run .value []) st' tok hlen
          (fun v hv => by cases hv) (Or.inr rfl) hv
      have hclose : closeArr [.arr values] = some st' → st'.twoOrMore := by
        intro hc
        cases hc
        exact ⟨values, rfl, h2⟩
      have hkey : keyStep [.arr values] tok = some st' → st'.twoOrMore := by
        intro hk
        cases tok <;> cases hk
      cases e with
      | value => exact absurd rfl he
      | valueOrClose =>
        simp only [List.nil_append, readStep] at h
        split at h
        · exact hclose h
        · exact hvalue h
      | key => exact hkey h
      | keyOrClose =>
        simp only [List.nil_append, readStep] at h
        split at h
        · cases h
        · exact hkey h
      | colon =>
        simp only [List.nil_append, readStep] at h
        split at h
        · cases h
          exact ⟨[], values, rfl, Or.inl h2⟩
        · cases h
      | commaOrClose =>
        simp only [List.nil_append, readStep] at h
        split at h
        · cases h
          exact ⟨[], values, rfl, Or.inl h2⟩
        · split at h
          · exact hclose h
          · split at h
            · cases h
            · cases h

/-- From such a state, the value read is an array of two or more elements. -/
theorem twoOrMore_final : ∀ (toks : List Token) (st : ReadState) (v : UniValue),
    st.twoOrMore → readTokens st toks = some v →
    ∃ values, v = .VARR values ∧ 2 ≤ values.length := by
  intro toks
  induction toks with
  | nil =>
    intro st v hst h
    cases st with
    | run e stack => rw [readTokens_run_nil] at h; cases h
    | done w =>
      simp only [readTokens, Option.some.injEq] at h
      subst h
      exact hst
  | cons tok toks ih =>
    intro st v hst h
    rw [readTokens_cons] at h
    cases hs : readStep st tok with
    | none => rw [hs] at h; cases h
    | some st' =>
      rw [hs] at h
      exact ih st' v (twoOrMore_step st st' tok hst hs) h

/-- Reading a text inside an enclosing array and the closing bracket gives the
one-element array of `v` exactly when reading the text alone gives `v`. -/
theorem readTokens_liftArr : ∀ (toks : List Token) (st : ReadState) (v : UniValue),
    st.reachable →
    (readTokens (liftArr [] st) (toks ++ [.arrClose]) = some (.VARR [v]) ↔
      readTokens st toks = some v) := by
  intro toks
  induction toks with
  | nil =>
    intro st v hst
    cases st with
    | done w =>
      simp [liftArr, readTokens, readStep, closeArr, deliver]
    | run e stack =>
      rw [readTokens_run_nil, List.nil_append, readTokens_cons,
        readStep_liftArr [] _ _ (fun v hv => by cases hv) hst]
      cases hs : readStep (.run e stack) .arrClose with
      | none => simp
      | some st0 =>
        cases st0 <;> simp [liftArr, readTokens]
  | cons tok toks ih =>
    intro st v hst
    cases st with
    | done w =>
      rw [readTokens_done_cons]
      simp only [reduceCtorEq, iff_false]
      intro h
      rw [List.cons_append, readTokens_cons] at h
      cases hs : readStep (liftArr [] (.done w)) tok with
      | none => rw [hs] at h; cases h
      | some st' =>
        rw [hs] at h
        simp only at h
        simp only [liftArr, List.nil_append, readStep] at hs
        split at hs
        · cases hs
          have htwo : (ReadState.run .value [.arr [w]]).twoOrMore :=
            ⟨[], [w], rfl, Or.inr ⟨Nat.le_refl 1, Or.inr rfl⟩⟩
          obtain ⟨values, hv, h2⟩ := twoOrMore_final _ _ _ htwo h
          cases hv
          simp at h2
        · split at hs
          · cases hs
            cases toks with
            | nil => rw [List.nil_append, readTokens_done_cons] at h; cases h
            | cons t ts => rw [List.cons_append, readTokens_done_cons] at h; cases h
          · split at hs
            · cases hs
            · cases hs
    | run e stack =>
      rw [List.cons_append, readTokens_cons, readTokens_cons,
        readStep_liftArr [] _ _ (fun v hv => by cases hv) hst]
      cases hs : readStep (.run e stack) tok with
      | none => simp
      | some st0 =>
        exact ih st0 v (readStep_reachable _ _ _ hs)

/-- The wrapped text reads as the one-element array of `v` exactly when the raw
text reads as `v`. -/
theorem read_wrapped_iff (raw : String) (v : UniValue) :
    UniValue.read ("[" ++ raw ++ "]") = some (.VARR [v]) ↔ UniValue.read raw = some v := by
  rw [UniValue.read, UniValue.read, lex_wrapped]
  cases hl : lex .start raw.data with
  | none => simp
  | some toks =>
    simp only [Option.map_some']
    rw [readTokens_cons]
    have hopen : readStep (.run .value []) .arrOpen = some (.run .valueOrClose [.arr []]) := rfl
    rw [hopen]
    simp only
    cases toks with
    | nil => simp [readTokens, readStep, closeArr, deliver]
    | cons tok toks =>
      by_cases ht : tok = .arrClose
      · subst ht
        rw [List.cons_append, readTokens_cons, readTokens_cons]
        have h1 : readStep (.run .valueOrClose [.arr []]) .arrClose =
            some (.done (.VARR [])) := rfl
        have h2 : readStep (.run .value []) .arrClose = none := rfl
        rw [h1, h2]
        simp only [reduceCtorEq, iff_false]
        cases toks with
        | nil => rw [List.nil_append, readTokens_done_cons]; simp
        | cons t ts => rw [List.cons_append, readTokens_done_cons]; simp
      · have hsame : readTokens (.run .valueOrClose [.arr []]) ((tok :: toks) ++ [.arrClose]) =
            readTokens (liftArr [] (.run .value [])) ((tok :: toks) ++ [.arrClose]) := by
          rw [List.cons_append, readTokens_cons, readTokens_cons]
          simp only [liftArr, List.nil_append, readStep, ht, if_false]
        rw [hsame]
        exact readTokens_liftArr (tok :: toks) (.run .value []) v (Or.inr rfl)

/-- The value parser with the wrapping step is the reader on the raw text. -/
theorem parse_eq_bare (raw : String) : ParseNonRFCJSONValue raw = parseBareValue raw := by
  unfold parseBareValue
  cases hr : UniValue.read raw with
  | some v => exact (parse_ok_iff raw v).2 ((read_wrapped_iff raw v).2 hr)
  | none =>
    rcases parse_ok_or_error raw with ⟨v, hv⟩ | he
    · have := (read_wrapped_iff raw v).1 ((parse_ok_iff raw v).1 hv)
      rw [hr] at this
      cases this
    · exact he

/-- C14. The array-wrapping step changes nothing in the accepted grammar:
`ParseNonRFCJSONValue(raw)` is the parser that reads `raw` itself with a
reader allowing a bare scalar at top level; it succeeds exactly when `raw`
reads as one JSON value, and returns the value read.  Texts that are not one
JSON value, as `1],[2`, `1,2` and the empty text, are rejected with or without
the brackets. -/
theorem C14_wrapping_changes_nothing :
    (∀ raw : String, ParseNonRFCJSONValue raw = parseBareValue raw) ∧
    (∀ (raw : String) (v : UniValue),
      ParseNonRFCJSONValue raw = .ok v ↔ UniValue.read raw = some v) ∧
    (∀ raw : String,
      ParseNonRFCJSONValue raw = .error ("Error parsing JSON:" ++ raw) ↔
        UniValue.read raw = none) ∧
    (UniValue.read "1],[2" = none ∧
      ParseNonRFCJSONValue "1],[2" = .error "Error parsing JSON:1],[2") ∧
    (UniValue.read "1,2" = none ∧
      ParseNonRFCJSONValue "1,2" = .error "Error parsing JSON:1,2") ∧
    (UniValue.read "" = none ∧ ParseNonRFCJSONValue "" = .error "Error parsing JSON:") ∧
    (UniValue.read " 1 " = some (.VNUM "1") ∧
      ParseNonRFCJSONValue " 1 " = .ok (.VNUM "1")) := by
  refine ⟨parse_eq_bare, ?_, ?_, ⟨rfl, rfl⟩, ⟨rfl, rfl⟩, ⟨rfl, rfl⟩, ⟨rfl, rfl⟩⟩
  · intro raw v
    rw [parse_ok_iff, read_wrapped_iff]
  · intro raw
    rw [parse_eq_bare, parseBareValue]
    cases UniValue.read raw with
    | none => simp
    | some v => simp

/-! ## Values read hold number literals -/

/-- Valid elements with one more valid element. -/
theorem validElems_append (values : List UniValue) (v : UniValue) :
    validElems (values ++ [v]) = (validElems values && v.valid) := by
  induction values with
  | nil => simp [validElems]
  | cons w rest ih => simp [validElems, ih, Bool.and_assoc]

/-- Valid entries with one more valid entry. -/
theorem validEntries_append (entries : List (String × UniValue)) (k : String)
    (v : UniValue) :
    validEntries (entries ++ [(k, v)]) = (validEntries entries && v.valid) := by
  induction entries with
  | nil => simp [validEntries]
  | cons e rest ih =>
    obtain ⟨k', w⟩ := e
    simp [validEntries, ih, Bool.and_assoc]

/-- The token of an unquoted run is valid. -/
theorem atomToken_valid (acc : List Char) (t : Token) (h : atomToken acc = some t) :
    t.valid = true := by
  unfold atomToken at h
  split at h
  · cases h; rfl
  · split at h
    · cases h; rfl
    · split at h
      · cases h; rfl
      · split at h
        · rename_i hn
          cases h
          exact hn
        · cases h

/-- What a delimiter completes is valid. -/
theorem delimStep_valid (c : Char) (st : LexState) (toks : List Token)
    (h : delimStep c = some (st, toks)) : ∀ t ∈ toks, t.valid = true := by
  unfold delimStep at h
  repeat' split at h
  all_goals first
    | (cases h; done)
    | (cases h; intro t ht; cases ht; done)
    | (cases h; intro t ht; rw [List.mem_singleton] at ht; subst ht; rfl)

/-- The tokens one character completes are valid. -/
theorem lexStep_valid (st st' : LexState) (c : Char) (toks : List Token)
    (h : lexStep st c = some (st', toks)) : ∀ t ∈ toks, t.valid = true := by
  cases st with
  | start =>
    simp only [lexStep] at h
    cases hd : delimStep c with
    | none => rw [hd] at h; cases h; intro t ht; cases ht
    | some r =>
      rw [hd] at h
      cases h
      exact delimStep_valid c _ _ hd
  | atom acc =>
    simp only [lexStep] at h
    cases hd : delimStep c with
    | none => rw [hd] at h; cases h; intro t ht; cases ht
    | some r =>
      obtain ⟨st0, toks0⟩ := r
      rw [hd] at h
      cases hat : atomToken acc with
      | none => rw [hat] at h; cases h
      | some t0 =>
        rw [hat] at h
        cases h
        intro t ht
        rcases List.mem_cons.1 ht with rfl | ht'
        · exact atomToken_valid acc _ hat
        · exact delimStep_valid c _ _ hd t ht'
  | str acc =>
    simp only [lexStep] at h
    repeat' split at h
    all_goals first
      | (cases h; done)
      | (cases h; intro t ht; cases ht; done)
      | (cases h; intro t ht; rw [List.mem_singleton] at ht; subst ht; rfl)
  | esc acc =>
    simp only [lexStep] at h
    repeat' split at h
    all_goals first
      | (cases h; done)
      | (cases h; intro t ht; cases ht)
  | hex acc hi n v =>
    simp only [lexStep] at h
    cases hh : hexDigit c with
    | none => rw [hh] at h; cases h
    | some d =>
      rw [hh] at h
      simp only at h
      split at h
      · cases h; intro t ht; cases ht
      · cases hd : hexDone acc hi (v * 16 + d) with
        | none => rw [hd] at h; cases h
        | some s => rw [hd] at h; cases h; intro t ht; cases ht
  | pairBackslash acc hi =>
    simp only [lexStep] at h
    split at h
    · cases h; intro t ht; cases ht
    · cases h
  | pairU acc hi =>
    simp only [lexStep] at h
    split at h
    · cases h; intro t ht; cases ht
    · cases h

/-- The tokens of a text are valid. -/
theorem lex_valid : ∀ (cs : List Char) (st : LexState) (toks : List Token),
    lex st cs = some toks → ∀ t ∈ toks, t.valid = true := by
  intro cs
  induction cs with
  | nil =>
    intro st toks h
    cases st <;> simp only [lex, lexFinish, reduceCtorEq] at h
    · cases h; intro t ht; cases ht
    · rename_i acc
      cases hat : atomToken acc with
      | none => rw [hat] at h; cases h
      | some t0 =>
        rw [hat] at h
        cases h
        intro t ht
        rw [List.mem_singleton] at ht
        subst ht
        exact atomToken_valid acc _ hat
  | cons c cs ih =>
    intro st toks h
    rw [lex] at h
    cases hs : lexStep st c with
    | none => rw [hs] at h; cases h
    | some r =>
      obtain ⟨st', toks0⟩ := r
      rw [hs] at h
      simp only at h
      cases hl : lex st' cs with
      | none => rw [hl] at h; cases h
      | some rest =>
        rw [hl] at h
        cases h
        intro t ht
        rcases List.mem_append.1 ht with h1 | h2
        · exact lexStep_valid st st' c toks0 hs t h1
        · exact ih st' rest hl t h2

/-- Delivering a valid value into valid containers gives a valid state. -/
theorem deliver_valid (v : UniValue) (stack : List Frame) (st : ReadState)
    (hv : v.valid = true) (hs : stack.all Frame.valid = true)
    (h : deliver v stack = some st) : st.valid = true := by
  cases stack with
  | nil => cases h; exact hv
  | cons f rest =>
    simp only [List.all_cons, Bool.and_eq_true] at hs
    cases f with
    | arr values =>
      cases h
      simp only [ReadState.valid, List.all_cons, Frame.valid, validElems_append,
        Bool.and_eq_true]
      exact ⟨⟨hs.1, hv⟩, hs.2⟩
    | obj entries => cases h
    | objKey entries key =>
      cases h
      simp only [ReadState.valid, List.all_cons, Frame.valid, validEntries_append,
        Bool.and_eq_true]
      exact ⟨⟨hs.1, hv⟩, hs.2⟩

/-- One token of the reader keeps the state valid. -/
theorem readStep_valid (st st' : ReadState) (tok : Token) (hst : st.valid = true)
    (htok : tok.valid = true) (h : readStep st tok = some st') : st'.valid = true := by
  cases st with
  | done v => cases h
  | run e stack =>
    have hs : stack.all Frame.valid = true := hst
    have hvalue : valueStep stack tok = some st' → st'.valid = true := by
      intro hv
      cases tok <;> simp only [valueStep, reduceCtorEq] at hv
      · cases hv
        simp only [ReadState.valid, List.all_cons, Frame.valid, validEntries, Bool.true_and]
        exact hs
      · cases hv
        simp only [ReadState.valid, List.all_cons, Frame.valid, validElems, Bool.true_and]
        exact hs
      · exact deliver_valid .VNULL _ _ rfl hs hv
      · exact deliver_valid (.VBOOL true) _ _ rfl hs hv
      · exact deliver_valid (.VBOOL false) _ _ rfl hs hv
      · exact deliver_valid (.VNUM _) _ _ htok hs hv
      · exact deliver_valid (.VSTR _) _ _ rfl hs hv
    have hcloseArr : closeArr stack = some st' → st'.valid = true := by
      intro hv
      cases stack with
      | nil => cases hv
      | cons f rest =>
        simp only [List.all_cons, Bool.and_eq_true] at hs
        cases f <;> simp only [closeArr, reduceCtorEq] at hv
        rename_i values
        exact deliver_valid (.VARR values) _ _ hs.1 hs.2 hv
    have hcloseObj : closeObj stack = some st' → st'.valid = true := by
      intro hv
      cases stack with
      | nil => cases hv
      | cons f rest =>
        simp only [List.all_cons, Bool.and_eq_true] at hs
        cases f <;> simp only [closeObj, reduceCtorEq] at hv
        rename_i entries
        exact deliver_valid (.VOBJ entries) _ _ hs.1 hs.2 hv
    have hkey : keyStep stack tok = some st' → st'.valid = true := by
      intro hv
      cases stack with
      | nil => simp [keyStep] at hv
      | cons f rest =>
        cases f <;> cases tok <;> simp only [keyStep, reduceCtorEq] at hv
        cases hv
        exact hs
    cases e with
    | value => exact hvalue h
    | valueOrClose =>
      simp only [readStep] at h
      split at h
      · exact hcloseArr h
      · exact hvalue h
    | key => exact hkey h
    | keyOrClose =>
      simp only [readStep] at h
      split at h
      · exact hcloseObj h
      · exact hkey h
    | colon =>
      simp only [readStep] at h
      split at h
      · cases h; exact hs
      · cases h
    | commaOrClose =>
      simp only [readStep] at h
      split at h
      · split at h
        · cases h; exact hs
        · cases h; exact hs
        · cases h
      · split at h
        · exact hcloseArr h
        · split at h
          · exact hcloseObj h
          · cases h

/-- The value read from valid tokens is valid. -/
theorem readTokens_valid : ∀ (toks : List Token) (st : ReadState) (v : UniValue),
    st.valid = true → (∀ t ∈ toks, t.valid = true) → readTokens st toks = some v →
    v.valid = true := by
  intro toks
  induction toks with
  | nil =>
    intro st v hst _ h
    cases st with
    | run e stack => rw [readTokens_run_nil] at h; cases h
    | done w =>
      simp only [readTokens, Option.some.injEq] at h
      subst h
      exact hst
  | cons tok toks ih =>
    intro st v hst htoks h
    rw [readTokens_cons] at h
    cases hs : readStep st tok with
    | none => rw [hs] at h; cases h
    | some st' =>
      rw [hs] at h
      exact ih st' v
        (readStep_valid st st' tok hst (htoks tok (List.mem_cons_self _ _)) hs)
        (fun t ht => htoks t (List.mem_cons_of_mem _ ht)) h

/-- The value read from a text is valid: its numbers hold number literals. -/
theorem read_valid (raw : String) (v : UniValue) (h : UniValue.read raw = some v) :
    v.valid = true := by
  unfold UniValue.read at h
  cases hl : lex .start raw.data with
  | none => rw [hl] at h; cases h
  | some toks =>
    rw [hl] at h
    exact readTokens_valid toks (.run .value []) v rfl (lex_valid _ _ _ hl) h

/-! ## Tokens of the compact text -/

/-- Induction on values: a property of all scalars, that holds of an array with
its elements and of an object with the values of its entries, holds of every
value. -/
theorem UniValue.induct {P : UniValue → Prop} (hnull : P .VNULL)
    (hbool : ∀ b, P (.VBOOL b)) (hnum : ∀ s, P (.VNUM s)) (hstr : ∀ s, P (.VSTR s))
    (harr : ∀ vs : List UniValue, (∀ v ∈ vs, P v) → P (.VARR vs))
    (hobj : ∀ es : List (String × UniValue), (∀ e ∈ es, P e.2) → P (.VOBJ es)) :
    ∀ v, P v := by
  intro v
  exact @UniValue.rec P (fun vs => ∀ v ∈ vs, P v) (fun es => ∀ e ∈ es, P e.2)
    (fun e => P e.2) hnull hbool hnum hstr (fun vs ih => harr vs ih)
    (fun es ih => hobj es ih)
    (fun _ h => absurd h (List.not_mem_nil _))
    (fun head tail hh ht v hv => by
      rcases List.mem_cons.1 hv with rfl | h
      · exact hh
      · exact ht v h)
    (fun _ h => absurd h (List.not_mem_nil _))
    (fun head tail hh ht e he => by
      rcases List.mem_cons.1 he with rfl | h
      · exact hh
      · exact ht e h)
    (fun k v hv => hv) v

/-- An unquoted run that is a token ends before a text at which a value ends. -/
theorem lex_atom_flush (acc rest : List Char) (t : Token) (hat : atomToken acc = some t)
    (hend : valueEnd rest = true) :
    lex (.atom acc) rest = (lex .start rest).map (fun toks => t :: toks) := by
  cases rest with
  | nil => simp [lex, lexFinish, hat]
  | cons c cs =>
    simp only [valueEnd, Option.isSome_iff_exists] at hend
    obtain ⟨r, hr⟩ := hend
    obtain ⟨st', toks⟩ := r
    simp only [lex, lexStep, hr, hat, Option.map_some', Option.map_map]
    rfl

/-- An unquoted run goes on over characters that are no delimiters. -/
theorem lex_atom_run : ∀ (cs acc rest : List Char), (∀ c ∈ cs, delimStep c = none) →
    lex (.atom acc) (cs ++ rest) = lex (.atom (acc ++ cs)) rest := by
  intro cs
  induction cs with
  | nil => intro acc rest _; simp
  | cons c cs ih =>
    intro acc rest h
    have hc := h c (List.mem_cons_self c cs)
    have hrest := fun d hd => h d (List.mem_cons_of_mem c hd)
    rw [List.cons_append, lex]
    simp only [lexStep, hc, List.nil_append, Option.map_id']
    rw [ih (acc ++ [c]) rest hrest, List.append_assoc]
    rfl

/-- A text of characters that are no delimiters, and that is a token, is read
as that token before a text at which a value ends. -/
theorem lex_atom_text (c : Char) (cs rest : List Char) (t : Token)
    (hnd : ∀ d ∈ c :: cs, delimStep d = none) (hat : atomToken (c :: cs) = some t)
    (hend : valueEnd rest = true) :
    lex .start ((c :: cs) ++ rest) = (lex .start rest).map (fun toks => t :: toks) := by
  have hc := hnd c (List.mem_cons_self c cs)
  have hrest := fun d hd => hnd d (List.mem_cons_of_mem c hd)
  rw [List.cons_append, lex]
  simp only [lexStep, hc, List.nil_append, Option.map_id']
  rw [lex_atom_run cs [c] rest hrest]
  exact lex_atom_flush _ rest t hat hend

/-- A character of a number literal is a digit, a sign, a dot or an exponent
mark. -/
theorem numStep_char (st st' : NumState) (c : Char) (h : numStep st c = some st') :
    c.isDigit = true ∨ c = '-' ∨ c = '+' ∨ c = '.' ∨ c = 'e' ∨ c = 'E' := by
  cases st <;> simp only [numStep] at h <;> repeat' split at h
  all_goals first
    | (cases h; done)
    | (rename_i hc; simp only [Bool.or_eq_true, decide_eq_true_eq] at hc; tauto)
    | (rename_i hc; subst hc; decide)
    | (rename_i hc; exact Or.inl hc)

/-- A character of a number literal is no delimiter. -/
theorem delimStep_numChar (c : Char)
    (h : c.isDigit = true ∨ c = '-' ∨ c = '+' ∨ c = '.' ∨ c = 'e' ∨ c = 'E') :
    delimStep c = none := by
  have n1 : c ≠ ' ' := by rintro rfl; exact absurd h (by decide)
  have n2 : c ≠ '\t' := by rintro rfl; exact absurd h (by decide)
  have n3 : c ≠ '\n' := by rintro rfl; exact absurd h (by decide)
  have n4 : c ≠ '\r' := by rintro rfl; exact absurd h (by decide)
  have n5 : c ≠ '{' := by rintro rfl; exact absurd h (by decide)
  have n6 : c ≠ '}' := by rintro rfl; exact absurd h (by decide)
  have n7 : c ≠ '[' := by rintro rfl; exact absurd h (by decide)
  have n8 : c ≠ ']' := by rintro rfl; exact absurd h (by decide)
  have n9 : c ≠ ':' := by rintro rfl; exact absurd h (by decide)
  have n10 : c ≠ ',' := by rintro rfl; exact absurd h (by decide)
  have n11 : c ≠ '"' := by rintro rfl; exact absurd h (by decide)
  simp [delimStep, isJsonSpace, n1, n2, n3, n4, n5, n6, n7, n8, n9, n10, n11]

/-- The characters of a number literal are no delimiters. -/
theorem numRun_nondelim : ∀ (cs : List Char) (st : NumState), numRun st cs = true →
    ∀ c ∈ cs, delimStep c = none := by
  intro cs
  induction cs with
  | nil => intro st _ c hc; cases hc
  | cons d ds ih =>
    intro st h c hc
    rw [numRun] at h
    cases hs : numStep st d with
    | none => rw [hs] at h; cases h
    | some st' =>
      rw [hs] at h
      rcases List.mem_cons.1 hc with rfl | hc'
      · exact delimStep_numChar _ (numStep_char st st' _ hs)
      · exact ih st' h c hc'

/-- The token of a number literal is the number holding its text. -/
theorem atomToken_number (cs : List Char) (h : isJsonNumber cs = true) :
    atomToken cs = some (.number (String.mk cs)) := by
  have g1 : cs ≠ ['n', 'u', 'l', 'l'] := by rintro rfl; exact absurd h (by decide)
  have g2 : cs ≠ ['t', 'r', 'u', 'e'] := by rintro rfl; exact absurd h (by decide)
  have g3 : cs ≠ ['f', 'a', 'l', 's', 'e'] := by rintro rfl; exact absurd h (by decide)
  simp only [atomToken, g1, g2, g3, if_false, h, if_true]

/-- A number literal is read as the number holding its text, before a text at
which a value ends. -/
theorem lex_number (val : String) (rest : List Char) (h : isJsonNumber val.data = true)
    (hend : valueEnd rest = true) :
    lex .start (val.data ++ rest) =
      (lex .start rest).map (fun toks => Token.number val :: toks) := by
  have hnd := numRun_nondelim val.data .begin h
  obtain ⟨cs⟩ := val
  cases cs with
  | nil => exact absurd h (by decide)
  | cons c cs => exact lex_atom_text c cs rest _ hnd (atomToken_number _ h) hend

/-- A character that completes no token. -/
theorem lex_cons_silent (st st' : LexState) (c : Char) (cs : List Char)
    (h : lexStep st c = some (st', [])) : lex st (c :: cs) = lex st' cs := by
  rw [lex, h]
  simp

/-- The value of a hexadecimal digit written by `hexChar`. -/
theorem hexDigit_hexChar (d : Nat) (h : d < 16) : hexDigit (hexChar d) = some d := by
  interval_cases d <;> decide

/-- The text of one character of a string is read back as that character. -/
theorem lex_str_char (c : Char) (acc more : List Char) :
    lex (.str acc) (escapeChar c ++ more) = lex (.str (acc ++ [c])) more := by
  unfold escapeChar
  split
  · rename_i hc
    subst hc
    rw [List.cons_append, List.cons_append, List.nil_append,
      lex_cons_silent (.str acc) (.esc acc) '\\' _ (by simp [lexStep]),
      lex_cons_silent (.esc acc) (.str (acc ++ ['"'])) '"' _ (by simp [lexStep])]
  · split
    · rename_i hc
      subst hc
      rw [List.cons_append, List.cons_append, List.nil_append,
        lex_cons_silent (.str acc) (.esc acc) '\\' _ (by simp [lexStep]),
        lex_cons_silent (.esc acc) (.str (acc ++ ['\\'])) '\\' _ (by simp [lexStep])]
    · split
      · rename_i h1 h2 hlt
        have hhi : c.toNat / 16 < 16 := by omega
        have hlo : c.toNat % 16 < 16 := by omega
        have hz : hexDigit '0' = some 0 := by decide
        have hval : (0 * 16 + c.toNat / 16) * 16 + c.toNat % 16 = c.toNat := by omega
        have hdone : hexDone acc none c.toNat = some (.str (acc ++ [c])) := by
          have a1 : ¬ (0xD800 ≤ c.toNat ∧ c.toNat < 0xDC00) := by omega
          have a2 : ¬ (0xDC00 ≤ c.toNat ∧ c.toNat < 0xE000) := by omega
          simp only [hexDone, a1, a2, if_false, Char.ofNat_toNat]
        simp only [List.cons_append, List.nil_append]
        rw [lex_cons_silent (.str acc) (.esc acc) '\\' _ (by simp [lexStep]),
          lex_cons_silent (.esc acc) (.hex acc none 0 0) 'u' _ (by simp [lexStep]),
          lex_cons_silent (.hex acc none 0 0) (.hex acc none 1 0) '0' _
            (by simp [lexStep, hz]),
          lex_cons_silent (.hex acc none 1 0) (.hex acc none 2 0) '0' _
            (by simp [lexStep, hz]),
          lex_cons_silent (.hex acc none 2 0) (.hex acc none 3 (0 * 16 + c.toNat / 16)) _ _
            (by simp [lexStep, hexDigit_hexChar _ hhi]),
          lex_cons_silent (.hex acc none 3 (0 * 16 + c.toNat / 16)) (.str (acc ++ [c])) _ _
            (by simp only [lexStep, hexDigit_hexChar _ hlo, Nat.lt_irrefl, if_false, hval,
              hdone, Option.map_some'])]
      · rename_i h1 h2 h3
        rw [List.cons_append, List.nil_append,
          lex_cons_silent (.str acc) (.str (acc ++ [c])) c _ (by simp [lexStep, h1, h2, h3])]

/-- The body of a string literal and its closing quote are read as the string
token. -/
theorem lex_str_body : ∀ (cs acc rest : List Char),
    lex (.str acc) (cs.flatMap escapeChar ++ '"' :: rest) =
      (lex .start rest).map (fun toks => Token.string (String.mk (acc ++ cs)) :: toks) := by
  intro cs
  induction cs with
  | nil =>
    intro acc rest
    simp [lex, lexStep]
  | cons c cs ih =>
    intro acc rest
    rw [List.flatMap_cons, List.append_assoc, lex_str_char, ih, List.append_assoc]
    rfl

/-- The compact text of a string is read as the string token. -/
theorem lex_writeString (s : String) (rest : List Char) :
    lex .start (writeString s ++ rest) =
      (lex .start rest).map (fun toks => Token.string s :: toks) := by
  have hq : lexStep .start '"' = some (.str [], []) := by decide
  rw [writeString, List.cons_append, lex_cons_silent _ _ _ _ hq, List.append_assoc]
  exact lex_str_body s.data [] rest

/-- A structural character is read as its token. -/
theorem lex_delim (c : Char) (tok : Token) (cs : List Char)
    (h : delimStep c = some (.start, [tok])) :
    lex .start (c :: cs) = (lex .start cs).map (fun toks => tok :: toks) := by
  rw [lex]
  simp only [lexStep, h]
  rfl

/-- The compact text of valid elements is read as their tokens. -/
theorem lex_writeElems : ∀ (vs : List UniValue),
    (∀ v ∈ vs, v.valid = true → ∀ rest, valueEnd rest = true →
      lex .start (writeValue v ++ rest) =
        (lex .start rest).map (fun toks => tokValue v ++ toks)) →
    validElems vs = true → ∀ rest, valueEnd rest = true →
    lex .start (writeElems vs ++ rest) =
      (lex .start rest).map (fun toks => tokElems vs ++ toks) := by
  intro vs
  induction vs with
  | nil =>
    intro _ _ rest _
    simp [writeElems, tokElems]
  | cons v tail ih =>
    intro hP hvalid rest hend
    simp only [validElems, Bool.and_eq_true] at hvalid
    have hv := hP v (List.mem_cons_self v tail) hvalid.1
    cases tail with
    | nil =>
      simp only [writeElems, tokElems]
      exact hv rest hend
    | cons w r =>
      have hih := ih (fun u hu => hP u (List.mem_cons_of_mem v hu)) hvalid.2 rest hend
      simp only [writeElems, tokElems, List.append_assoc, List.cons_append]
      rw [hv (',' :: (writeElems (w :: r) ++ rest)) rfl,
        lex_delim ',' .comma _ (by decide), hih]
      simp only [Option.map_map]
      rfl

/-- The compact text of valid entries is read as their tokens. -/
theorem lex_writeEntries : ∀ (es : List (String × UniValue)),
    (∀ e ∈ es, e.2.valid = true → ∀ rest, valueEnd rest = true →
      lex .start (writeValue e.2 ++ rest) =
        (lex .start rest).map (fun toks => tokValue e.2 ++ toks)) →
    validEntries es = true → ∀ rest, valueEnd rest = true →
    lex .start (writeEntries es ++ rest) =
      (lex .start rest).map (fun toks => tokEntries es ++ toks) := by
  intro es
  induction es with
  | nil =>
    intro _ _ rest _
    simp [writeEntries, tokEntries]
  | cons e tail ih =>
    intro hP hvalid rest hend
    obtain ⟨k, v⟩ := e
    simp only [validEntries, Bool.and_eq_true] at hvalid
    have hv := hP (k, v) (List.mem_cons_self _ tail) hvalid.1
    cases tail with
    | nil =>
      simp only [writeEntries, tokEntries, List.append_assoc, List.cons_append]
      rw [lex_writeString, lex_delim ':' .colon _ (by decide), hv rest hend]
      simp only [Option.map_map]
      rfl
    | cons w r =>
      have hih := ih (fun u hu => hP u (List.mem_cons_of_mem _ hu)) hvalid.2 rest hend
      simp only [writeEntries, tokEntries, List.append_assoc, List.cons_append]
      rw [lex_writeString, lex_delim ':' .colon _ (by decide),
        hv (',' :: (writeEntries (w :: r) ++ rest)) rfl,
        lex_delim ',' .comma _ (by decide), hih]
      simp only [Option.map_map]
      rfl

/-- The compact text of a valid value is read as its tokens, before a text at
which a value ends. -/
theorem lex_writeValue : ∀ (v : UniValue), v.valid = true →
    ∀ rest, valueEnd rest = true →
    lex .start (writeValue v ++ rest) =
      (lex .start rest).map (fun toks => tokValue v ++ toks) := by
  intro v
  induction v using UniValue.induct with
  | hnull =>
    intro _ rest hend
    exact lex_atom_text 'n' ['u', 'l', 'l'] rest .kwNull (by decide) (by decide) hend
  | hbool b =>
    intro _ rest hend
    cases b with
    | true =>
      exact lex_atom_text 't' ['r', 'u', 'e'] rest .kwTrue (by decide) (by decide) hend
    | false =>
      exact lex_atom_text 'f' ['a', 'l', 's', 'e'] rest .kwFalse (by decide) (by decide) hend
  | hnum val =>
    intro hvalid rest hend
    exact lex_number val rest hvalid hend
  | hstr val =>
    intro _ rest _
    exact lex_writeString val rest
  | harr vs ih =>
    intro hvalid rest _
    simp only [UniValue.valid] at hvalid
    simp only [writeValue, tokValue, List.cons_append, List.append_assoc, List.nil_append]
    rw [lex_delim '[' .arrOpen _ (by decide), lex_writeElems vs ih hvalid (']' :: rest) rfl,
      lex_delim ']' .arrClose _ (by decide)]
    simp only [Option.map_map]
    rfl
  | hobj es ih =>
    intro hvalid rest _
    simp only [UniValue.valid] at hvalid
    simp only [writeValue, tokValue, List.cons_append, List.append_assoc, List.nil_append]
    rw [lex_delim '{' .objOpen _ (by decide), lex_writeEntries es ih hvalid ('}' :: rest) rfl,
      lex_delim '}' .objClose _ (by decide)]
    simp only [Option.map_map]
    rfl

/-! ## Reading the tokens of a value -/

/-- The tokens of elements, read inside their array up to the closing bracket,
complete the array. -/
theorem readTokens_tokElems : ∀ (vs : List UniValue),
    (∀ v ∈ vs, ∀ (e : Expect) (stack : List Frame) (rest : List Token),
      e = .value ∨ e = .valueOrClose →
      readTokens (.run e stack) (tokValue v ++ rest) =
        match deliver v stack with
        | none => none
        | some st' => readTokens st' rest) →
    vs ≠ [] →
    ∀ (acc : List UniValue) (e : Expect) (stack : List Frame) (rest : List Token),
      e = .value ∨ e = .valueOrClose →
      readTokens (.run e (.arr acc :: stack)) (tokElems vs ++ .arrClose :: rest) =
        match deliver (.VARR (acc ++ vs)) stack with
        | none => none
        | some st' => readTokens st' rest := by
  intro vs
  induction vs with
  | nil => intro _ h; exact absurd rfl h
  | cons v tail ih =>
    intro hR _ acc e stack rest he
    have hv := hR v (List.mem_cons_self v tail) e (.arr acc :: stack)
    cases tail with
    | nil =>
      simp only [tokElems]
      rw [hv _ he]
      simp only [deliver]
      rw [readTokens_cons]
      rfl
    | cons w r =>
      have hih := ih (fun u hu => hR u (List.mem_cons_of_mem v hu)) (List.cons_ne_nil w r)
        (acc ++ [v]) .value stack rest (Or.inl rfl)
      simp only [tokElems, List.append_assoc, List.cons_append]
      rw [hv _ he]
      simp only [deliver]
      rw [readTokens_cons]
      simp only [readStep, if_true]
      rw [hih, List.append_assoc]
      rfl

/-- The tokens of entries, read inside their object up to the closing brace,
complete the object. -/
theorem readTokens_tokEntries : ∀ (es : List (String × UniValue)),
    (∀ en ∈ es, ∀ (e : Expect) (stack : List Frame) (rest : List Token),
      e = .value ∨ e = .valueOrClose →
      readTokens (.run e stack) (tokValue en.2 ++ rest) =
        match deliver en.2 stack with
        | none => none
        | some st' => readTokens st' rest) →
    es ≠ [] →
    ∀ (acc : List (String × UniValue)) (e : Expect) (stack : List Frame)
      (rest : List Token),
      e = .key ∨ e = .keyOrClose →
      readTokens (.run e (.obj acc :: stack)) (tokEntries es ++ .objClose :: rest) =
        match deliver (.VOBJ (acc ++ es)) stack with
        | none => none
        | some st' => readTokens st' rest := by
  intro es
  induction es with
  | nil => intro _ h; exact absurd rfl h
  | cons en tail ih =>
    intro hR _ acc e stack rest he
    obtain ⟨k, v⟩ := en
    have hv := hR (k, v) (List.mem_cons_self _ tail) .value (.objKey acc k :: stack)
    have hkey : ∀ toks, readTokens (.run e (.obj acc :: stack)) (.string k :: .colon :: toks) =
        readTokens (.run .value (.objKey acc k :: stack)) toks := by
      intro toks
      rw [readTokens_cons]
      rcases he with rfl | rfl
      · simp only [readStep, keyStep]
        rw [readTokens_cons]
        simp only [readStep, if_true]
      · simp only [readStep, reduceCtorEq, if_false, keyStep]
        rw [readTokens_cons]
        simp only [readStep, if_true]
    cases tail with
    | nil =>
      simp only [tokEntries, List.append_assoc, List.cons_append]
      rw [hkey, hv _ (Or.inl rfl)]
      simp only [deliver]
      rw [readTokens_cons]
      rfl
    | cons w r =>
      have hih := ih (fun u hu => hR u (List.mem_cons_of_mem _ hu)) (List.cons_ne_nil w r)
        (acc ++ [(k, v)]) .key stack rest (Or.inl rfl)
      simp only [tokEntries, List.append_assoc, List.cons_append]
      rw [hkey, hv _ (Or.inl rfl)]
      simp only [deliver]
      rw [readTokens_cons]
      simp only [readStep, if_true]
      rw [hih, List.append_assoc]
      rfl

/-- The tokens of a value, read where a value is accepted, deliver the value. -/
theorem readTokens_tokValue : ∀ (v : UniValue) (e : Expect) (stack : List Frame)
    (rest : List Token), e = .value ∨ e = .valueOrClose →
    readTokens (.run e stack) (tokValue v ++ rest) =
      match deliver v stack with
      | none => none
      | some st' => readTokens st' rest := by
  intro v
  induction v using UniValue.induct with
  | hnull =>
    intro e stack rest he
    rcases he with rfl | rfl <;> rfl
  | hbool b =>
    intro e stack rest he
    cases b <;> rcases he with rfl | rfl <;> rfl
  | hnum val =>
    intro e stack rest he
    rcases he with rfl | rfl <;> rfl
  | hstr val =>
    intro e stack rest he
    rcases he with rfl | rfl <;> rfl
  | harr vs ih =>
    intro e stack rest he
    have hopen : ∀ toks, readTokens (.run e stack) (.arrOpen :: toks) =
        readTokens (.run .valueOrClose (.arr [] :: stack)) toks := by
      intro toks
      rcases he with rfl | rfl <;> rfl
    simp only [tokValue, List.cons_append, List.append_assoc, List.nil_append]
    rw [hopen]
    cases vs with
    | nil => rfl
    | cons w r =>
      exact readTokens_tokElems (w :: r) ih (List.cons_ne_nil w r) [] .valueOrClose stack rest
        (Or.inr rfl)
  | hobj es ih =>
    intro e stack rest he
    have hopen : ∀ toks, readTokens (.run e stack) (.objOpen :: toks) =
        readTokens (.run .keyOrClose (.obj [] :: stack)) toks := by
      intro toks
      rcases he with rfl | rfl <;> rfl
    simp only [tokValue, List.cons_append, List.append_assoc, List.nil_append]
    rw [hopen]
    cases es with
    | nil => rfl
    | cons w r =>
      exact readTokens_tokEntries (w :: r) ih (List.cons_ne_nil w r) [] .keyOrClose stack rest
        (Or.inr rfl)

/-- The compact text of a valid value reads as the value. -/
theorem read_write (v : UniValue) (h : v.valid = true) : UniValue.read v.write = some v := by
  have hl := lex_writeValue v h [] rfl
  simp only [List.append_nil, lex, lexFinish, Option.map_some'] at hl
  rw [UniValue.read, UniValue.write, hl]
  simp only
  have hr := readTokens_tokValue v .value [] [] (Or.inl rfl)
  rw [List.append_nil] at hr
  rw [hr]
  rfl

/-- C15. Round trip of the value parser: when `ParseNonRFCJSONValue` succeeds
on a text with value `v`, it succeeds on the compact JSON text of `v` and
yields `v` again. -/
theorem C15_round_trip (raw : String) (v : UniValue)
    (h : ParseNonRFCJSONValue raw = .ok v) :
    ParseNonRFCJSONValue v.write = .ok v := by
  have hread : UniValue.read raw = some v :=
    (read_wrapped_iff raw v).1 ((parse_ok_iff raw v).1 h)
  have hvalid := read_valid raw v hread
  exact (parse_ok_iff _ v).2 ((read_wrapped_iff _ v).2 (read_write v hvalid))

/-- C15 at a text with whitespace, an escape and a nested object: the value
parsed, its compact text, and the value parsed from that text. -/
theorem C15_round_trip_witness :
    ParseNonRFCJSONValue " [1, \"a\\n\", \x7b\"k\": null\x7d] " =
      .ok (.VARR [.VNUM "1", .VSTR "a\n", .VOBJ [("k", .VNULL)]]) ∧
    (UniValue.VARR [.VNUM "1", .VSTR "a\n", .VOBJ [("k", .VNULL)]]).write =
      "[1,\"a\\u000a\",\x7b\"k\":null\x7d]" ∧
    ParseNonRFCJSONValue
        (UniValue.VARR [.VNUM "1", .VSTR "a\n", .VOBJ [("k", .VNULL)]]).write =
      .ok (.VARR [.VNUM "1", .VSTR "a\n", .VOBJ [("k", .VNULL)]]) :=
  ⟨rfl, by decide,
    C15_round_trip " [1, \"a\\n\", \x7b\"k\": null\x7d] "
      (.VARR [.VNUM "1", .VSTR "a\n", .VOBJ [("k", .VNULL)]]) rfl⟩

end RpcClient
